import Mathlib

/-!
Shallow embedding of the grep-like-tool regular-expression engine
(`src/symbol_table.rs`, `src/disjoint_set_union.rs`, `src/d_transition_function.rs`,
`src/n_transition_function.rs`, `src/dfa.rs`, `src/nfa.rs`, `src/parsing.rs`).

Modelling conventions:
* Rust `usize` state ids become `Nat`; machine-width overflow is modelled
  explicitly where it matters (`convert_to_dfa_init_num_states`).
* Rust `HashMap`/`HashSet` become association lists / lists used as sets.
  Iteration order of a Rust hash container is unspecified; every embedded
  operation below is order-insensitive in its set-level content, and we fix a
  canonical (insertion) order.  Where the source's arbitrary iteration order
  can influence concrete state numbering (never language or counts), this is
  noted at the definition.
* Fallible operations return `Except`/`Option`/dedicated result types; a Rust
  `panic!`/out-of-bounds abort is modelled by a dedicated constructor where a
  claim depends on it.
* Loops that Rust runs to completion are modelled with explicit fuel that is
  provably sufficient, or by well-founded recursion.
-/

namespace GrepTool

/-- `Symbol` from `src/symbol_table.rs`: `Epsilon` or `Character(c)`. -/
inductive Symbol
  | eps
  | ch (c : Char)
deriving DecidableEq, Repr

/-- `SymbolTable` from `src/symbol_table.rs`.  The Rust struct stores a
bijection `Symbol ↔ id` with `Epsilon ↔ 0` and successive ids for characters;
the ids are never observable through the operations used by the claims, so we
keep just the list of non-epsilon characters in insertion order (no
duplicates, maintained by `add_character`). -/
structure SymbolTable where
  chars : List Char
deriving DecidableEq, Repr

namespace SymbolTable

/-- `SymbolTable::new()`: only epsilon is present. -/
def new : SymbolTable := ⟨[]⟩

/-- `SymbolTable::add_character` (via `add_symbol`): no-op when present. -/
def add_character (t : SymbolTable) (c : Char) : SymbolTable :=
  if c ∈ t.chars then t else ⟨t.chars ++ [c]⟩

/-- `SymbolTable::symbols()`: all symbols, epsilon included. -/
def symbols (t : SymbolTable) : List Symbol :=
  Symbol.eps :: t.chars.map Symbol.ch

/-- `SymbolTable::len()`. -/
def len (t : SymbolTable) : Nat := t.chars.length + 1

/-- Modelled from the spec: the source compares symbol tables with `!=`
(`nfa.rs`, `dfa.rs`) but no `PartialEq` implementation for `SymbolTable` is
present under `src/`; §3 of the spec defines table equality as equality of the
symbol sets, which is what we embed. -/
def tables_equal (t1 t2 : SymbolTable) : Bool :=
  t1.chars.all (fun c => c ∈ t2.chars) && t2.chars.all (fun c => c ∈ t1.chars)

end SymbolTable

/-- `DTransitionFunction` from `src/d_transition_function.rs`: a finite map
`(state, non-epsilon symbol) → state`, embedded as a duplicate-key-free list of
`(source, character, target)` rows.  `add_transition` never stores an epsilon
key and never overwrites, so first-match lookup is the map lookup. -/
structure DTransitionFunction where
  rows : List (Nat × Char × Nat)
deriving DecidableEq, Repr

namespace DTransitionFunction

def new : DTransitionFunction := ⟨[]⟩

def lookup (f : DTransitionFunction) (s : Nat) (c : Char) : Option Nat :=
  (f.rows.find? (fun r => r.1 == s && r.2.1 == c)).map (fun r => r.2.2)

/-- `DTransitionFunction::add_transition`: error on an epsilon symbol or on a
second target for an occupied `(state, symbol)` key. -/
def add_transition (f : DTransitionFunction) (s : Nat) (sym : Symbol)
    (t : Nat) : Except Unit DTransitionFunction :=
  match sym with
  | Symbol.eps => Except.error ()
  | Symbol.ch c =>
      if (f.lookup s c).isSome then Except.error ()
      else Except.ok ⟨f.rows ++ [(s, c, t)]⟩

/-- `add_transition` at call sites that either `unwrap` (a Rust panic that is
unreachable for the inputs the claims quantify over) or discard the error with
`let _ = …`: on error the table is left unchanged. -/
def addI (f : DTransitionFunction) (s : Nat) (sym : Symbol)
    (t : Nat) : DTransitionFunction :=
  match f.add_transition s sym t with
  | Except.ok f' => f'
  | Except.error _ => f

/-- `DTransitionFunction::contains_state`: a row for this source exists.
In Rust a row is created only by a successful `add_transition` (the epsilon
check precedes entry creation, and a duplicate add leaves a previously
populated row in place), so presence of any `(s, _, _)` row is faithful. -/
def contains_state (f : DTransitionFunction) (s : Nat) : Bool :=
  f.rows.any (fun r => r.1 == s)

/-- `DTransitionFunction::is_valid_transition` (the DFA indexes it with a
`Symbol`; an epsilon key is never stored). -/
def is_valid_transition (f : DTransitionFunction) (s : Nat) (sym : Symbol) : Bool :=
  match sym with
  | Symbol.eps => false
  | Symbol.ch c => (f.lookup s c).isSome

/-- `DTransitionFunction::extend(k)`: the source removes buckets in
descending source order and re-inserts them shifted, precisely so that the net
effect is the total renaming `(s, a, t) ↦ (s+k, a, t+k)`, which we embed
directly. -/
def extend (f : DTransitionFunction) (k : Nat) : DTransitionFunction :=
  ⟨f.rows.map (fun r => (r.1 + k, r.2.1, r.2.2 + k))⟩

end DTransitionFunction

/-- `DFAError` from `src/custom_errors.rs` (payload strings dropped). -/
inductive DFAError
  | invalidState
  | invalidTransition
  | invalidSymbol
deriving DecidableEq, Repr

/-- `Result<bool, DFAError>` as returned by `DFA::run`. -/
inductive RunResult
  | ok (b : Bool)
  | err (e : DFAError)
deriving DecidableEq, Repr

/-- `DFA` from `src/dfa.rs`. -/
structure DFA where
  num_states : Nat
  symbol_table : SymbolTable
  states : List Nat
  begin_state_num : Nat
  end_state_num : Nat
  start_state : Nat
  final_states : List Nat
  transition_function : DTransitionFunction
deriving DecidableEq, Repr

namespace DFA

/-- `DFA::get_transition`. -/
def get_transition (d : DFA) (s : Nat) (sym : Symbol) : Option Nat :=
  match sym with
  | Symbol.eps => none
  | Symbol.ch c => d.transition_function.lookup s c

/-- The loop of `DFA::run`, walking from `cur`. -/
def runFrom (d : DFA) : Nat → List Char → RunResult
  | cur, [] => RunResult.ok (d.final_states.contains cur)
  | cur, c :: rest =>
      if ¬ d.transition_function.contains_state cur then
        RunResult.err DFAError.invalidState
      else if ¬ d.transition_function.is_valid_transition cur (Symbol.ch c) then
        RunResult.err DFAError.invalidTransition
      else
        d.runFrom ((d.transition_function.lookup cur c).getD 0) rest

/-- `DFA::run`. -/
def run (d : DFA) (input : List Char) : RunResult :=
  d.runFrom d.start_state input

/-- `DFA::from_string` (lines 61–144 of `dfa.rs`).  The Rust symbol loops
skip epsilon and visit the characters in hash order; the resulting transition
map does not depend on that order. -/
def from_string (s : List Char) (tbl : SymbolTable) : DFA :=
  let ns := s.length + 2
  let base : DFA :=
    { num_states := ns
      symbol_table := tbl
      states := List.range ns
      begin_state_num := 0
      end_state_num := ns - 1
      start_state := 0
      final_states := []
      transition_function := DTransitionFunction.new }
  if s.length == 0 then
    let tf := tbl.chars.foldl
      (fun f c => (f.addI 0 (Symbol.ch c) 1).addI 1 (Symbol.ch c) 1)
      DTransitionFunction.new
    { base with final_states := [0], transition_function := tf }
  else
    let fs := s.length
    let reject := s.length + 1
    let tf1 := (List.range s.length).foldl
      (fun f i => tbl.chars.foldl
        (fun f c =>
          if c == s.getD i ' ' then f.addI i (Symbol.ch c) (i + 1)
          else f.addI i (Symbol.ch c) reject) f)
      DTransitionFunction.new
    let tf2 := tbl.chars.foldl
      (fun f c => (f.addI fs (Symbol.ch c) reject).addI reject (Symbol.ch c) reject)
      tf1
    { base with final_states := [fs], transition_function := tf2 }

/-- `DFA::extend(increment)`.  The source shifts, in descending order, every
state in `[begin, end]` inside `states` and `final_states`; both sets are
always contained in that range, so the net effect is a pointwise `+ k`. -/
def extend (d : DFA) (k : Nat) : DFA :=
  { d with
    states := d.states.map (· + k)
    final_states := d.final_states.map (· + k)
    begin_state_num := d.begin_state_num + k
    end_state_num := d.end_state_num + k
    start_state := d.start_state + k
    transition_function := d.transition_function.extend k }

end DFA

/-- `DSU` from `src/disjoint_set_union.rs`, with the parent vector embedded as
a function (`new(n)` initialises every element to itself; indices `≥ n` are
never touched). -/
structure DSU where
  n : Nat
  parent : Nat → Nat

namespace DSU

/-- `DSU::new(n)`. -/
def new (n : Nat) : DSU := ⟨n, fun i => i⟩

/-- The recursion of `DSU::find_representative` with full path compression.
The Rust recursion walks the parent chain, which strictly decreases because a
union always makes the numerically smaller root the parent; `x + 1` fuel is
therefore always sufficient, and the fuel-out branch is unreachable on states
produced by `new`/`union`/`find`. -/
def find_aux : Nat → (Nat → Nat) → Nat → Nat × (Nat → Nat)
  | 0, p, x => (x, p)
  | fuel + 1, p, x =>
      if p x = x then (x, p)
      else
        let r := find_aux fuel p (p x)
        (r.1, fun y => if y = x then r.1 else r.2 y)

/-- `DSU::find_representative`. -/
def find_representative (d : DSU) (x : Nat) : Nat × DSU :=
  let r := find_aux (x + 1) d.parent x
  (r.1, ⟨d.n, r.2⟩)

/-- `DSU::union`: the numerically smaller root becomes the parent. -/
def union (d : DSU) (u v : Nat) : DSU :=
  let ru := d.find_representative u
  let rv := ru.2.find_representative v
  let d2 := rv.2
  if ru.1 = rv.1 then d2
  else if ru.1 < rv.1 then ⟨d2.n, fun y => if y = rv.1 then ru.1 else d2.parent y⟩
  else ⟨d2.n, fun y => if y = ru.1 then rv.1 else d2.parent y⟩

/-- `DSU::state_representative_map(offset)`: one entry per element `i`,
mapping `i + offset` to the *stored parent* of `i`, plus the offset.  (The
source reads `self.parent` directly; it does not call `find_representative`.) -/
def state_representative_map (d : DSU) (offset : Nat) : List (Nat × Nat) :=
  (List.range d.n).map (fun i => (i + offset, d.parent i + offset))

/-- `DSU::len()`: the number of distinct stored parent values. -/
def len (d : DSU) : Nat :=
  ((List.range d.n).map d.parent).dedup.length

end DSU

/-- First-match lookup in an association list (a Rust `HashMap` read). -/
def alook (m : List (Nat × Nat)) (s : Nat) : Option Nat :=
  (m.find? (fun p => p.1 == s)).map (fun p => p.2)

namespace DFA

/-- The BFS worklist loop shared by `DFA::cleanup` (which seeds the queue
with the hard-coded state `0`, see `dfa.rs` line 313) and, with the start
state as seed, by the reachability predicate used in the claims.  Pops the
front of the queue, skips it when visited, otherwise records it and pushes
its unvisited successors over all table symbols. -/
def bfs_pushes (d : DFA) (v : List Nat) (s : Nat) : List Nat :=
  d.symbol_table.symbols.filterMap (fun sym =>
    match d.get_transition s sym with
    | some t => if v.contains t then none else some t
    | none => none)

def bfs_go (d : DFA) : Nat → List Nat → List Nat → List Nat
  | 0, _, visited => visited
  | _ + 1, [], visited => visited
  | fuel + 1, s :: rest, visited =>
      if visited.contains s then d.bfs_go fuel rest visited
      else d.bfs_go fuel (rest ++ d.bfs_pushes (visited ++ [s]) s) (visited ++ [s])

/-- Fuel that provably outlasts the BFS: every queue entry is popped once and
each visit pushes at most one successor per table character. -/
def bfs_fuel (d : DFA) : Nat :=
  2 + (d.transition_function.rows.length + 2) * (d.symbol_table.chars.length + 2)

/-- The visited set of `DFA::cleanup`'s BFS — seeded with state `0` exactly
as in the source, *not* with `start_state`. -/
def cleanup_visited (d : DFA) : List Nat :=
  d.bfs_go d.bfs_fuel [0] []

/-- Number a list of states consecutively starting at `k`. -/
def numberFrom : List Nat → Nat → List (Nat × Nat)
  | [], _ => []
  | s :: rest, k => (s, k) :: numberFrom rest (k + 1)

/-- The renumbering map of `DFA::cleanup`: `start_state ↦ 0`, then the other
visited states in visit order get `1, 2, …`. -/
def cleanup_map (start : Nat) (visited : List Nat) : List (Nat × Nat) :=
  (start, 0) :: numberFrom (visited.filter (fun s => s ≠ start)) 1

/-- `DFA::cleanup` (lines 311–396 of `dfa.rs`). -/
def cleanup (d : DFA) : DFA :=
  let visited := d.cleanup_visited
  let m := cleanup_map d.start_state visited
  let tf := d.transition_function.rows.foldl
    (fun f r =>
      match alook m r.1, alook m r.2.2 with
      | some s', some t' => f.addI s' (Symbol.ch r.2.1) t'
      | _, _ => f)
    DTransitionFunction.new
  { num_states := visited.length
    symbol_table := d.symbol_table
    states := List.range visited.length
    begin_state_num := 0
    end_state_num := visited.length - 1
    start_state := 0
    final_states := d.final_states.filterMap (alook m)
    transition_function := tf }

/-- Reachability from the DFA's start state (the set §4.6 of the spec says
`cleanup` should keep); used to state the claims' totality hypotheses. -/
def reachable_states (d : DFA) : List Nat :=
  d.bfs_go d.bfs_fuel [d.start_state] []

/-- The DFA's transition function is total on non-epsilon symbols over the
states reachable from its start state. -/
def total_on_reachable (d : DFA) : Bool :=
  d.reachable_states.all (fun s =>
    d.symbol_table.chars.all (fun c => (d.transition_function.lookup s c).isSome))

/-- The ordered pair list `(first, second)` for `first ∈ [b, e]`,
`second ∈ [first+1, e]`, as iterated by the minimization loops. -/
def statePairs (b e : Nat) : List (Nat × Nat) :=
  (List.range' b (e + 1 - b)).flatMap
    (fun i => (List.range' (i + 1) (e - i)).map (fun j => (i, j)))

/-- Insert a pair into the marked set (setting `marked[i][j] = true`). -/
def pinsert (p : Nat × Nat) (m : List (Nat × Nat)) : List (Nat × Nat) :=
  if m.contains p then m else p :: m

/-- The initialization of the pair-marking matrix (lines 201–217 of
`dfa.rs`): mark `(i - offset, j - offset)` when exactly one of `i, j` is
final. -/
def mark_init (d : DFA) : List (Nat × Nat) :=
  let off := d.begin_state_num
  (statePairs d.begin_state_num d.end_state_num).foldl
    (fun m p =>
      if (d.final_states.contains p.1 && !(d.final_states.contains p.2))
          || (!(d.final_states.contains p.1) && d.final_states.contains p.2) then
        pinsert (p.1 - off, p.2 - off) m
      else m)
    []

/-- One in-place sweep of the marking loop (lines 222–257 of `dfa.rs`).
Marks made earlier in the same sweep are visible to later pairs, exactly as
in the mutating source.  The source indexes the transition map and panics on
a missing entry; the
`getD 0` default is never used on the cleaned-up, total DFAs this is run on. -/
def mark_sweep (d : DFA) (m0 : List (Nat × Nat)) : List (Nat × Nat) × Bool :=
  let off := d.begin_state_num
  (statePairs d.begin_state_num d.end_state_num).foldl
    (fun acc p =>
      if acc.1.contains (p.1 - off, p.2 - off) then acc
      else
        d.symbol_table.chars.foldl
          (fun acc2 c =>
            let n1 := (d.transition_function.lookup p.1 c).getD 0
            let n2 := (d.transition_function.lookup p.2 c).getD 0
            let q := (min n1 n2 - off, max n1 n2 - off)
            if acc2.1.contains q && !(acc2.1.contains (p.1 - off, p.2 - off)) then
              ((p.1 - off, p.2 - off) :: acc2.1, true)
            else acc2)
          acc)
    (m0, false)

/-- The outer `loop` of the marking phase: sweep until a full sweep changes
nothing.  Each changing sweep adds at least one of the at most `n²` pairs, so
`n² + 1` sweeps always reach the fixed point. -/
def mark_loop (d : DFA) : Nat → List (Nat × Nat) → List (Nat × Nat)
  | 0, m => m
  | fuel + 1, m =>
      let r := d.mark_sweep m
      if r.2 then d.mark_loop fuel r.1 else m

/-- The marked matrix at the fixed point, for an (already cleaned-up) DFA. -/
def minimization_marked (d : DFA) : List (Nat × Nat) :=
  d.mark_loop (d.num_states * d.num_states + 1) d.mark_init

/-- The DSU built from the unmarked pairs (lines 264–272 of `dfa.rs`),
processed in the same lexicographic order as the source loops. -/
def minimization_dsu (d : DFA) : DSU :=
  let off := d.begin_state_num
  let marked := d.minimization_marked
  (statePairs d.begin_state_num d.end_state_num).foldl
    (fun dsu p =>
      if marked.contains (p.1 - off, p.2 - off) then dsu
      else dsu.union (p.1 - off) (p.2 - off))
    (DSU.new d.num_states)

/-- `DFA::minimized_dfa` (lines 191–308 of `dfa.rs`).  Note that
`num_states` of the result is `state_representative_map.len()` — the number
of *elements* of the DSU (one map entry per state of the cleaned-up DFA) —
and not the number of DSU roots. -/
def minimized_dfa (d0 : DFA) : DFA :=
  let d := d0.cleanup
  let dsu := d.minimization_dsu
  let srm := dsu.state_representative_map d.begin_state_num
  let rep := fun s => (alook srm s).getD s
  let len := srm.length
  { num_states := len
    symbol_table := d.symbol_table
    states := List.range' d.begin_state_num len
    begin_state_num := d.begin_state_num
    end_state_num := d.begin_state_num + len - 1
    start_state := rep d.begin_state_num
    final_states := d.final_states.map rep
    transition_function := d.transition_function.rows.foldl
      (fun f r =>
        if rep r.1 == r.1 then f.addI r.1 (Symbol.ch r.2.1) (rep r.2.2) else f)
      DTransitionFunction.new }

/-- `DFA::complement` (lines 522–534 of `dfa.rs`): flip the final states
over `states`, then minimize. -/
def complement (d : DFA) : DFA :=
  let flipped :=
    { d with final_states := d.states.filter (fun s => !(d.final_states.contains s)) }
  flipped.minimized_dfa

/-- The product-pair numbering of `DFA::intersection`: the start pair gets
`0`, the remaining pairs get `1, 2, …` in the lexicographic iteration order
of the two nested range loops. -/
def pairNumberFrom : List (Nat × Nat) → Nat → List ((Nat × Nat) × Nat)
  | [], _ => []
  | p :: rest, k => (p, k) :: pairNumberFrom rest (k + 1)

/-- The state-pair grid iterated by `intersection`'s nested range loops. -/
def gridPairs (a b : DFA) : List (Nat × Nat) :=
  (List.range' a.begin_state_num (a.end_state_num + 1 - a.begin_state_num)).flatMap
    (fun p => (List.range' b.begin_state_num (b.end_state_num + 1 - b.begin_state_num)).map
      (fun q => (p, q)))

def pair_numbering (a b : DFA) : List ((Nat × Nat) × Nat) :=
  let startPair := (a.start_state, b.start_state)
  ((a.start_state, b.start_state), 0) ::
    pairNumberFrom ((gridPairs a b).filter (fun pr => pr ≠ startPair)) 1

/-- Lookup in the pair numbering (`pair_to_state_number[...]`; the source
panics on a missing pair, which cannot happen when both DFAs' transitions stay
inside their state ranges). -/
def plook (m : List ((Nat × Nat) × Nat)) (pr : Nat × Nat) : Nat :=
  ((m.find? (fun e => e.1 == pr)).map (fun e => e.2)).getD 0

/-- Final states of the raw product: the numbered pairs whose two components
are final in their respective machines (lines 560–569 of `dfa.rs`). -/
def prodFinals (a b : DFA) : List Nat :=
  ((gridPairs a b).filter
    (fun pr => a.final_states.contains pr.1 && b.final_states.contains pr.2)).map
    (plook (pair_numbering a b))

/-- Transition function of the raw product: for every state pair and table
character on which both machines step, an edge between the numbered pairs
(lines 571–593 of `dfa.rs`). -/
def prodTF (a b : DFA) : DTransitionFunction :=
  (gridPairs a b).foldl
    (fun f pr =>
      a.symbol_table.chars.foldl
        (fun f c =>
          match a.transition_function.lookup pr.1 c, b.transition_function.lookup pr.2 c with
          | some ta, some tb =>
              f.addI (plook (pair_numbering a b) pr) (Symbol.ch c)
                (plook (pair_numbering a b) (ta, tb))
          | _, _ => f)
        f)
    DTransitionFunction.new

/-- The raw product machine assembled by `DFA::intersection` before the final
minimization (lines 595–612 of `dfa.rs`). -/
def prodDFA (a b : DFA) : DFA :=
  { num_states := a.num_states * b.num_states
    symbol_table := a.symbol_table
    states := []
    begin_state_num := 0
    end_state_num := a.num_states * b.num_states - 1
    start_state := 0
    final_states := prodFinals a b
    transition_function := prodTF a b }

/-- `DFA::intersection` (lines 537–615 of `dfa.rs`).  `none` models the
`panic!` on differing symbol tables. -/
def intersection (a : DFA) (b : DFA) : Option DFA :=
  if ¬ (SymbolTable.tables_equal a.symbol_table b.symbol_table) then none
  else some (prodDFA a b).minimized_dfa

end DFA

/-- `NTransitionFunction` from `src/n_transition_function.rs`: the relation
`(state, symbol) → set of states`, embedded as a list of edges (duplicates
never stored: `add_transition` reports an exact duplicate as an error and
leaves the relation unchanged). -/
structure NTransitionFunction where
  rows : List (Nat × Symbol × Nat)
deriving DecidableEq, Repr

namespace NTransitionFunction

def new : NTransitionFunction := ⟨[]⟩

/-- The edge set at `(state, symbol)`. -/
def targets (f : NTransitionFunction) (s : Nat) (sym : Symbol) : List Nat :=
  (f.rows.filter (fun r => r.1 == s && r.2.1 == sym)).map (fun r => r.2.2)

/-- `NTransitionFunction::get_transition`: `none` when the `(state, symbol)`
entry does not exist (an entry is populated exactly by a successful add). -/
def get_transition (f : NTransitionFunction) (s : Nat) (sym : Symbol) :
    Option (List Nat) :=
  let t := f.targets s sym
  if t.isEmpty then none else some t

/-- `NTransitionFunction::add_transition`, with the callers' uniform
treatment of the recoverable `ExistingTransition` error (`let _ = …` /
`unwrap` on paths where it cannot fire): an exact duplicate leaves the
relation unchanged. -/
def addI (f : NTransitionFunction) (s : Nat) (sym : Symbol)
    (t : Nat) : NTransitionFunction :=
  if (f.targets s sym).contains t then f else ⟨f.rows ++ [(s, sym, t)]⟩

/-- `NTransitionFunction::extend(k)`: net effect of the descending-order
rebucketing is the renaming `(s, a, t) ↦ (s+k, a, t+k)`. -/
def extend (f : NTransitionFunction) (k : Nat) : NTransitionFunction :=
  ⟨f.rows.map (fun r => (r.1 + k, r.2.1, r.2.2 + k))⟩

/-- `NTransitionFunction::combine_transition`: per-key union of the two
relations (`self` extended with every edge of `other` not already present). -/
def combine_transition (f : NTransitionFunction) (other : NTransitionFunction) :
    NTransitionFunction :=
  other.rows.foldl (fun acc r => acc.addI r.1 r.2.1 r.2.2) f

end NTransitionFunction

/-- `NFA` from `src/nfa.rs`. -/
structure NFA where
  num_states : Nat
  symbol_table : SymbolTable
  states : List Nat
  begin_state_num : Nat
  end_state_num : Nat
  start_state : Nat
  final_state : Nat
  transition_function : NTransitionFunction
deriving DecidableEq, Repr

namespace NFA

/-- `NFA::from_symbol`. -/
def from_symbol (sym : Symbol) (tbl : SymbolTable) : NFA :=
  match sym with
  | Symbol.eps =>
      { num_states := 1, symbol_table := tbl, states := [0]
        begin_state_num := 0, end_state_num := 0
        start_state := 0, final_state := 0
        transition_function := NTransitionFunction.new }
  | Symbol.ch c =>
      { num_states := 2, symbol_table := tbl, states := [0, 1]
        begin_state_num := 0, end_state_num := 1
        start_state := 0, final_state := 1
        transition_function := NTransitionFunction.new.addI 0 (Symbol.ch c) 1 }

/-- `NFA::extend(increment)` (same set-level shift as `DFA::extend`). -/
def extend (n : NFA) (k : Nat) : NFA :=
  { n with
    states := n.states.map (· + k)
    begin_state_num := n.begin_state_num + k
    end_state_num := n.end_state_num + k
    start_state := n.start_state + k
    final_state := n.final_state + k
    transition_function := n.transition_function.extend k }

/-- `NFA::get_transition`. -/
def get_transition (n : NFA) (s : Nat) (sym : Symbol) : Option (List Nat) :=
  n.transition_function.get_transition s sym

/-- `NFA::union` (lines 223–276 of `nfa.rs`).  `none` models the `panic!` on
differing symbol tables. -/
def union (a : NFA) (b : NFA) : Option NFA :=
  if ¬ (SymbolTable.tables_equal a.symbol_table b.symbol_table) then none
  else
    let x := a.num_states
    let y := b.num_states
    let a' := a.extend 1
    let b' := b.extend (x + 1)
    let tf0 := a'.transition_function.combine_transition b'.transition_function
    let tf := (((tf0.addI 0 Symbol.eps 1).addI 0 Symbol.eps (x + 1)).addI
      x Symbol.eps (x + y + 1)).addI (x + y) Symbol.eps (x + y + 1)
    some
      { num_states := x + y + 2
        symbol_table := a.symbol_table
        states := (([0, x + y + 1] ++ a'.states) ++ b'.states).dedup
        begin_state_num := 0
        end_state_num := x + y + 1
        start_state := 0
        final_state := x + y + 1
        transition_function := tf }

/-- `NFA::concat` (lines 279–336 of `nfa.rs`).  The result's `final_state`
is `other.final_state + x + 1`, computed from the *unshifted* operand exactly
as in the source. -/
def concat (a : NFA) (b : NFA) : Option NFA :=
  if ¬ (SymbolTable.tables_equal a.symbol_table b.symbol_table) then none
  else
    let x := a.num_states
    let y := b.num_states
    let a' := a.extend 1
    let b' := b.extend (x + 1)
    let tf0 := a'.transition_function.combine_transition b'.transition_function
    let tf := (tf0.addI 0 Symbol.eps a'.start_state).addI
      a'.final_state Symbol.eps b'.start_state
    some
      { num_states := x + y + 1
        symbol_table := a.symbol_table
        states := (([0] ++ a'.states) ++ b'.states).dedup
        begin_state_num := 0
        end_state_num := x + y
        start_state := 0
        final_state := b.final_state + x + 1
        transition_function := tf }

/-- `NFA::kleene_star` (lines 339–397 of `nfa.rs`). -/
def kleene_star (a : NFA) : NFA :=
  let x := a.num_states
  let a' := a.extend 1
  let tf := (((a'.transition_function.addI 0 Symbol.eps a'.start_state).addI
    a'.final_state Symbol.eps (x + 1)).addI (x + 1) Symbol.eps 0).addI
    0 Symbol.eps (x + 1)
  { num_states := x + 2
    symbol_table := a.symbol_table
    states := ([0, x + 1] ++ a'.states).dedup
    begin_state_num := 0
    end_state_num := x + 1
    start_state := 0
    final_state := x + 1
    transition_function := tf }

/-- The BFS of `NFA::epsilon_closure`, over epsilon edges only.  The `ans`
set of the source equals the visited set once the queue is empty (the start
is popped first, and every state inserted into `ans` is also pushed). -/
def eps_go (n : NFA) : Nat → List Nat → List Nat → List Nat
  | 0, _, visited => visited
  | fuel + 1, [], visited => (fun _ => visited) fuel
  | fuel + 1, s :: rest, visited =>
      if visited.contains s then n.eps_go fuel rest visited
      else
        let visited' := visited ++ [s]
        let pushes := (n.transition_function.targets s Symbol.eps).filter
          (fun t => !(visited'.contains t))
        n.eps_go fuel (rest ++ pushes) visited'

/-- Fuel bound for the epsilon BFS: at most one push per relation edge. -/
def eps_fuel (n : NFA) : Nat := n.transition_function.rows.length + 2

/-- `NFA::epsilon_closure(state)`. -/
def epsilon_closure (n : NFA) (s : Nat) : List Nat :=
  n.eps_go n.eps_fuel [s] []

/-- The fixed-point loop of `NFA::epsilon_closure_of_set_of_states`: add the
closure of every member until nothing new appears.  Each productive round
adds at least one state drawn from the edge targets, bounding the rounds. -/
def eps_set_go (n : NFA) : Nat → List Nat → List Nat
  | 0, ans => ans
  | fuel + 1, ans =>
      let newStates := (ans.flatMap (fun s => n.epsilon_closure s)).filter
        (fun t => !(ans.contains t))
      if newStates.isEmpty then ans else n.eps_set_go fuel (ans ++ newStates.dedup)

/-- `NFA::epsilon_closure_of_set_of_states` — `[]` for the empty set, else
the epsilon-closure fixed point of the members. -/
def epsilon_closure_of_set (n : NFA) (states : List Nat) : List Nat :=
  if states.isEmpty then []
  else n.eps_set_go (n.transition_function.rows.length + 2) states

end NFA

namespace DFA

/-- Canonical form of a `StateSet` (`src/state.rs`): `StateSet` compares and
hashes by content, so subsets are represented by their sorted
duplicate-free member list. -/
def canonSet (l : List Nat) : List Nat :=
  l.dedup.mergeSort (fun a b => a ≤ b)

/-- Nat of the subset-construction loop of `DFA::convert_to_dfa`:
the subset-to-number assignment (position = number, mirroring
`get_state_equivalent_number`), the visited numbers, the queue of subsets,
and the accumulated final states and transitions. -/
structure SubsetLoopState where
  assign : List (List Nat)
  visited : List Nat
  queue : List (List Nat)
  finals : List Nat
  tf : DTransitionFunction
deriving Repr

/-- `get_state_equivalent_number`: look the canonical subset up in the
assignment, appending it with the next fresh number when new. -/
def subsetNum (assign : List (List Nat)) (s : List Nat) :
    Nat × List (List Nat) :=
  match assign.findIdx? (fun t => t == s) with
  | some i => (i, assign)
  | none => (assign.length, assign ++ [s])

/-- One iteration of the subset-construction worklist loop (lines 458–507 of
`dfa.rs`): pop a subset, number it, skip it when visited, otherwise record
acceptance and add one edge per non-epsilon symbol to the numbered
epsilon-closed successor subset, queueing unvisited successors. -/
def subsetStep (nfa : NFA) (st : SubsetLoopState) (cur : List Nat) :
    SubsetLoopState :=
  let n1 := subsetNum st.assign cur
  if st.visited.contains n1.1 then { st with assign := n1.2 }
  else
    let visited' := st.visited ++ [n1.1]
    let finals' := if cur.contains nfa.final_state
      then st.finals ++ [n1.1] else st.finals
    nfa.symbol_table.chars.foldl
      (fun st c =>
        let u := cur.flatMap (fun s =>
          ((nfa.get_transition s (Symbol.ch c)).getD []))
        let nxt := canonSet (nfa.epsilon_closure_of_set (canonSet u))
        let n2 := subsetNum st.assign nxt
        let st :=
          { st with
            assign := n2.2
            tf := st.tf.addI n1.1 (Symbol.ch c) n2.1
            queue := if st.visited.contains n2.1 then st.queue
              else st.queue ++ [nxt] }
        st)
      { st with assign := n1.2, visited := visited', finals := finals' }

/-- The subset-construction worklist loop. -/
def subsetLoop (nfa : NFA) : Nat → SubsetLoopState → SubsetLoopState
  | 0, st => st
  | fuel + 1, st =>
      match st.queue with
      | [] => st
      | cur :: rest => subsetLoop nfa fuel (subsetStep nfa { st with queue := rest } cur)

/-- Fuel for the subset loop: at most `2^|NFA states| + 1` distinct subsets
are ever numbered, each visit pushes at most one subset per character, and
every iteration pops one queue entry. -/
def subset_fuel (nfa : NFA) : Nat :=
  2 + (2 ^ nfa.num_states + 2) * (nfa.symbol_table.chars.length + 2)

/-- The final state of the subset-construction loop, started from the
epsilon closure of the NFA's start state. -/
def subset_construction_steps (nfa : NFA) : SubsetLoopState :=
  subsetLoop nfa (subset_fuel nfa)
    { assign := [], visited := [], queue := [canonSet (nfa.epsilon_closure nfa.start_state)],
      finals := [], tf := DTransitionFunction.new }

/-- `2_u32.pow(nfa.num_states() as u32)`, the value `convert_to_dfa` first
writes into `num_states` (line 446 of `dfa.rs`): `u32::pow` is checked
arithmetic, so the construction of this initial field value fails (panics in
a debug build) as soon as `2^n` exceeds `u32::MAX`.  The field is then
overwritten with `visited.len()` at line 509 before the function returns. -/
def convert_to_dfa_init_num_states (n : Nat) : Option Nat :=
  if 2 ^ n ≤ 4294967295 then some (2 ^ n) else none

/-- Lines 424–511 of `DFA::convert_to_dfa`: the un-minimized subset DFA.
Its `num_states` is the visited-subset count.  (The Rust symbol iteration
order only permutes which subset receives which number.) -/
def subset_construction (nfa : NFA) : DFA :=
  let st := subset_construction_steps nfa
  { num_states := st.visited.length
    symbol_table := nfa.symbol_table
    states := st.visited
    begin_state_num := 0
    end_state_num := st.visited.length - 1
    start_state := 0
    final_states := st.finals
    transition_function := st.tf }

/-- `DFA::convert_to_dfa`: subset construction followed by minimization
(line 514 of `dfa.rs`). -/
def convert_to_dfa (nfa : NFA) : DFA :=
  (subset_construction nfa).minimized_dfa

end DFA

/-! ## The regex surface-syntax scanner (`src/parsing.rs`) -/

/-- Outcome of `create_nfa_from_reg_ex`: a parsed NFA, the recoverable
`ParsingError::ParseError`, or a Rust process abort (out-of-bounds slice
index or `panic!`). -/
inductive ParseOutcome
  | ok (n : NFA)
  | err
  | panic
deriving DecidableEq, Repr

/-- Operator tokens of the scanner's string stack (`"("`, `"concat"`,
`"union"`, `"star"`). -/
inductive Tok
  | lparen
  | tconcat
  | tunion
  | tstar
deriving DecidableEq, Repr

/-- `&input[i..i+pat.len()] == pat` (false whenever fewer than `pat.length`
characters remain, in which case the Rust slice would also not equal `pat` —
byte-slicing itself stays in bounds at every use site below because of the
preceding length guards). -/
def matchAt (input : List Char) (i : Nat) (pat : List Char) : Bool :=
  (input.drop i).take pat.length == pat

/-- Result of the `')'` stack-popping loop. -/
inductive PopResult
  | ok (sstack : List Tok) (nstack : List NFA)
  | err
  | panic
deriving DecidableEq, Repr

/-- The `while let Some(string) = string_stack.pop()` loop of the `')'`
branch (lines 82–120 of `parsing.rs`): apply operators until the matching
`'('` (or until the stack runs out, which simply ends the loop).  The scanner
below threads fuel for its loop; the index strictly increases at every
iteration and the loop stops once it reaches the input length, so fuel
`input.length + 1` never runs out. -/
def popUntil : List Tok → List NFA → PopResult
  | [], ns => PopResult.ok [] ns
  | Tok.lparen :: rest, ns => PopResult.ok rest ns
  | Tok.tstar :: rest, ns =>
      match ns with
      | [] => PopResult.err
      | n :: ns' => popUntil rest (n.kleene_star :: ns')
  | Tok.tunion :: rest, ns =>
      match ns with
      | second :: first :: ns' =>
          match first.union second with
          | some u => popUntil rest (u :: ns')
          | none => PopResult.panic
      | _ => PopResult.err
  | Tok.tconcat :: rest, ns =>
      match ns with
      | second :: first :: ns' =>
          match first.concat second with
          | some c => popUntil rest (c :: ns')
          | none => PopResult.panic
      | _ => PopResult.err

/-- The scanning loop of `create_nfa_from_reg_ex` (lines 28–127 of
`parsing.rs`).  Exits and checks `nfa_stack.len() == 1` once `i` reaches the
end.  The `'s'` branch faithfully reproduces the source's bounds checks: it
reads `bytes[i + 8]` after only establishing `i + 7 < n`, so an input ending
in `symbol(<c>` aborts with an out-of-bounds index (`ParseOutcome.panic`). -/
def scanRegEx (tbl : SymbolTable) (input : List Char) :
    Nat → Nat → List Tok → List NFA → ParseOutcome
  | 0, _, _, _ => ParseOutcome.err
  | fuel + 1, i, sstack, nstack =>
    let n := input.length
    if i < n then
      let b := input.getD i ' '
      if b = 'c' then
        if i + 7 ≥ n then ParseOutcome.err
        else if matchAt input i "concat(".toList then
          scanRegEx tbl input fuel (i + 7) (Tok.tconcat :: Tok.lparen :: sstack) nstack
        else ParseOutcome.err
      else if b = 'u' then
        if i + 6 ≥ n then ParseOutcome.err
        else if matchAt input i "union(".toList then
          scanRegEx tbl input fuel (i + 6) (Tok.tunion :: Tok.lparen :: sstack) nstack
        else ParseOutcome.err
      else if b = 's' then
        if i + 5 ≥ n then ParseOutcome.err
        else if matchAt input i "star(".toList then
          scanRegEx tbl input fuel (i + 5) (Tok.tstar :: Tok.lparen :: sstack) nstack
        else if i + 7 ≥ n then ParseOutcome.err
        else if matchAt input i "symbol(".toList then
          match input[i + 8]? with
          | none => ParseOutcome.panic
          | some b8 =>
              if b8 = ')' then
                let atom := NFA.from_symbol (Symbol.ch (input.getD (i + 7) ' ')) tbl
                scanRegEx tbl input fuel (i + 9) sstack (atom :: nstack)
              else ParseOutcome.err
        else ParseOutcome.err
      else if b = ')' then
        match popUntil sstack nstack with
        | PopResult.ok sstack' nstack' => scanRegEx tbl input fuel (i + 1) sstack' nstack'
        | PopResult.err => ParseOutcome.err
        | PopResult.panic => ParseOutcome.panic
      else if b = ',' then
        scanRegEx tbl input fuel (i + 1) sstack nstack
      else ParseOutcome.err
    else
      match nstack with
      | [nfa] => ParseOutcome.ok nfa
      | _ => ParseOutcome.err

/-- The `extract_symbols` loop (lines 146–165 of `parsing.rs`): scan for
`symbol(<c>)` occurrences while `i + 8 < n`, collecting the enclosed
characters (first occurrence order; the Rust `HashSet` forgets order, which
only permutes unobservable symbol-table ids).  `none` models the `ParseError`
on a `symbol(` whose 8th following byte is not `')'`. -/
def extract_symbols_go (input : List Char) : Nat → Nat → List Char → Option (List Char)
  | 0, _, _ => none
  | fuel + 1, i, acc =>
    if i + 8 < input.length then
      if matchAt input i "symbol(".toList then
        if input.getD (i + 8) ' ' = ')' then
          let c := input.getD (i + 7) ' '
          extract_symbols_go input fuel (i + 9) (if c ∈ acc then acc else acc ++ [c])
        else none
      else extract_symbols_go input fuel (i + 1) acc
    else some acc

/-- `extract_symbols`.  The loop index strictly increases at each iteration
and the loop exits once `i + 8` reaches the input length, so fuel
`input.length + 1` never runs out. -/
def extract_symbols (input : List Char) : Option (List Char) :=
  extract_symbols_go input (input.length + 1) 0 []

/-- `create_symbol_table`. -/
def create_symbol_table (input : List Char) : Option SymbolTable :=
  (extract_symbols input).map (fun cs => cs.foldl SymbolTable.add_character SymbolTable.new)

/-- `create_nfa_from_reg_ex` (lines 20–134 of `parsing.rs`). -/
def create_nfa_from_reg_ex (input : List Char) : ParseOutcome :=
  match create_symbol_table input with
  | none => ParseOutcome.err
  | some tbl => scanRegEx tbl input (input.length + 1) 0 [] []

/-- Outcome of `create_dfa_from_reg_ex`. -/
inductive DfaParseOutcome
  | ok (d : DFA)
  | err
  | panic
deriving DecidableEq, Repr

/-- `create_dfa_from_reg_ex` (lines 137–143 of `parsing.rs`): parse to an
NFA, run the subset construction (which minimizes, line 514 of `dfa.rs`),
then minimize once more. -/
def create_dfa_from_reg_ex (input : List Char) : DfaParseOutcome :=
  match create_nfa_from_reg_ex input with
  | ParseOutcome.ok nfa => DfaParseOutcome.ok (DFA.convert_to_dfa nfa).minimized_dfa
  | ParseOutcome.err => DfaParseOutcome.err
  | ParseOutcome.panic => DfaParseOutcome.panic

/-! ## Concrete instances used by the claims -/

/-- The symbol table `{ε, a}`. -/
def table_a : SymbolTable := SymbolTable.new.add_character 'a'

/-- `DFA::from_string("", {ε,a})` shifted by `extend(1)`: a two-state DFA
over `{a}` with states `{1, 2}`, start `1`, finals `{1}`,
`δ(1,a) = δ(2,a) = 2`.  It accepts exactly `""` and is total on `a` over its
reachable part `{1, 2}`. -/
def extended_dfa : DFA := (DFA.from_string [] table_a).extend 1

/-- A three-state DFA over `{a}` with no final states:
`δ(0,a) = 1, δ(1,a) = 2, δ(2,a) = 2`, start `0`.  Every state is reachable,
`δ` is total, and all three states are Myhill–Nerode equivalent (the accepted
language is empty). -/
def dfa_three : DFA :=
  { num_states := 3
    symbol_table := table_a
    states := [0, 1, 2]
    begin_state_num := 0
    end_state_num := 2
    start_state := 0
    final_states := []
    transition_function := ⟨[(0, 'a', 1), (1, 'a', 2), (2, 'a', 2)]⟩ }

/-- `DSU::new(3)` followed by `union(1,2); union(0,2)`: afterwards the stored
parent vector is `[0, 0, 1]` — element `2`'s stored parent `1` is not a root. -/
def dsu_chain : DSU := ((DSU.new 3).union 1 2).union 0 2

/-- A 32-state NFA over `{a}` with no transitions (any NFA with at least 32
states triggers the `2_u32.pow` overflow in `convert_to_dfa`). -/
def wide_nfa : NFA :=
  { num_states := 32
    symbol_table := table_a
    states := List.range 32
    begin_state_num := 0
    end_state_num := 31
    start_state := 0
    final_state := 31
    transition_function := ⟨[]⟩ }

/-- DSU values reachable from `DSU::new` by `union` and
`find_representative` calls, as quantified over by claim C9. -/
inductive DSU.Built : DSU → Prop
  | new (n : Nat) : DSU.Built (DSU.new n)
  | union {d : DSU} (u v : Nat) : DSU.Built d → DSU.Built (d.union u v)
  | find {d : DSU} (x : Nat) : DSU.Built d → DSU.Built (d.find_representative x).2

/-- States reachable from the DFA's start state by chains of transitions on
table characters — the reachability notion of the claims' hypotheses. -/
inductive DFA.Reach (d : DFA) : Nat → Prop
  | start : DFA.Reach d d.start_state
  | step {s t : Nat} {c : Char} : DFA.Reach d s →
      c ∈ d.symbol_table.chars → d.transition_function.lookup s c = some t →
      DFA.Reach d t

/-- Key: `(source, character)` pairs of the stored rows. -/
def DTransitionFunction.keys (f : DTransitionFunction) : List (Nat × Char) :=
  f.rows.map (fun r => (r.1, r.2.1))

/-- Well-formedness of a DFA value as the claims quantify over it: the start
state and every stored transition stay inside the contiguous state range
`[begin_state_num, end_state_num]`, and transitions are labelled with symbol
table characters. -/
def DFA.wf (d : DFA) : Prop :=
  d.begin_state_num ≤ d.start_state ∧ d.start_state ≤ d.end_state_num ∧
  ∀ r ∈ d.transition_function.rows,
    d.begin_state_num ≤ r.1 ∧ r.1 ≤ d.end_state_num ∧
    d.begin_state_num ≤ r.2.2 ∧ r.2.2 ≤ d.end_state_num ∧
    r.2.1 ∈ d.symbol_table.chars

/-- The result of `DFA::intersection` run on a word (`InvalidState` stands
in for the panic branch, which the C7 theorem separately characterizes). -/
def DFA.intersection_run (a b : DFA) (w : List Char) : RunResult :=
  match a.intersection b with
  | some d => d.run w
  | none => RunResult.err DFAError.invalidState

/-- A cleaned-up machine in the normal form `minimized_dfa` relies on:
states are `0 … num_states−1` with start `0`, transitions stay in range on
table characters with unambiguous keys, and final states are in range. -/
def DFA.clean (e : DFA) : Prop :=
  e.begin_state_num = 0 ∧ e.start_state = 0 ∧ 1 ≤ e.num_states ∧
  e.end_state_num = e.num_states - 1 ∧
  (∀ r ∈ e.transition_function.rows,
    r.1 < e.num_states ∧ r.2.2 < e.num_states ∧ r.2.1 ∈ e.symbol_table.chars) ∧
  e.transition_function.keys.Nodup ∧
  (∀ f ∈ e.final_states, f < e.num_states)

/-- Totality of the transition function over the whole (dense) state range. -/
def DFA.totalAll (e : DFA) : Prop :=
  ∀ s, s < e.num_states → ∀ c ∈ e.symbol_table.chars,
    (e.transition_function.lookup s c).isSome = true

/-- Boolean test that the (unordered) pair `{i, j}` is unmarked. -/
def pairUnmarked (M : List (Nat × Nat)) (i j : Nat) : Bool :=
  i == j || !(M.contains (min i j, max i j))

/-- The least state equivalent to `x` according to the marked matrix (used
to describe the DSU contents after the union loop). -/
def classMin (M : List (Nat × Nat)) (n x : Nat) : Nat :=
  ((List.range n).find? (fun y => pairUnmarked M y x)).getD x

/-- The ordered pair of successors the sweep inspects for the pair `p` on the
character `c` (`dfa.rs` lines 234–239; the `getD 0` default mirrors the
indexing panic, unreachable on the total machines the phase runs on). -/
def DFA.succPair (d : DFA) (p : Nat × Nat) (c : Char) : Nat × Nat :=
  (min ((d.transition_function.lookup p.1 c).getD 0)
     ((d.transition_function.lookup p.2 c).getD 0),
   max ((d.transition_function.lookup p.1 c).getD 0)
     ((d.transition_function.lookup p.2 c).getD 0))

/-- One character step of the inner marking-sweep loop at the pair `p` (the
body of the innermost loop at lines 231–247 of `dfa.rs`, written for a
machine whose state range starts at `0`, as every machine handed to the
marking phase does after `cleanup`). -/
def DFA.sweepInner (d : DFA) (p : Nat × Nat) (acc : List (Nat × Nat) × Bool)
    (c : Char) : List (Nat × Nat) × Bool :=
  if acc.1.contains (d.succPair p c) && !(acc.1.contains p) then
    (p :: acc.1, true)
  else acc

/-- One pair step of the marking sweep (lines 227–249 of `dfa.rs`, for a
machine whose state range starts at `0`). -/
def DFA.sweepOuter (d : DFA) (acc : List (Nat × Nat) × Bool) (p : Nat × Nat) :
    List (Nat × Nat) × Bool :=
  if acc.1.contains p then acc else d.symbol_table.chars.foldl (d.sweepInner p) acc

/-- One pair step of the marking initialization (lines 206–216 of `dfa.rs`,
for a machine whose state range starts at `0`). -/
def DFA.initStep (d : DFA) (m : List (Nat × Nat)) (p : Nat × Nat) :
    List (Nat × Nat) :=
  if (d.final_states.contains p.1 && !(d.final_states.contains p.2))
      || (!(d.final_states.contains p.1) && d.final_states.contains p.2) then
    DFA.pinsert p m
  else m

/-- One pair step of the union loop that builds the minimization DSU (lines
264–272 of `dfa.rs`, for a machine whose state range starts at `0`). -/
def dsuStep (marked : List (Nat × Nat)) (dsu : DSU) (p : Nat × Nat) : DSU :=
  if marked.contains p then dsu else dsu.union p.1 p.2

/-- The optional value behind `plook` (the `HashMap` read before the
source's indexing unwrap). -/
def palook (m : List ((Nat × Nat) × Nat)) (q : Nat × Nat) : Option Nat :=
  (m.find? (fun e => e.1 == q)).map (fun e => e.2)

/-- Position-indexed description of the stored parent vector while the union
loop walks the pairs in lexicographic order (`i` is the current first
coordinate, `j0` the next second coordinate): an element `x` already points
at its class minimum `mp x` exactly when the pair `(mp x, x)` has been
processed, and every other element is still its own parent. -/
def dsuInv (mp : Nat → Nat) (n i j0 : Nat) (dsu : DSU) : Prop :=
  dsu.n = n ∧
  ∀ x, dsu.parent x
    = if x < n ∧ mp x < x ∧ (mp x < i ∨ (mp x = i ∧ x < j0)) then mp x else x

/-! ## Supporting lemmas -/

/-- A successful lookup exhibits a stored row. -/
theorem DTransitionFunction.lookup_eq_some_mem {f : DTransitionFunction}
    {s : Nat} {c : Char} {t : Nat} (h : f.lookup s c = some t) :
    (s, c, t) ∈ f.rows := by
  unfold DTransitionFunction.lookup at h
  cases hf : f.rows.find? (fun r => r.1 == s && r.2.1 == c) with
  | none => rw [hf] at h; simp at h
  | some r =>
      rw [hf] at h
      have ht : r.2.2 = t := by simpa using h
      have hmem := List.mem_of_find?_eq_some hf
      have hpred := List.find?_some hf
      simp only [Bool.and_eq_true, beq_iff_eq] at hpred
      have : (s, c, t) = r := by
        rcases r with ⟨r1, rc, r2⟩
        simp only at hpred ht
        simp [hpred.1, hpred.2, ht]
      rw [this]
      exact hmem

/-- A state with a successful lookup is in the transition map's domain. -/
theorem DTransitionFunction.contains_state_of_lookup {f : DTransitionFunction}
    {s : Nat} {c : Char} {t : Nat} (h : f.lookup s c = some t) :
    f.contains_state s = true := by
  have := DTransitionFunction.lookup_eq_some_mem h
  unfold DTransitionFunction.contains_state
  rw [List.any_eq_true]
  exact ⟨(s, c, t), this, by simp⟩

/-- Lookup of a cons in an association list. -/
theorem alook_cons (e : Nat × Nat) (l : List (Nat × Nat)) (x : Nat) :
    alook (e :: l) x = if e.1 = x then some e.2 else alook l x := by
  by_cases h : e.1 = x
  · simp [alook, List.find?_cons, h]
  · have hb : (e.1 == x) = false := by simpa using h
    simp [alook, List.find?_cons, hb, h]

/-- A failing lookup means no stored row has the key. -/
theorem DTransitionFunction.lookup_eq_none_iff {f : DTransitionFunction}
    {s : Nat} {c : Char} :
    f.lookup s c = none ↔ ∀ t, ¬ (s, c, t) ∈ f.rows := by
  constructor
  · intro h t hmem
    unfold DTransitionFunction.lookup at h
    rw [Option.map_eq_none', List.find?_eq_none] at h
    exact absurd (by simp : ((s, c, t).1 == s && (s, c, t).2.1 == c) = true)
      (by simpa using h _ hmem)
  · intro h
    cases hf : f.lookup s c with
    | none => rfl
    | some t => exact absurd (DTransitionFunction.lookup_eq_some_mem hf) (h t)

/-- In a table with duplicate-free keys, a key determines its target. -/
theorem DTransitionFunction.target_unique {rows : List (Nat × Char × Nat)}
    (h : (rows.map (fun r => (r.1, r.2.1))).Nodup) {s : Nat} {c : Char}
    {t t' : Nat} (h1 : (s, c, t) ∈ rows) (h2 : (s, c, t') ∈ rows) : t = t' := by
  induction rows with
  | nil => simp at h1
  | cons r rest ih =>
      simp only [List.map_cons, List.nodup_cons] at h
      rcases List.mem_cons.1 h1 with e1 | m1
      · rcases List.mem_cons.1 h2 with e2 | m2
        · rw [← e1] at e2; exact (Prod.ext_iff.1 (Prod.ext_iff.1 e2).2).2.symm
        · exfalso
          apply h.1
          refine List.mem_map.2 ⟨(s, c, t'), m2, ?_⟩
          rw [← e1]
      · rcases List.mem_cons.1 h2 with e2 | m2
        · exfalso
          apply h.1
          refine List.mem_map.2 ⟨(s, c, t), m1, ?_⟩
          rw [← e2]
        · exact ih h.2 m1 m2

/-- With duplicate-free keys, lookup success is row membership. -/
theorem DTransitionFunction.lookup_eq_some_iff {f : DTransitionFunction}
    (h : f.keys.Nodup) {s : Nat} {c : Char} {t : Nat} :
    f.lookup s c = some t ↔ (s, c, t) ∈ f.rows := by
  constructor
  · exact DTransitionFunction.lookup_eq_some_mem
  · intro hmem
    cases hf : f.lookup s c with
    | none => exact absurd hmem (DTransitionFunction.lookup_eq_none_iff.1 hf t)
    | some t' =>
        have := DTransitionFunction.target_unique h
          (DTransitionFunction.lookup_eq_some_mem hf) hmem
        rw [this]

/-- `addI` on a fresh key appends the row. -/
theorem DTransitionFunction.addI_fresh {f : DTransitionFunction} {s : Nat}
    {c : Char} {t : Nat} (h : f.lookup s c = none) :
    (f.addI s (Symbol.ch c) t).rows = f.rows ++ [(s, c, t)] := by
  simp [DTransitionFunction.addI, DTransitionFunction.add_transition, h]

/-- Folding a row-producing function over a list with `addI`, when all
produced keys are fresh and mutually distinct, appends exactly the produced
rows. -/
theorem DTransitionFunction.foldl_addI_rows {α : Type}
    (g : α → Option (Nat × Char × Nat)) :
    ∀ (l : List α) (f : DTransitionFunction),
      (f.keys ++ (l.filterMap g).map (fun r => (r.1, r.2.1))).Nodup →
      (l.foldl (fun f a =>
        match g a with
        | some r => f.addI r.1 (Symbol.ch r.2.1) r.2.2
        | none => f) f).rows = f.rows ++ l.filterMap g := by
  intro l
  induction l with
  | nil => intro f _; simp
  | cons a rest ih =>
      intro f hnd
      cases hg : g a with
      | none =>
          simp only [List.foldl_cons, hg]
          rw [ih f (by simpa [List.filterMap_cons, hg] using hnd)]
          simp [List.filterMap_cons, hg]
      | some r =>
          simp only [List.foldl_cons, hg]
          have hkey : ¬ (r.1, r.2.1) ∈ f.keys := by
            simp only [List.filterMap_cons, hg, List.map_cons] at hnd
            intro hmem
            exact (List.disjoint_of_nodup_append hnd) hmem (by simp)
          have hnone : f.lookup r.1 r.2.1 = none := by
            rw [DTransitionFunction.lookup_eq_none_iff]
            intro t hmem
            exact hkey (List.mem_map.2 ⟨(r.1, r.2.1, t), hmem, rfl⟩)
          have hrows := DTransitionFunction.addI_fresh (t := r.2.2) hnone
          have hkeys' : (f.addI r.1 (Symbol.ch r.2.1) r.2.2).keys
              = f.keys ++ [(r.1, r.2.1)] := by
            unfold DTransitionFunction.keys
            rw [hrows]
            simp
          have hr : (r.1, r.2.1, r.2.2) = r := rfl
          rw [ih _ (by
            rw [hkeys']
            simpa [List.filterMap_cons, hg, List.append_assoc] using hnd)]
          rw [hrows]
          simp [List.filterMap_cons, hg, hr]

/-- Folding over a `flatMap` is the nested fold. -/
theorem foldl_flatMap {α β γ : Type} (h : α → List β) (g : γ → β → γ) :
    ∀ (l : List α) (init : γ),
      (l.flatMap h).foldl g init = l.foldl (fun acc x => (h x).foldl g acc) init := by
  intro l
  induction l with
  | nil => intro init; simp
  | cons a rest ih => intro init; simp [List.flatMap_cons, List.foldl_append, ih]

/-- A duplicate-free list contained in another list is no longer than it. -/
theorem nodup_subset_length_le {l u : List Nat} (hn : l.Nodup)
    (hsub : ∀ x ∈ l, x ∈ u) : l.length ≤ u.length := by
  classical
  calc l.length = l.toFinset.card := (List.toFinset_card_of_nodup hn).symm
  _ ≤ u.toFinset.card := Finset.card_le_card (fun x hx => by
      rw [List.mem_toFinset] at hx ⊢; exact hsub x hx)
  _ ≤ u.length := u.toFinset_card_le

/-- The BFS visited list only grows. -/
theorem DFA.bfs_go_append (d : DFA) :
    ∀ (fuel : Nat) (q v : List Nat), ∃ l, d.bfs_go fuel q v = v ++ l := by
  intro fuel
  induction fuel with
  | zero => intro q v; exact ⟨[], by rw [DFA.bfs_go, List.append_nil]⟩
  | succ fuel ih =>
      intro q v
      match q with
      | [] => exact ⟨[], by rw [DFA.bfs_go, List.append_nil]⟩
      | s :: rest =>
          rw [DFA.bfs_go]
          by_cases hs : v.contains s = true
          · rw [if_pos hs]; exact ih rest v
          · rw [if_neg hs]
            rcases ih (rest ++ d.bfs_pushes (v ++ [s]) s) (v ++ [s]) with ⟨l, hl⟩
            exact ⟨s :: l, by rw [hl, List.append_assoc]; rfl⟩

/-- Everything the BFS visits satisfies any predicate that holds on the
initial queue and visited lists and is closed under stored transitions on
table characters. -/
theorem DFA.bfs_go_sound (d : DFA) (P : Nat → Prop)
    (hstep : ∀ s c t, P s → c ∈ d.symbol_table.chars →
      d.transition_function.lookup s c = some t → P t) :
    ∀ (fuel : Nat) (q v : List Nat), (∀ x ∈ v, P x) → (∀ x ∈ q, P x) →
      ∀ x ∈ d.bfs_go fuel q v, P x := by
  intro fuel
  induction fuel with
  | zero => intro q v hv _ x hx; rw [DFA.bfs_go] at hx; exact hv x hx
  | succ fuel ih =>
      intro q v hv hq x hx
      match q with
      | [] => rw [DFA.bfs_go] at hx; exact hv x hx
      | s :: rest =>
          rw [DFA.bfs_go] at hx
          by_cases hs : v.contains s = true
          · rw [if_pos hs] at hx
            exact ih rest v hv (fun y hy => hq y (List.mem_cons_of_mem s hy)) x hx
          · rw [if_neg hs] at hx
            refine ih _ _ ?_ ?_ x hx
            · intro y hy
              rcases List.mem_append.1 hy with h | h
              · exact hv y h
              · simp only [List.mem_singleton] at h
                subst h; exact hq y (List.mem_cons_self y rest)
            · intro y hy
              rcases List.mem_append.1 hy with h | h
              · exact hq y (List.mem_cons_of_mem s h)
              · rcases List.mem_filterMap.1 h with ⟨sym, hsym, hval⟩
                cases sym with
                | eps => simp [DFA.get_transition] at hval
                | ch c =>
                    have hc : c ∈ d.symbol_table.chars := by
                      simpa [SymbolTable.symbols] using hsym
                    cases hlk : d.transition_function.lookup s c with
                    | none =>
                        rw [DFA.get_transition] at hval; rw [hlk] at hval; simp at hval
                    | some t =>
                        rw [DFA.get_transition] at hval; rw [hlk] at hval
                        have hPs : P s := hq s (List.mem_cons_self s rest)
                        simp at hval
                        rcases hval with ⟨-, rfl⟩
                        exact hstep s c t hPs hc hlk

/-- Association-list lookup finds the value of a key that occurs and is
unambiguous in the list. -/
theorem alook_of_mem_of_unique {l : List (Nat × Nat)} {k v : Nat}
    (hmem : (k, v) ∈ l) (huniq : ∀ e ∈ l, e.1 = k → e.2 = v) :
    alook l k = some v := by
  induction l with
  | nil => simp at hmem
  | cons e tl ih =>
      by_cases he : e.1 = k
      · have : e.2 = v := huniq e (List.mem_cons_self e tl) he
        simp [alook, List.find?_cons, he, this]
      · have hne : (e.1 == k) = false := by simp [he]
        have hmem' : (k, v) ∈ tl := by
          rcases List.mem_cons.1 hmem with h | h
          · exact absurd (congrArg Prod.fst h.symm) he
          · exact h
        have := ih hmem' (fun e' he' hk => huniq e' (List.mem_cons_of_mem _ he') hk)
        simpa [alook, List.find?_cons, hne] using this

/-- Looking an in-range element up in `state_representative_map` yields its
stored parent (plus the offset). -/
theorem DSU.alook_state_representative_map (d : DSU) (offset i : Nat)
    (hi : i < d.n) :
    alook (d.state_representative_map offset) (i + offset)
      = some (d.parent i + offset) := by
  apply alook_of_mem_of_unique
  · exact List.mem_map.2 ⟨i, List.mem_range.2 hi, rfl⟩
  · intro e he hk
    rcases List.mem_map.1 he with ⟨j, _, hje⟩
    subst hje
    have hk' : j + offset = i + offset := hk
    have : j = i := Nat.add_right_cancel hk'
    subst this
    rfl

/-- Path compression keeps the returned root below the argument and keeps
every stored parent below its element. -/
theorem DSU.find_aux_le {p : Nat → Nat} (hp : ∀ y, p y ≤ y) :
    ∀ (fuel x : Nat),
      (DSU.find_aux fuel p x).1 ≤ x ∧ ∀ y, (DSU.find_aux fuel p x).2 y ≤ y := by
  intro fuel
  induction fuel with
  | zero =>
      intro x
      simp only [DSU.find_aux]
      exact ⟨Nat.le_refl x, hp⟩
  | succ fuel ih =>
      intro x
      by_cases h : p x = x
      · simp only [DSU.find_aux, if_pos h]
        exact ⟨Nat.le_refl x, hp⟩
      · simp only [DSU.find_aux, if_neg h]
        refine ⟨(ih (p x)).1.trans (hp x), ?_⟩
        intro y
        by_cases hy : y = x
        · subst hy
          simpa using (ih (p y)).1.trans (hp y)
        · simpa [hy] using (ih (p x)).2 y

/-- `union` preserves "every stored parent is at most its element". -/
theorem DSU.union_parent_le {d : DSU} (hd : ∀ y, d.parent y ≤ y) (u v : Nat) :
    ∀ y, (d.union u v).parent y ≤ y := by
  intro y
  have h1 := DSU.find_aux_le hd (u + 1)
  have hd1 : ∀ z, (d.find_representative u).2.parent z ≤ z := (h1 u).2
  have h2 := DSU.find_aux_le hd1 (v + 1)
  have hru : (d.find_representative u).1 ≤ u := (h1 u).1
  have hrv : ((d.find_representative u).2.find_representative v).1 ≤ v := (h2 v).1
  have hd2 : ∀ z, ((d.find_representative u).2.find_representative v).2.parent z ≤ z :=
    (h2 v).2
  unfold DSU.union
  set ru := d.find_representative u with hru_def
  set rv := ru.2.find_representative v with hrv_def
  by_cases he : ru.1 = rv.1
  · simpa [he] using hd2 y
  · by_cases hlt : ru.1 < rv.1
    · simp only [if_neg he, if_pos hlt]
      by_cases hy : y = rv.1
      · subst hy; simpa using Nat.le_of_lt hlt
      · simpa [hy] using hd2 y
    · simp only [if_neg he, if_neg hlt]
      by_cases hy : y = ru.1
      · subst hy; simpa using Nat.le_of_not_lt hlt
      · simpa [hy] using hd2 y

/-- Every DSU state reachable by the public operations has all stored
parents at most their elements. -/
theorem DSU.built_parent_le {d : DSU} (hd : DSU.Built d) :
    ∀ y, d.parent y ≤ y := by
  induction hd with
  | new n => intro y; exact Nat.le_refl y
  | union u v _ ih => exact DSU.union_parent_le ih u v
  | find x _ ih => exact (DSU.find_aux_le ih (x + 1) x).2

/-- The BFS visited list stays duplicate-free. -/
theorem DFA.bfs_go_nodup (d : DFA) :
    ∀ (fuel : Nat) (q v : List Nat), v.Nodup → (d.bfs_go fuel q v).Nodup := by
  intro fuel
  induction fuel with
  | zero => intro q v hv; rw [DFA.bfs_go]; exact hv
  | succ fuel ih =>
      intro q v hv
      match q with
      | [] => rw [DFA.bfs_go]; exact hv
      | s :: rest =>
          rw [DFA.bfs_go]
          by_cases hs : v.contains s = true
          · rw [if_pos hs]; exact ih rest v hv
          · rw [if_neg hs]
            refine ih _ _ ?_
            have : ¬ s ∈ v := by simpa using hs
            simp [List.nodup_append, hv, this]

/-- With sufficient fuel the BFS drains its queue: every queued state ends
up visited, and the visited result is closed under stored transitions on
table characters. -/
theorem DFA.bfs_go_complete (d : DFA) (U : List Nat)
    (hU : ∀ r ∈ d.transition_function.rows, r.2.2 ∈ U) :
    ∀ (fuel : Nat) (q v : List Nat),
      v.Nodup → (∀ x ∈ v, x ∈ U) → (∀ x ∈ q, x ∈ U) →
      (∀ s ∈ v, ∀ c t, c ∈ d.symbol_table.chars →
        d.transition_function.lookup s c = some t → (t ∈ v ∨ t ∈ q)) →
      ((U.length + 1 - v.length) * (d.symbol_table.chars.length + 2) + q.length < fuel) →
      (∀ x ∈ q, x ∈ d.bfs_go fuel q v) ∧
      (∀ s ∈ d.bfs_go fuel q v, ∀ c t, c ∈ d.symbol_table.chars →
        d.transition_function.lookup s c = some t → t ∈ d.bfs_go fuel q v) := by
  intro fuel
  induction fuel with
  | zero =>
      intro q v _ _ _ _ hfuel
      exact absurd hfuel (Nat.not_lt_zero _)
  | succ fuel ih =>
      intro q v hnd hvU hqU hinv hfuel
      match q with
      | [] =>
          rw [DFA.bfs_go]
          refine ⟨by simp, ?_⟩
          intro s hsv c t hc hlk
          rcases hinv s hsv c t hc hlk with h | h
          · exact h
          · simp at h
      | s0 :: rest =>
          rw [DFA.bfs_go]
          by_cases hs : v.contains s0 = true
          · rw [if_pos hs]
            have hinv' : ∀ s' ∈ v, ∀ c t, c ∈ d.symbol_table.chars →
                d.transition_function.lookup s' c = some t → (t ∈ v ∨ t ∈ rest) := by
              intro s' hs' c t hc hlk
              rcases hinv s' hs' c t hc hlk with h | h
              · exact Or.inl h
              · rcases List.mem_cons.1 h with h | h
                · subst h; exact Or.inl (by simpa using hs)
                · exact Or.inr h
            have hfuel' : (U.length + 1 - v.length) * (d.symbol_table.chars.length + 2)
                + rest.length < fuel := by
              simp only [List.length_cons] at hfuel
              omega
            obtain ⟨ih1, ih2⟩ := ih rest v hnd hvU
              (fun x hx => hqU x (List.mem_cons_of_mem s0 hx)) hinv' hfuel'
            refine ⟨?_, ih2⟩
            intro x hx
            rcases List.mem_cons.1 hx with h | h
            · subst h
              rcases d.bfs_go_append fuel rest v with ⟨l, hl⟩
              rw [hl]
              exact List.mem_append.2 (Or.inl (by simpa using hs))
            · exact ih1 x h
          · rw [if_neg hs]
            have hsv : ¬ s0 ∈ v := by simpa using hs
            have hnd' : (v ++ [s0]).Nodup := by simp [List.nodup_append, hnd, hsv]
            have hvU' : ∀ x ∈ v ++ [s0], x ∈ U := by
              intro x hx
              rcases List.mem_append.1 hx with h | h
              · exact hvU x h
              · simp only [List.mem_singleton] at h; subst h
                exact hqU x (List.mem_cons_self x rest)
            have hqU' : ∀ x ∈ rest ++ d.bfs_pushes (v ++ [s0]) s0, x ∈ U := by
              intro x hx
              rcases List.mem_append.1 hx with h | h
              · exact hqU x (List.mem_cons_of_mem s0 h)
              · rcases List.mem_filterMap.1 h with ⟨sym, _, hval⟩
                cases sym with
                | eps => simp [DFA.get_transition] at hval
                | ch c =>
                    cases hlk : d.transition_function.lookup s0 c with
                    | none =>
                        rw [DFA.get_transition] at hval; rw [hlk] at hval; simp at hval
                    | some t =>
                        rw [DFA.get_transition] at hval; rw [hlk] at hval
                        simp at hval
                        rcases hval with ⟨-, rfl⟩
                        exact hU _ (DTransitionFunction.lookup_eq_some_mem hlk)
            have hinv' : ∀ s' ∈ v ++ [s0], ∀ c t, c ∈ d.symbol_table.chars →
                d.transition_function.lookup s' c = some t →
                (t ∈ v ++ [s0] ∨ t ∈ rest ++ d.bfs_pushes (v ++ [s0]) s0) := by
              intro s' hs' c t hc hlk
              rcases List.mem_append.1 hs' with h | h
              · rcases hinv s' h c t hc hlk with h2 | h2
                · exact Or.inl (List.mem_append.2 (Or.inl h2))
                · rcases List.mem_cons.1 h2 with h3 | h3
                  · subst h3; exact Or.inl (List.mem_append.2 (Or.inr (by simp)))
                  · exact Or.inr (List.mem_append.2 (Or.inl h3))
              · simp only [List.mem_singleton] at h
                subst h
                by_cases hmem : ((v ++ [s']).contains t) = true
                · exact Or.inl (by simpa using hmem)
                · refine Or.inr (List.mem_append.2 (Or.inr ?_))
                  refine List.mem_filterMap.2 ⟨Symbol.ch c, ?_, ?_⟩
                  · simp [SymbolTable.symbols, hc]
                  · have hmem' : ¬ (t ∈ v ∨ t = s') := by simpa using hmem
                    simp [DFA.get_transition, hlk, hmem']
            have hlen : v.length + 1 ≤ U.length := by
              have := nodup_subset_length_le hnd' hvU'
              simpa using this
            have hpush : (d.bfs_pushes (v ++ [s0]) s0).length
                ≤ d.symbol_table.chars.length + 1 := by
              calc (d.bfs_pushes (v ++ [s0]) s0).length
                  ≤ d.symbol_table.symbols.length := List.length_filterMap_le _ _
                _ = d.symbol_table.chars.length + 1 := by simp [SymbolTable.symbols]
            have hfuel' : (U.length + 1 - (v ++ [s0]).length)
                * (d.symbol_table.chars.length + 2)
                + (rest ++ d.bfs_pushes (v ++ [s0]) s0).length < fuel := by
              have hA : U.length + 1 - v.length = (U.length - v.length) + 1 := by omega
              rw [hA, Nat.succ_mul] at hfuel
              have hB : U.length + 1 - (v ++ [s0]).length = U.length - v.length := by
                simp only [List.length_append, List.length_singleton]
                omega
              rw [hB, List.length_append]
              simp only [List.length_cons] at hfuel
              omega
            obtain ⟨ih1, ih2⟩ := ih _ _ hnd' hvU' hqU' hinv' hfuel'
            refine ⟨?_, ih2⟩
            intro x hx
            rcases List.mem_cons.1 hx with h | h
            · rcases d.bfs_go_append fuel (rest ++ d.bfs_pushes (v ++ [s0]) s0) (v ++ [s0])
                with ⟨l, hl⟩
              rw [hl]
              exact List.mem_append.2 (Or.inl (List.mem_append.2 (Or.inr (by simp [h]))))
            · exact ih1 x (List.mem_append.2 (Or.inl h))

/-- The specification of a full BFS run seeded with a single state: the seed
is visited, the visited set is closed under transitions on table characters,
and it is duplicate-free. -/
theorem DFA.bfs_run_spec (d : DFA) (init : Nat) :
    init ∈ d.bfs_go d.bfs_fuel [init] [] ∧
    (∀ s ∈ d.bfs_go d.bfs_fuel [init] [], ∀ c t, c ∈ d.symbol_table.chars →
      d.transition_function.lookup s c = some t →
      t ∈ d.bfs_go d.bfs_fuel [init] []) ∧
    (d.bfs_go d.bfs_fuel [init] []).Nodup := by
  have hnodup := d.bfs_go_nodup d.bfs_fuel [init] [] List.nodup_nil
  have hU : ∀ r ∈ d.transition_function.rows,
      r.2.2 ∈ init :: d.transition_function.rows.map (fun r => r.2.2) := by
    intro r hr
    exact List.mem_cons_of_mem _ (List.mem_map.2 ⟨r, hr, rfl⟩)
  have hfuel : ((init :: d.transition_function.rows.map (fun r => r.2.2)).length + 1 - 0)
      * (d.symbol_table.chars.length + 2) + 1 < d.bfs_fuel := by
    simp only [List.length_cons, List.length_map, Nat.sub_zero, DFA.bfs_fuel]
    have h2 : d.transition_function.rows.length + 1 + 1
        = d.transition_function.rows.length + 2 := by omega
    rw [h2]
    omega
  obtain ⟨h1, h2⟩ := d.bfs_go_complete
    (init :: d.transition_function.rows.map (fun r => r.2.2)) hU d.bfs_fuel
    [init] [] List.nodup_nil (by simp)
    (by intro x hx; simp only [List.mem_singleton] at hx; subst hx; simp)
    (by simp) (by simpa using hfuel)
  exact ⟨h1 init (by simp), h2, hnodup⟩

/-- Membership in `reachable_states` coincides with the inductive
reachability predicate. -/
theorem DFA.mem_reachable_states_iff (d : DFA) (s : Nat) :
    s ∈ d.reachable_states ↔ d.Reach s := by
  obtain ⟨h1, h2, -⟩ := d.bfs_run_spec d.start_state
  constructor
  · intro hs
    refine d.bfs_go_sound (DFA.Reach d) ?_ d.bfs_fuel [d.start_state] [] (by simp) ?_ s hs
    · intro a c t ha hc hlk
      exact DFA.Reach.step ha hc hlk
    · intro x hx
      simp only [List.mem_singleton] at hx
      subst hx
      exact DFA.Reach.start
  · intro hr
    induction hr with
    | start => exact h1
    | step hr hc hlk ih => exact h2 _ ih _ _ hc hlk

/-- On a total DFA (in the executable sense) every reachable state has a
defined transition on every table character. -/
theorem DFA.total_on_reachable_spec (d : DFA) (h : d.total_on_reachable = true) :
    ∀ s, d.Reach s → ∀ c ∈ d.symbol_table.chars,
      (d.transition_function.lookup s c).isSome = true := by
  intro s hs c hc
  have hmem : s ∈ d.reachable_states := (d.mem_reachable_states_iff s).2 hs
  unfold DFA.total_on_reachable at h
  rw [List.all_eq_true] at h
  have := h s hmem
  rw [List.all_eq_true] at this
  exact this c hc

/-- Keys, bounds and values of `numberFrom`. -/
theorem numberFrom_mem : ∀ (l : List Nat) (k : Nat) (e : Nat × Nat),
    e ∈ DFA.numberFrom l k → e.1 ∈ l ∧ k ≤ e.2 ∧ e.2 < k + l.length := by
  intro l
  induction l with
  | nil => intro k e he; simp [DFA.numberFrom] at he
  | cons s rest ih =>
      intro k e he
      rw [DFA.numberFrom] at he
      rcases List.mem_cons.1 he with h | h
      · subst h; simp
      · obtain ⟨h1, h2, h3⟩ := ih (k + 1) e h
        refine ⟨List.mem_cons_of_mem s h1, by omega, by simp; omega⟩

/-- A member of the numbered list is assigned a number in range. -/
theorem numberFrom_alook_of_mem : ∀ (l : List Nat) (k : Nat) (x : Nat),
    x ∈ l → ∃ j, alook (DFA.numberFrom l k) x = some j ∧ k ≤ j ∧ j < k + l.length := by
  intro l
  induction l with
  | nil => intro k x hx; simp at hx
  | cons s rest ih =>
      intro k x hx
      rw [DFA.numberFrom]
      by_cases hs : s = x
      · exact ⟨k, by rw [alook_cons, if_pos hs], Nat.le_refl k, by simp⟩
      · have hx' : x ∈ rest := by
          rcases List.mem_cons.1 hx with h | h
          · exact absurd h.symm hs
          · exact h
        obtain ⟨j, hj, h1, h2⟩ := ih (k + 1) x hx'
        exact ⟨j, by rw [alook_cons, if_neg hs]; exact hj, by omega, by simp; omega⟩

/-- A state outside the list gets no number. -/
theorem numberFrom_alook_none : ∀ (l : List Nat) (k : Nat) (x : Nat),
    ¬ x ∈ l → alook (DFA.numberFrom l k) x = none := by
  intro l
  induction l with
  | nil => intro k x _; simp [DFA.numberFrom, alook]
  | cons s rest ih =>
      intro k x hx
      rw [DFA.numberFrom, alook_cons]
      dsimp only
      rw [if_neg (fun h => hx (by rw [← h]; exact List.mem_cons_self s rest))]
      exact ih (k + 1) x (fun h => hx (List.mem_cons_of_mem s h))

/-- A successful numbering lookup means the key is a member and the value is
in range. -/
theorem numberFrom_alook_some_mem : ∀ (l : List Nat) (k x j : Nat),
    alook (DFA.numberFrom l k) x = some j → x ∈ l ∧ k ≤ j ∧ j < k + l.length := by
  intro l
  induction l with
  | nil => intro k x j h; simp [DFA.numberFrom, alook] at h
  | cons s rest ih =>
      intro k x j h
      rw [DFA.numberFrom, alook_cons] at h
      dsimp only at h
      by_cases hs : s = x
      · rw [if_pos hs] at h
        have hkj : k = j := by injection h
        refine ⟨by rw [← hs]; exact List.mem_cons_self s rest, by omega, by simp; omega⟩
      · rw [if_neg hs] at h
        obtain ⟨h1, h2, h3⟩ := ih (k + 1) x j h
        exact ⟨List.mem_cons_of_mem s h1, by omega, by simp; omega⟩

/-- On a duplicate-free list the numbering is injective. -/
theorem numberFrom_alook_inj : ∀ (l : List Nat) (k : Nat), l.Nodup →
    ∀ x y j, alook (DFA.numberFrom l k) x = some j →
      alook (DFA.numberFrom l k) y = some j → x = y := by
  intro l
  induction l with
  | nil => intro k _ x y j hx _; simp [DFA.numberFrom, alook] at hx
  | cons s rest ih =>
      intro k hnd x y j hx hy
      rw [DFA.numberFrom, alook_cons] at hx hy
      dsimp only at hx hy
      rw [List.nodup_cons] at hnd
      by_cases hxs : s = x
      · by_cases hys : s = y
        · rw [← hxs, ← hys]
        · rw [if_pos hxs] at hx
          rw [if_neg hys] at hy
          have hkj : k = j := by injection hx
          obtain ⟨-, h2, -⟩ := numberFrom_alook_some_mem rest (k + 1) y j hy
          omega
      · by_cases hys : s = y
        · rw [if_pos hys] at hy
          rw [if_neg hxs] at hx
          have hkj : k = j := by injection hy
          obtain ⟨-, h2, -⟩ := numberFrom_alook_some_mem rest (k + 1) x j hx
          omega
        · rw [if_neg hxs] at hx
          rw [if_neg hys] at hy
          exact ih (k + 1) hnd.2 x y j hx hy

/-- Every number in range is assigned to some member. -/
theorem numberFrom_alook_surj : ∀ (l : List Nat) (k : Nat) (j : Nat), l.Nodup →
    k ≤ j → j < k + l.length → ∃ x, x ∈ l ∧ alook (DFA.numberFrom l k) x = some j := by
  intro l
  induction l with
  | nil => intro k j _ h1 h2; simp at h2; omega
  | cons s rest ih =>
      intro k j hnd h1 h2
      rw [List.nodup_cons] at hnd
      by_cases hj : j = k
      · refine ⟨s, List.mem_cons_self s rest, ?_⟩
        rw [DFA.numberFrom, alook_cons]
        dsimp only
        rw [if_pos rfl, hj]
      · obtain ⟨x, hx, hlk⟩ := ih (k + 1) j hnd.2 (by omega) (by simp at h2; omega)
        refine ⟨x, List.mem_cons_of_mem s hx, ?_⟩
        rw [DFA.numberFrom, alook_cons]
        dsimp only
        by_cases hsx : s = x
        · exact absurd (hsx ▸ hx) hnd.1
        · rw [if_neg hsx]; exact hlk

/-- Removing one occurrence from a duplicate-free list shortens it by one. -/
theorem length_filter_ne_of_nodup : ∀ (l : List Nat) (a : Nat), l.Nodup →
    a ∈ l → (l.filter (fun s => s ≠ a)).length = l.length - 1 := by
  intro l
  induction l with
  | nil => intro a _ ha; simp at ha
  | cons s rest ih =>
      intro a hnd ha
      rw [List.nodup_cons] at hnd
      rcases List.mem_cons.1 ha with h | h
      · have hsa : (decide (s ≠ a)) = false := by simp [h]
        have hfilter : rest.filter (fun x => decide (x ≠ a)) = rest :=
          List.filter_eq_self.2 (fun x hx => by
            simp only [ne_eq, decide_eq_true_eq]
            intro hxa
            rw [hxa, h] at hx
            exact hnd.1 hx)
        simp only [List.filter_cons, hsa, Bool.false_eq_true, if_false, hfilter,
          List.length_cons, Nat.add_sub_cancel]
      · have hsa : s ≠ a := fun hh => hnd.1 (by rw [← hh] at h; exact h)
        have := ih a hnd.2 h
        have hrl : 1 ≤ rest.length := by
          cases rest with
          | nil => simp at h
          | cons _ _ => simp
        simp only [List.filter_cons, List.length_cons]
        rw [if_pos (by simpa using hsa)]
        simp only [List.length_cons]
        omega

/-- The cleanup renumbering sends the start state to `0`. -/
theorem cleanup_map_start (start : Nat) (V : List Nat) :
    alook (DFA.cleanup_map start V) start = some 0 := by
  rw [DFA.cleanup_map, alook_cons]
  exact if_pos rfl

/-- Inversion for a successful cleanup-renumbering lookup. -/
theorem cleanup_map_some_mem {start : Nat} {V : List Nat} {x j : Nat}
    (h : alook (DFA.cleanup_map start V) x = some j) :
    (x = start ∧ j = 0) ∨
    (x ∈ V ∧ x ≠ start ∧ 1 ≤ j ∧ j < 1 + (V.filter (fun s => s ≠ start)).length) := by
  rw [DFA.cleanup_map, alook_cons] at h
  dsimp only at h
  by_cases hs : start = x
  · rw [if_pos hs] at h
    exact Or.inl ⟨hs.symm, by injection h; omega⟩
  · rw [if_neg hs] at h
    obtain ⟨h1, h2, h3⟩ := numberFrom_alook_some_mem _ 1 x j h
    have := List.mem_filter.1 h1
    refine Or.inr ⟨this.1, by simpa using this.2, h2, h3⟩

/-- Every visited state is assigned a new number. -/
theorem cleanup_map_of_mem {start : Nat} {V : List Nat} {x : Nat} (hx : x ∈ V) :
    ∃ j, alook (DFA.cleanup_map start V) x = some j := by
  rw [DFA.cleanup_map]
  by_cases hs : start = x
  · exact ⟨0, by rw [alook_cons, if_pos hs]⟩
  · have hx' : x ∈ V.filter (fun s => s ≠ start) :=
      List.mem_filter.2 ⟨hx, by simpa using fun h => hs h.symm⟩
    obtain ⟨j, hj, -, -⟩ := numberFrom_alook_of_mem _ 1 x hx'
    exact ⟨j, by rw [alook_cons, if_neg hs]; exact hj⟩

/-- The cleanup renumbering is injective on its domain. -/
theorem cleanup_map_inj {start : Nat} {V : List Nat} (hnd : V.Nodup)
    {x y j : Nat} (hx : alook (DFA.cleanup_map start V) x = some j)
    (hy : alook (DFA.cleanup_map start V) y = some j) : x = y := by
  rw [DFA.cleanup_map, alook_cons] at hx hy
  dsimp only at hx hy
  by_cases hxs : start = x
  · by_cases hys : start = y
    · rw [← hxs, ← hys]
    · rw [if_pos hxs] at hx
      rw [if_neg hys] at hy
      obtain ⟨-, h2, -⟩ := numberFrom_alook_some_mem _ 1 y j hy
      injection hx with hx'
      omega
  · by_cases hys : start = y
    · rw [if_pos hys] at hy
      rw [if_neg hxs] at hx
      obtain ⟨-, h2, -⟩ := numberFrom_alook_some_mem _ 1 x j hx
      injection hy with hy'
      omega
    · rw [if_neg hxs] at hx
      rw [if_neg hys] at hy
      exact numberFrom_alook_inj _ 1 (List.Nodup.filter _ hnd) x y j hx hy

/-- Every number below the visited count is assigned to a visited state. -/
theorem cleanup_map_surj {start : Nat} {V : List Nat} (hnd : V.Nodup)
    (hs : start ∈ V) {j : Nat} (hj : j < V.length) :
    ∃ x, x ∈ V ∧ alook (DFA.cleanup_map start V) x = some j := by
  by_cases h0 : j = 0
  · exact ⟨start, hs, by rw [h0]; exact cleanup_map_start start V⟩
  · have hlen := length_filter_ne_of_nodup V start hnd hs
    obtain ⟨x, hx, hlk⟩ := numberFrom_alook_surj (V.filter (fun s => s ≠ start)) 1 j
      (List.Nodup.filter _ hnd) (by omega) (by omega)
    have hxV := List.mem_filter.1 hx
    refine ⟨x, hxV.1, ?_⟩
    rw [DFA.cleanup_map, alook_cons]
    dsimp only
    rw [if_neg (by simpa using fun h => (by simpa using hxV.2 : x ≠ start) h.symm)]
    exact hlk

/-- Assigned numbers are below the visited count. -/
theorem cleanup_map_bound {start : Nat} {V : List Nat} (hnd : V.Nodup)
    (hs : start ∈ V) {x j : Nat}
    (h : alook (DFA.cleanup_map start V) x = some j) : j < V.length := by
  have hlen := length_filter_ne_of_nodup V start hnd hs
  have hV : 1 ≤ V.length := by
    cases V with
    | nil => simp at hs
    | cons _ _ => simp
  rcases cleanup_map_some_mem h with ⟨-, h0⟩ | ⟨-, -, -, h1⟩
  · omega
  · omega

/-- Keys stay duplicate-free under a key-injective row translation. -/
theorem keys_nodup_filterMap (rows : List (Nat × Char × Nat))
    (g : (Nat × Char × Nat) → Option (Nat × Char × Nat))
    (hkey : ∀ r v r' v', g r = some v → g r' = some v' →
      v.1 = v'.1 → v.2.1 = v'.2.1 → r.1 = r'.1 ∧ r.2.1 = r'.2.1)
    (hnd : (rows.map (fun r => (r.1, r.2.1))).Nodup) :
    (((rows.filterMap g)).map (fun r => (r.1, r.2.1))).Nodup := by
  induction rows with
  | nil => simp
  | cons r rest ih =>
      simp only [List.map_cons, List.nodup_cons] at hnd
      cases hg : g r with
      | none => simpa [List.filterMap_cons, hg] using ih hnd.2
      | some v =>
          rw [List.filterMap_cons, hg, List.map_cons, List.nodup_cons]
          refine ⟨?_, ih hnd.2⟩
          intro hmem
          rcases List.mem_map.1 hmem with ⟨v', hv', hvv⟩
          rcases List.mem_filterMap.1 hv' with ⟨r', hr', hg'⟩
          rw [Prod.mk.injEq] at hvv
          obtain ⟨hk1, hk2⟩ := hkey r' v' r v hg' hg hvv.1 hvv.2
          exact hnd.1 (List.mem_map.2 ⟨r', hr', by rw [Prod.ext_iff]; exact ⟨hk1, hk2⟩⟩)

/-- The transition-rebuild fold of `cleanup` produces exactly the
renumbered rows. -/
theorem cleanup_tf_rows (rows : List (Nat × Char × Nat)) (m : List (Nat × Nat))
    (hnd : (((rows.filterMap (fun r =>
      match alook m r.1, alook m r.2.2 with
      | some a, some b => some (a, r.2.1, b)
      | _, _ => none))).map (fun r => (r.1, r.2.1))).Nodup) :
    (rows.foldl (fun f r =>
      match alook m r.1, alook m r.2.2 with
      | some s', some t' => f.addI s' (Symbol.ch r.2.1) t'
      | _, _ => f) DTransitionFunction.new).rows
    = rows.filterMap (fun r =>
        match alook m r.1, alook m r.2.2 with
        | some a, some b => some (a, r.2.1, b)
        | _, _ => none) := by
  have hfn : (fun (f : DTransitionFunction) (r : Nat × Char × Nat) =>
      match alook m r.1, alook m r.2.2 with
      | some s', some t' => f.addI s' (Symbol.ch r.2.1) t'
      | _, _ => f)
    = (fun (f : DTransitionFunction) (a : Nat × Char × Nat) =>
      match (match alook m a.1, alook m a.2.2 with
        | some x, some b => some (x, a.2.1, b)
        | _, _ => none) with
      | some r => f.addI r.1 (Symbol.ch r.2.1) r.2.2
      | none => f) := by
    funext f r
    cases alook m r.1 <;> cases alook m r.2.2 <;> rfl
  rw [hfn]
  have := DTransitionFunction.foldl_addI_rows (fun (a : Nat × Char × Nat) =>
    match alook m a.1, alook m a.2.2 with
    | some x, some b => some (x, a.2.1, b)
    | _, _ => none) rows DTransitionFunction.new
    (by simpa [DTransitionFunction.new, DTransitionFunction.keys] using hnd)
  simpa [DTransitionFunction.new] using this

/-- Specification of `DFA::cleanup` on a machine whose start state is `0`
(which all its call sites guarantee): the result is in clean normal form
over the BFS-visited states, `run` is preserved on every word, and totality
over the reachable part becomes totality over the whole dense range. -/
theorem DFA.cleanup_spec (d : DFA)
    (H1 : d.start_state = 0)
    (H2 : ∀ r ∈ d.transition_function.rows, r.2.1 ∈ d.symbol_table.chars)
    (H3 : d.transition_function.keys.Nodup) :
    d.cleanup.clean ∧
    d.cleanup.symbol_table = d.symbol_table ∧
    (∀ w, d.cleanup.run w = d.run w) ∧
    (d.total_on_reachable = true → d.cleanup.totalAll) := by
  obtain ⟨h0V, hclosed, hnodup⟩ := d.bfs_run_spec 0
  have hVdef : d.cleanup_visited = d.bfs_go d.bfs_fuel [0] [] := rfl
  rw [← hVdef] at h0V hclosed hnodup
  have hstartV : d.start_state ∈ d.cleanup_visited := by rw [H1]; exact h0V
  have hVreach : ∀ x ∈ d.cleanup_visited, d.Reach x := by
    rw [hVdef]
    refine d.bfs_go_sound (DFA.Reach d)
      (fun s c t hs hc hlk => DFA.Reach.step hs hc hlk) d.bfs_fuel [0] [] (by simp) ?_
    intro x hx
    simp only [List.mem_singleton] at hx
    subst hx
    rw [← H1]
    exact DFA.Reach.start
  have hVlen : 1 ≤ d.cleanup_visited.length := by
    cases hc : d.cleanup_visited with
    | nil => rw [hc] at h0V; simp at h0V
    | cons _ _ => simp
  have hm : ∀ s ∈ d.cleanup_visited,
      alook (DFA.cleanup_map d.start_state d.cleanup_visited) s
        = some ((alook (DFA.cleanup_map d.start_state d.cleanup_visited) s).getD 0) := by
    intro s hs
    obtain ⟨j, hj⟩ := @cleanup_map_of_mem d.start_state _ _ hs
    rw [hj]
    rfl
  have hmbound : ∀ s ∈ d.cleanup_visited,
      (alook (DFA.cleanup_map d.start_state d.cleanup_visited) s).getD 0
        < d.cleanup_visited.length := by
    intro s hs
    exact cleanup_map_bound hnodup hstartV (hm s hs)
  have hminj : ∀ x y, x ∈ d.cleanup_visited → y ∈ d.cleanup_visited →
      (alook (DFA.cleanup_map d.start_state d.cleanup_visited) x).getD 0
        = (alook (DFA.cleanup_map d.start_state d.cleanup_visited) y).getD 0 → x = y := by
    intro x y hx hy hxy
    exact cleanup_map_inj hnodup (hm x hx) (by rw [hxy]; exact hm y hy)
  have hknd := keys_nodup_filterMap d.transition_function.rows
    (fun r =>
      match alook (DFA.cleanup_map d.start_state d.cleanup_visited) r.1,
        alook (DFA.cleanup_map d.start_state d.cleanup_visited) r.2.2 with
      | some a, some b => some (a, r.2.1, b)
      | _, _ => none)
    (by
      intro r v r' v' hg hg' h1 h2
      dsimp only at hg hg'
      cases hr1 : alook (DFA.cleanup_map d.start_state d.cleanup_visited) r.1 with
      | none => rw [hr1] at hg; cases hlk2 : alook (DFA.cleanup_map d.start_state d.cleanup_visited) r.2.2 <;> simp [hlk2] at hg
      | some a =>
          cases hr2 : alook (DFA.cleanup_map d.start_state d.cleanup_visited) r.2.2 with
          | none => rw [hr1, hr2] at hg; simp at hg
          | some b =>
              rw [hr1, hr2] at hg
              cases hr1' : alook (DFA.cleanup_map d.start_state d.cleanup_visited) r'.1 with
              | none => rw [hr1'] at hg'; cases hlk2 : alook (DFA.cleanup_map d.start_state d.cleanup_visited) r'.2.2 <;> simp [hlk2] at hg'
              | some a' =>
                  cases hr2' : alook (DFA.cleanup_map d.start_state d.cleanup_visited) r'.2.2 with
                  | none => rw [hr1', hr2'] at hg'; simp at hg'
                  | some b' =>
                      rw [hr1', hr2'] at hg'
                      simp only [Option.some_inj] at hg hg'
                      have hva : v.1 = a := by rw [← hg]
                      have hva' : v'.1 = a' := by rw [← hg']
                      have hvc : v.2.1 = r.2.1 := by rw [← hg]
                      have hvc' : v'.2.1 = r'.2.1 := by rw [← hg']
                      have haa : a = a' := by rw [← hva, ← hva', h1]
                      refine ⟨cleanup_map_inj hnodup hr1 (by rw [haa]; exact hr1'), ?_⟩
                      rw [← hvc, ← hvc', h2])
    H3
  have hrows : d.cleanup.transition_function.rows
      = d.transition_function.rows.filterMap (fun r =>
        match alook (DFA.cleanup_map d.start_state d.cleanup_visited) r.1,
          alook (DFA.cleanup_map d.start_state d.cleanup_visited) r.2.2 with
        | some a, some b => some (a, r.2.1, b)
        | _, _ => none) :=
    cleanup_tf_rows d.transition_function.rows
      (DFA.cleanup_map d.start_state d.cleanup_visited) hknd
  have hckeys : d.cleanup.transition_function.keys.Nodup := by
    unfold DTransitionFunction.keys
    rw [hrows]
    exact hknd
  -- row-membership characterization of the cleaned table
  have hrowiff : ∀ a c b, (a, c, b) ∈ d.cleanup.transition_function.rows ↔
      ∃ s t, s ∈ d.cleanup_visited ∧ t ∈ d.cleanup_visited ∧
        (s, c, t) ∈ d.transition_function.rows ∧
        alook (DFA.cleanup_map d.start_state d.cleanup_visited) s = some a ∧
        alook (DFA.cleanup_map d.start_state d.cleanup_visited) t = some b := by
    intro a c b
    rw [hrows]
    constructor
    · intro hmem
      rcases List.mem_filterMap.1 hmem with ⟨r, hr, hg⟩
      cases hr1 : alook (DFA.cleanup_map d.start_state d.cleanup_visited) r.1 with
      | none => rw [hr1] at hg; cases h2 : alook (DFA.cleanup_map d.start_state d.cleanup_visited) r.2.2 <;> simp [h2] at hg
      | some a0 =>
          cases hr2 : alook (DFA.cleanup_map d.start_state d.cleanup_visited) r.2.2 with
          | none => rw [hr1, hr2] at hg; simp at hg
          | some b0 =>
              rw [hr1, hr2] at hg
              simp only [Option.some_inj] at hg
              have ha : a0 = a := congrArg Prod.fst hg
              have hc : r.2.1 = c := by
                have := congrArg (fun p => p.2.1) hg
                simpa using this
              have hb : b0 = b := by
                have := congrArg (fun p => p.2.2) hg
                simpa using this
              have hsV : r.1 ∈ d.cleanup_visited := by
                rcases cleanup_map_some_mem hr1 with ⟨he, -⟩ | ⟨hv, -⟩
                · rw [he]; exact hstartV
                · exact hv
              have htV : r.2.2 ∈ d.cleanup_visited := by
                rcases cleanup_map_some_mem hr2 with ⟨he, -⟩ | ⟨hv, -⟩
                · rw [he]; exact hstartV
                · exact hv
              refine ⟨r.1, r.2.2, hsV, htV, ?_, by rw [hr1, ha], by rw [hr2, hb]⟩
              rw [← hc]
              exact hr
    · rintro ⟨s, t, hsV, htV, hmem, hs, ht⟩
      refine List.mem_filterMap.2 ⟨(s, c, t), hmem, ?_⟩
      rw [hs, ht]
  -- lookup characterizations
  have hlk1 : ∀ s, s ∈ d.cleanup_visited → ∀ c t,
      d.transition_function.lookup s c = some t →
      t ∈ d.cleanup_visited ∧
      d.cleanup.transition_function.lookup
        ((alook (DFA.cleanup_map d.start_state d.cleanup_visited) s).getD 0) c
        = some ((alook (DFA.cleanup_map d.start_state d.cleanup_visited) t).getD 0) := by
    intro s hs c t hlk
    have hrmem := DTransitionFunction.lookup_eq_some_mem hlk
    have hcchars : c ∈ d.symbol_table.chars := H2 (s, c, t) hrmem
    have htV : t ∈ d.cleanup_visited := hclosed s hs c t hcchars hlk
    refine ⟨htV, ?_⟩
    rw [DTransitionFunction.lookup_eq_some_iff hckeys]
    exact (hrowiff _ _ _).2 ⟨s, t, hs, htV, hrmem, hm s hs, hm t htV⟩
  have hlk2 : ∀ s, s ∈ d.cleanup_visited → ∀ c,
      d.transition_function.lookup s c = none →
      d.cleanup.transition_function.lookup
        ((alook (DFA.cleanup_map d.start_state d.cleanup_visited) s).getD 0) c = none := by
    intro s hs c hlk
    rw [DTransitionFunction.lookup_eq_none_iff]
    intro t' hmem
    rcases (hrowiff _ _ _).1 hmem with ⟨s', t, hs'V, htV, hrmem, hs', ht⟩
    have : s' = s := cleanup_map_inj hnodup hs' (hm s hs)
    rw [this] at hrmem
    exact (DTransitionFunction.lookup_eq_none_iff.1 hlk t) hrmem
  have hcs : ∀ s, s ∈ d.cleanup_visited →
      d.cleanup.transition_function.contains_state
        ((alook (DFA.cleanup_map d.start_state d.cleanup_visited) s).getD 0)
      = d.transition_function.contains_state s := by
    intro s hs
    cases hd : d.transition_function.contains_state s with
    | true =>
        rw [DTransitionFunction.contains_state, List.any_eq_true] at hd
        rcases hd with ⟨r, hr, hpred⟩
        have hr1 : r.1 = s := by simpa using hpred
        have hrr : (s, r.2.1, r.2.2) ∈ d.transition_function.rows := by
          rw [← hr1]; exact hr
        have hlk : d.transition_function.lookup s r.2.1 = some r.2.2 :=
          (DTransitionFunction.lookup_eq_some_iff H3).2 hrr
        obtain ⟨-, hl⟩ := hlk1 s hs r.2.1 r.2.2 hlk
        exact DTransitionFunction.contains_state_of_lookup hl
    | false =>
        cases hcl : d.cleanup.transition_function.contains_state
            ((alook (DFA.cleanup_map d.start_state d.cleanup_visited) s).getD 0) with
        | false => rfl
        | true =>
            exfalso
            rw [DTransitionFunction.contains_state, List.any_eq_true] at hcl
            rcases hcl with ⟨r, hr, hpred⟩
            have hr1 : r.1 = (alook (DFA.cleanup_map d.start_state d.cleanup_visited) s).getD 0 := by
              simpa using hpred
            have hmemc : (r.1, r.2.1, r.2.2) ∈ d.cleanup.transition_function.rows := hr
            rcases (hrowiff _ _ _).1 hmemc with ⟨s', t, hs'V, htV, hrmem, hs', ht⟩
            have hss : s' = s := by
              apply cleanup_map_inj hnodup hs'
              rw [hr1]
              exact hm s hs
            rw [DTransitionFunction.contains_state, List.any_eq_false] at hd
            have hcon := hd (s', r.2.1, t) hrmem
            rw [hss] at hcon
            simp at hcon
  have hsim : ∀ w s, s ∈ d.cleanup_visited →
      d.cleanup.runFrom ((alook (DFA.cleanup_map d.start_state d.cleanup_visited) s).getD 0) w
        = d.runFrom s w := by
    intro w
    induction w with
    | nil =>
        intro s hs
        rw [DFA.runFrom, DFA.runFrom]
        have hcf : d.cleanup.final_states
            = d.final_states.filterMap (alook (DFA.cleanup_map d.start_state d.cleanup_visited)) :=
          rfl
        have hfin : d.cleanup.final_states.contains
            ((alook (DFA.cleanup_map d.start_state d.cleanup_visited) s).getD 0)
            = d.final_states.contains s := by
          cases hdf : d.final_states.contains s with
          | true =>
              have hsf : s ∈ d.final_states := by simpa using hdf
              rw [hcf]
              have hmemf := List.mem_filterMap.2 ⟨s, hsf, hm s hs⟩
              simpa using hmemf
          | false =>
              have hsf : ¬ s ∈ d.final_states := by simpa using hdf
              rw [hcf]
              cases hc2 : (d.final_states.filterMap
                  (alook (DFA.cleanup_map d.start_state d.cleanup_visited))).contains
                  ((alook (DFA.cleanup_map d.start_state d.cleanup_visited) s).getD 0) with
              | false => rfl
              | true =>
                  exfalso
                  have hmemf : ((alook (DFA.cleanup_map d.start_state d.cleanup_visited) s).getD 0)
                      ∈ d.final_states.filterMap
                        (alook (DFA.cleanup_map d.start_state d.cleanup_visited)) := by
                    simpa using hc2
                  rcases List.mem_filterMap.1 hmemf with ⟨f, hf, hfl⟩
                  have hfV : f ∈ d.cleanup_visited := by
                    rcases cleanup_map_some_mem hfl with ⟨he, -⟩ | ⟨hv, -⟩
                    · rw [he]; exact hstartV
                    · exact hv
                  have : f = s := cleanup_map_inj hnodup hfl (hm s hs)
                  rw [this] at hf
                  exact hsf hf
        rw [hfin]
    | cons c w ih =>
        intro s hs
        rw [DFA.runFrom, DFA.runFrom]
        rw [hcs s hs]
        cases hdc : d.transition_function.contains_state s with
        | false => simp [hdc]
        | true =>
            simp only [hdc, not_true, Bool.true_eq_false, if_false, ite_false,
              Bool.not_true, not_false_iff, if_neg, Decidable.not_not]
            cases hlk : d.transition_function.lookup s c with
            | none =>
                have h2 := hlk2 s hs c hlk
                simp [DTransitionFunction.is_valid_transition, hlk, h2]
            | some t =>
                obtain ⟨htV, hl⟩ := hlk1 s hs c t hlk
                simp only [DTransitionFunction.is_valid_transition, hlk, hl,
                  Option.isSome_some, not_true, Bool.true_eq_false, ite_false,
                  Option.getD_some, Bool.not_true, if_neg, Decidable.not_not]
                simpa using ih t htV
  have hstart0 : (alook (DFA.cleanup_map d.start_state d.cleanup_visited) d.start_state).getD 0
      = 0 := by
    rw [cleanup_map_start]
    rfl
  refine ⟨⟨rfl, rfl, hVlen, rfl, ?_, hckeys, ?_⟩, rfl, ?_, ?_⟩
  · intro r hr
    have hreq : (r.1, r.2.1, r.2.2) = r := rfl
    rcases (hrowiff r.1 r.2.1 r.2.2).1 (by rw [hreq]; exact hr)
      with ⟨s, t, hsV, htV, hrmem, hsl, htl⟩
    refine ⟨?_, ?_, H2 (s, r.2.1, t) hrmem⟩
    · have := cleanup_map_bound hnodup hstartV hsl
      exact this
    · have := cleanup_map_bound hnodup hstartV htl
      exact this
  · intro f hf
    rcases List.mem_filterMap.1 hf with ⟨f0, -, hfl⟩
    exact cleanup_map_bound hnodup hstartV hfl
  · intro w
    rw [DFA.run, DFA.run]
    have hcstart : d.cleanup.start_state = 0 := rfl
    rw [hcstart, ← hstart0]
    exact hsim w d.start_state hstartV
  · intro htot
    intro s' hs' c hc
    obtain ⟨x, hxV, hxl⟩ := cleanup_map_surj hnodup hstartV hs'
    have hx0 : (alook (DFA.cleanup_map d.start_state d.cleanup_visited) x).getD 0 = s' := by
      rw [hxl]; rfl
    have hxr : d.Reach x := hVreach x hxV
    have hsome := d.total_on_reachable_spec htot x hxr c hc
    cases hlk : d.transition_function.lookup x c with
    | none => rw [hlk] at hsome; simp at hsome
    | some t =>
        obtain ⟨-, hl⟩ := hlk1 x hxV c t hlk
        rw [hx0] at hl
        rw [hl]
        rfl

/-- Membership in the lexicographic pair list iterated by the minimization
loops. -/
theorem mem_statePairs (b e i j : Nat) :
    (i, j) ∈ DFA.statePairs b e ↔ b ≤ i ∧ i < j ∧ j ≤ e := by
  unfold DFA.statePairs
  rw [List.mem_flatMap]
  constructor
  · rintro ⟨a, ha, hmem⟩
    rw [List.mem_range'_1] at ha
    rcases List.mem_map.1 hmem with ⟨y, hy, hxy⟩
    rw [List.mem_range'_1] at hy
    have h1 : a = i := congrArg Prod.fst hxy
    have h2 : y = j := congrArg Prod.snd hxy
    subst h1; subst h2
    omega
  · rintro ⟨h1, h2, h3⟩
    refine ⟨i, List.mem_range'_1.2 ⟨h1, by omega⟩,
      List.mem_map.2 ⟨j, List.mem_range'_1.2 ⟨by omega, by omega⟩, rfl⟩⟩

/-- A generic bound on the length of a `flatMap`. -/
theorem length_flatMap_le {α β : Type} (f : α → List β) (k : Nat) :
    ∀ (l : List α), (∀ x ∈ l, (f x).length ≤ k) → (l.flatMap f).length ≤ l.length * k := by
  intro l
  induction l with
  | nil => intro _; simp
  | cons a rest ih =>
      intro hb
      rw [List.flatMap_cons, List.length_append, List.length_cons, Nat.succ_mul]
      have h1 := hb a (List.mem_cons_self a rest)
      have h2 := ih (fun x hx => hb x (List.mem_cons_of_mem a hx))
      omega

/-- A length bound on the pair list. -/
theorem statePairs_length_le (b e : Nat) :
    (DFA.statePairs b e).length ≤ (e + 1 - b) * (e + 1) := by
  unfold DFA.statePairs
  have := length_flatMap_le
    (fun i => (List.range' (i + 1) (e - i)).map (fun j => (i, j))) (e + 1)
    (List.range' b (e + 1 - b))
    (by intro x _; simp; omega)
  simpa using this

/-- Fold preservation of an invariant. -/
theorem foldl_invariant {α γ : Type} (P : γ → Prop) (step : γ → α → γ) :
    ∀ (l : List α) (a : γ), P a → (∀ b, ∀ x ∈ l, P b → P (step b x)) →
      P (l.foldl step a) := by
  intro l
  induction l with
  | nil => intro a ha _; simpa using ha
  | cons x rest ih =>
      intro a ha hstep
      rw [List.foldl_cons]
      exact ih _ (hstep a x (List.mem_cons_self x rest) ha)
        (fun b y hy hb => hstep b y (List.mem_cons_of_mem x hy) hb)

/-- A fold whose steps never decrease a measure does not decrease it. -/
theorem foldl_measure_le {α γ : Type} (μ : γ → Nat) (step : γ → α → γ) :
    ∀ (l : List α) (a : γ), (∀ b, ∀ x ∈ l, μ b ≤ μ (step b x)) →
      μ a ≤ μ (l.foldl step a) := by
  intro l
  induction l with
  | nil => intro a _; simp
  | cons x rest ih =>
      intro a h
      rw [List.foldl_cons]
      exact le_trans (h a x (List.mem_cons_self x rest))
        (ih _ (fun b y hy => h b y (List.mem_cons_of_mem x hy)))

/-- If every step either fixes an accumulator or strictly increases the
measure, then a fold that returns its starting point fixes every single step
at that starting point. -/
theorem foldl_fix {α γ : Type} (μ : γ → Nat) (step : γ → α → γ) :
    ∀ (l : List α) (a : γ),
      (∀ b, ∀ x ∈ l, step b x = b ∨ μ b < μ (step b x)) →
      l.foldl step a = a → ∀ x ∈ l, step a x = a := by
  intro l
  induction l with
  | nil => intro a _ _ x hx; simp at hx
  | cons y rest ih =>
      intro a hstep hfix x hx
      have hmono : ∀ b, ∀ z ∈ rest, μ b ≤ μ (step b z) := by
        intro b z hz
        rcases hstep b z (List.mem_cons_of_mem y hz) with h | h
        · rw [h]
        · exact le_of_lt h
      rw [List.foldl_cons] at hfix
      have hya : step a y = a := by
        rcases hstep a y (List.mem_cons_self y rest) with h | h
        · exact h
        · exfalso
          have h2 := foldl_measure_le μ step rest (step a y) hmono
          rw [hfix] at h2
          omega
      rcases List.mem_cons.1 hx with rfl | hx'
      · exact hya
      · exact ih a (fun b z hz => hstep b z (List.mem_cons_of_mem y hz))
          (by rw [hya] at hfix; exact hfix) x hx'

/-- An element inserted by some step of a membership-monotone fold is in the
fold's result. -/
theorem foldl_mem {β γ : Type} (step : List β → γ → List β)
    (hmono : ∀ m x, ∀ y ∈ m, y ∈ step m x) :
    ∀ (l : List γ) (m : List β) (p : γ) (t : β), p ∈ l →
      (∀ m', t ∈ step m' p) → t ∈ l.foldl step m := by
  intro l
  induction l with
  | nil => intro m p t hp _; simp at hp
  | cons x rest ih =>
      intro m p t hp hstep
      rw [List.foldl_cons]
      rcases List.mem_cons.1 hp with rfl | hp'
      · exact foldl_invariant (fun acc => t ∈ acc) step rest (step m p) (hstep m)
          (fun b y _ hb => hmono b y t hb)
      · exact ih (step m x) p t hp' hstep

/-- A duplicate-free list of pairs contained in another list is no longer
than it. -/
theorem nodup_subset_length_le_pair {l u : List (Nat × Nat)} (hn : l.Nodup)
    (hsub : ∀ x ∈ l, x ∈ u) : l.length ≤ u.length :=
  (List.Nodup.subperm hn hsub).length_le

/-- Boolean pair-list membership as propositional membership. -/
theorem pair_contains_iff {m : List (Nat × Nat)} {p : Nat × Nat} :
    m.contains p = true ↔ p ∈ m := by
  simp

/-- The inserted pair is a member. -/
theorem DFA.pinsert_mem_self (p : Nat × Nat) (m : List (Nat × Nat)) :
    p ∈ DFA.pinsert p m := by
  unfold DFA.pinsert
  by_cases h : m.contains p = true
  · rw [if_pos h]; exact pair_contains_iff.1 h
  · rw [if_neg h]; exact List.mem_cons_self p m

/-- Insertion keeps old members. -/
theorem DFA.pinsert_mono {m : List (Nat × Nat)} {y : Nat × Nat}
    (p : Nat × Nat) (hy : y ∈ m) : y ∈ DFA.pinsert p m := by
  unfold DFA.pinsert
  by_cases h : m.contains p = true
  · rw [if_pos h]; exact hy
  · rw [if_neg h]; exact List.mem_cons_of_mem p hy

/-- Insertion adds no duplicates. -/
theorem DFA.pinsert_nodup {m : List (Nat × Nat)} (p : Nat × Nat)
    (hnd : m.Nodup) : (DFA.pinsert p m).Nodup := by
  unfold DFA.pinsert
  by_cases h : m.contains p = true
  · rw [if_pos h]; exact hnd
  · rw [if_neg h]
    refine List.nodup_cons.2 ⟨fun hmem => h (pair_contains_iff.2 hmem), hnd⟩

/-- Members of an insertion are the inserted pair or old members. -/
theorem DFA.pinsert_subset {m : List (Nat × Nat)} {p x : Nat × Nat}
    (hx : x ∈ DFA.pinsert p m) : x = p ∨ x ∈ m := by
  unfold DFA.pinsert at hx
  by_cases h : m.contains p = true
  · rw [if_pos h] at hx; exact Or.inr hx
  · rw [if_neg h] at hx
    rcases List.mem_cons.1 hx with h1 | h1
    · exact Or.inl h1
    · exact Or.inr h1

/-- On a machine whose state range starts at `0`, the marking sweep is the
pair fold of `sweepOuter`. -/
theorem DFA.mark_sweep_eq (d : DFA) (hb : d.begin_state_num = 0)
    (m0 : List (Nat × Nat)) :
    d.mark_sweep m0
      = (DFA.statePairs 0 d.end_state_num).foldl d.sweepOuter (m0, false) := by
  unfold DFA.mark_sweep
  rw [hb]
  rfl

/-- On a machine whose state range starts at `0`, the marking initialization
is the pair fold of `initStep`. -/
theorem DFA.mark_init_eq (d : DFA) (hb : d.begin_state_num = 0) :
    d.mark_init = (DFA.statePairs 0 d.end_state_num).foldl d.initStep [] := by
  unfold DFA.mark_init
  rw [hb]
  rfl

/-- On a machine whose state range starts at `0`, the DSU construction is the
pair fold of `dsuStep`. -/
theorem DFA.minimization_dsu_eq (d : DFA) (hb : d.begin_state_num = 0) :
    d.minimization_dsu
      = (DFA.statePairs 0 d.end_state_num).foldl
          (dsuStep d.minimization_marked) (DSU.new d.num_states) := by
  unfold DFA.minimization_dsu
  rw [hb]
  rfl

/-- Structure of one marking sweep: an unset flag means the matrix did not
change, a set flag means it strictly grew; the matrix only grows, by state
pairs of the machine, and stays duplicate-free. -/
theorem DFA.mark_sweep_spec (d : DFA) (hb : d.begin_state_num = 0)
    (m0 : List (Nat × Nat)) (hnd : m0.Nodup) :
    ((d.mark_sweep m0).2 = false → (d.mark_sweep m0).1 = m0) ∧
    ((d.mark_sweep m0).2 = true → m0.length < (d.mark_sweep m0).1.length) ∧
    (∀ x ∈ m0, x ∈ (d.mark_sweep m0).1) ∧
    (d.mark_sweep m0).1.Nodup ∧
    (∀ x ∈ (d.mark_sweep m0).1,
      x ∈ m0 ∨ x ∈ DFA.statePairs 0 d.end_state_num) := by
  rw [d.mark_sweep_eq hb m0]
  have key : (fun acc : List (Nat × Nat) × Bool =>
      (acc.2 = false → acc.1 = m0) ∧
      (acc.2 = true → m0.length < acc.1.length) ∧
      (∀ x ∈ m0, x ∈ acc.1) ∧ acc.1.Nodup ∧
      (∀ x ∈ acc.1, x ∈ m0 ∨ x ∈ DFA.statePairs 0 d.end_state_num))
      ((DFA.statePairs 0 d.end_state_num).foldl d.sweepOuter (m0, false)) := by
    refine foldl_invariant (fun acc : List (Nat × Nat) × Bool =>
        (acc.2 = false → acc.1 = m0) ∧
        (acc.2 = true → m0.length < acc.1.length) ∧
        (∀ x ∈ m0, x ∈ acc.1) ∧ acc.1.Nodup ∧
        (∀ x ∈ acc.1, x ∈ m0 ∨ x ∈ DFA.statePairs 0 d.end_state_num))
      d.sweepOuter _ (m0, false)
      ⟨fun _ => rfl, fun h => by simp at h, fun x hx => hx, hnd,
        fun x hx => Or.inl hx⟩ ?_
    intro b p hp hPb
    unfold DFA.sweepOuter
    by_cases hc : b.1.contains p = true
    · rw [if_pos hc]; exact hPb
    · rw [if_neg hc]
      refine foldl_invariant (fun acc : List (Nat × Nat) × Bool =>
          (acc.2 = false → acc.1 = m0) ∧
          (acc.2 = true → m0.length < acc.1.length) ∧
          (∀ x ∈ m0, x ∈ acc.1) ∧ acc.1.Nodup ∧
          (∀ x ∈ acc.1, x ∈ m0 ∨ x ∈ DFA.statePairs 0 d.end_state_num))
        (d.sweepInner p) _ b hPb ?_
      intro b2 c _ hPb2
      unfold DFA.sweepInner
      by_cases hcond :
          (b2.1.contains (d.succPair p c) && !(b2.1.contains p)) = true
      · rw [if_pos hcond]
        obtain ⟨h1, h2, h3, h4, h5⟩ := hPb2
        have hfresh : ¬ p ∈ b2.1 := by
          have hcp := hcond
          rw [Bool.and_eq_true] at hcp
          intro hmem
          have h2' := hcp.2
          simp at h2'
          exact h2' hmem
        refine ⟨fun h => by simp at h, fun _ => ?_, ?_, ?_, ?_⟩
        · cases hb2 : b2.2 with
          | true =>
              have := h2 hb2
              simpa using Nat.lt_succ_of_lt this
          | false =>
              rw [h1 hb2]
              simp
        · intro x hx
          exact List.mem_cons_of_mem p (h3 x hx)
        · exact List.nodup_cons.2 ⟨hfresh, h4⟩
        · intro x hx
          rcases List.mem_cons.1 hx with rfl | hx'
          · exact Or.inr hp
          · exact h5 x hx'
      · rw [if_neg hcond]; exact hPb2
  exact key

/-- A fold of identity-or-growing steps is the start or grew. -/
theorem foldl_id_or {α γ : Type} (μ : γ → Nat) (step : γ → α → γ) :
    ∀ (l : List α) (a : γ),
      (∀ b, ∀ x ∈ l, step b x = b ∨ μ b < μ (step b x)) →
      l.foldl step a = a ∨ μ a < μ (l.foldl step a) := by
  intro l
  induction l with
  | nil => intro a _; exact Or.inl rfl
  | cons x rest ih =>
      intro a hstep
      have hrest : ∀ b, ∀ z ∈ rest, step b z = b ∨ μ b < μ (step b z) :=
        fun b z hz => hstep b z (List.mem_cons_of_mem x hz)
      have hmono : ∀ b, ∀ z ∈ rest, μ b ≤ μ (step b z) := by
        intro b z hz
        rcases hrest b z hz with h | h
        · rw [h]
        · exact le_of_lt h
      rw [List.foldl_cons]
      rcases hstep a x (List.mem_cons_self x rest) with h | h
      · rw [h]; exact ih a hrest
      · exact Or.inr (lt_of_lt_of_le h (foldl_measure_le μ step rest (step a x) hmono))

/-- The inner sweep step is the identity or strictly grows the matrix. -/
theorem DFA.sweepInner_id_or (d : DFA) (p : Nat × Nat)
    (b : List (Nat × Nat) × Bool) (c : Char) :
    d.sweepInner p b c = b ∨ b.1.length < (d.sweepInner p b c).1.length := by
  unfold DFA.sweepInner
  by_cases hcond : (b.1.contains (d.succPair p c) && !(b.1.contains p)) = true
  · rw [if_pos hcond]
    exact Or.inr (by simp)
  · rw [if_neg hcond]
    exact Or.inl rfl

/-- The outer sweep step is the identity or strictly grows the matrix. -/
theorem DFA.sweepOuter_id_or (d : DFA) (b : List (Nat × Nat) × Bool)
    (p : Nat × Nat) :
    d.sweepOuter b p = b ∨ b.1.length < (d.sweepOuter b p).1.length := by
  unfold DFA.sweepOuter
  by_cases hc : b.1.contains p = true
  · rw [if_pos hc]; exact Or.inl rfl
  · rw [if_neg hc]
    exact foldl_id_or (fun acc => acc.1.length) (d.sweepInner p)
      d.symbol_table.chars b (fun b2 c _ => d.sweepInner_id_or p b2 c)

/-- At a fixed point of the sweep, both successors of an unmarked state pair
form an unmarked pair: the marking has stabilized. -/
theorem DFA.mark_sweep_fix_elim (d : DFA) (hb : d.begin_state_num = 0)
    {M : List (Nat × Nat)} (hfix : d.mark_sweep M = (M, false)) :
    ∀ p ∈ DFA.statePairs 0 d.end_state_num, ¬ p ∈ M →
      ∀ c ∈ d.symbol_table.chars, ¬ d.succPair p c ∈ M := by
  rw [d.mark_sweep_eq hb M] at hfix
  have houter := foldl_fix (fun acc => acc.1.length) d.sweepOuter
    (DFA.statePairs 0 d.end_state_num) (M, false)
    (fun b x _ => d.sweepOuter_id_or b x) hfix
  intro p hp hpM c hc hsucc
  have hstep := houter p hp
  unfold DFA.sweepOuter at hstep
  have hcp : M.contains p = false := by
    cases h : M.contains p with
    | false => rfl
    | true => exact absurd (pair_contains_iff.1 h) hpM
  rw [show ((M, false) : List (Nat × Nat) × Bool).1 = M from rfl, hcp] at hstep
  rw [if_neg (by simp)] at hstep
  have hinner := foldl_fix (fun acc => acc.1.length) (d.sweepInner p)
    d.symbol_table.chars (M, false)
    (fun b x _ => d.sweepInner_id_or p b x) hstep c hc
  unfold DFA.sweepInner at hinner
  have hcond : (((M, false) : List (Nat × Nat) × Bool).1.contains (d.succPair p c)
      && !(((M, false) : List (Nat × Nat) × Bool).1.contains p)) = true := by
    have h1 : M.contains (d.succPair p c) = true := pair_contains_iff.2 hsucc
    simp only [h1, hcp]
    rfl
  rw [if_pos hcond] at hinner
  have := congrArg Prod.snd hinner
  simp at this

/-- The marking initialization is duplicate-free, lies within the machine's
state pairs, and marks every pair that disagrees on finality. -/
theorem DFA.mark_init_spec (d : DFA) (hb : d.begin_state_num = 0) :
    d.mark_init.Nodup ∧
    (∀ x ∈ d.mark_init, x ∈ DFA.statePairs 0 d.end_state_num) ∧
    (∀ p ∈ DFA.statePairs 0 d.end_state_num,
      d.final_states.contains p.1 ≠ d.final_states.contains p.2 →
      p ∈ d.mark_init) := by
  rw [d.mark_init_eq hb]
  have h12 : (fun m : List (Nat × Nat) =>
      m.Nodup ∧ ∀ x ∈ m, x ∈ DFA.statePairs 0 d.end_state_num)
      ((DFA.statePairs 0 d.end_state_num).foldl d.initStep []) := by
    refine foldl_invariant (fun m : List (Nat × Nat) =>
        m.Nodup ∧ ∀ x ∈ m, x ∈ DFA.statePairs 0 d.end_state_num)
      d.initStep _ [] ⟨List.nodup_nil, by simp⟩ ?_
    intro m p hp hm
    unfold DFA.initStep
    by_cases hcond : ((d.final_states.contains p.1 && !(d.final_states.contains p.2))
        || (!(d.final_states.contains p.1) && d.final_states.contains p.2)) = true
    · rw [if_pos hcond]
      refine ⟨DFA.pinsert_nodup p hm.1, ?_⟩
      intro x hx
      rcases DFA.pinsert_subset hx with rfl | hx'
      · exact hp
      · exact hm.2 x hx'
    · rw [if_neg hcond]; exact hm
  refine ⟨h12.1, h12.2, ?_⟩
  intro p hp hdiff
  refine foldl_mem d.initStep ?_ _ [] p p hp ?_
  · intro m x y hy
    unfold DFA.initStep
    by_cases hcond : ((d.final_states.contains x.1 && !(d.final_states.contains x.2))
        || (!(d.final_states.contains x.1) && d.final_states.contains x.2)) = true
    · rw [if_pos hcond]; exact DFA.pinsert_mono x hy
    · rw [if_neg hcond]; exact hy
  · intro m'
    unfold DFA.initStep
    have hcond : ((d.final_states.contains p.1 && !(d.final_states.contains p.2))
        || (!(d.final_states.contains p.1) && d.final_states.contains p.2)) = true := by
      cases hc1 : d.final_states.contains p.1 <;>
        cases hc2 : d.final_states.contains p.2 <;> simp_all
    rw [if_pos hcond]
    exact DFA.pinsert_mem_self p m'

/-- The marking loop only grows the duplicate-free matrix inside the state
pairs, and with enough fuel reaches a fixed point of the sweep. -/
theorem DFA.mark_loop_spec (d : DFA) (hb : d.begin_state_num = 0) :
    ∀ (fuel : Nat) (m : List (Nat × Nat)), m.Nodup →
      (∀ x ∈ m, x ∈ DFA.statePairs 0 d.end_state_num) →
      (∀ x ∈ m, x ∈ d.mark_loop fuel m) ∧
      (d.mark_loop fuel m).Nodup ∧
      (∀ x ∈ d.mark_loop fuel m, x ∈ DFA.statePairs 0 d.end_state_num) ∧
      ((DFA.statePairs 0 d.end_state_num).length < m.length + fuel →
        d.mark_sweep (d.mark_loop fuel m) = (d.mark_loop fuel m, false)) := by
  intro fuel
  induction fuel with
  | zero =>
      intro m hnd hsub
      refine ⟨fun x hx => hx, hnd, hsub, ?_⟩
      intro hlen
      have hle := nodup_subset_length_le_pair hnd hsub
      exact absurd hlen (by omega)
  | succ fuel ih =>
      intro m hnd hsub
      have hs := d.mark_sweep_spec hb m hnd
      cases hr : (d.mark_sweep m).2 with
      | false =>
          have hL : d.mark_loop (fuel + 1) m = m := by
            simp [DFA.mark_loop, hr]
          refine ⟨fun x hx => by rw [hL]; exact hx, by rw [hL]; exact hnd,
            by rw [hL]; exact hsub, ?_⟩
          intro _
          rw [hL]
          have h1 := hs.1 hr
          calc d.mark_sweep m = ((d.mark_sweep m).1, (d.mark_sweep m).2) := rfl
            _ = (m, false) := by rw [h1, hr]
      | true =>
          have hL : d.mark_loop (fuel + 1) m = d.mark_loop fuel (d.mark_sweep m).1 := by
            simp [DFA.mark_loop, hr]
          have hgrow := hs.2.1 hr
          have hnd2 := hs.2.2.2.1
          have hsub2 : ∀ x ∈ (d.mark_sweep m).1, x ∈ DFA.statePairs 0 d.end_state_num := by
            intro x hx
            rcases hs.2.2.2.2 x hx with h | h
            · exact hsub x h
            · exact h
          obtain ⟨ih1, ih2, ih3, ih4⟩ := ih (d.mark_sweep m).1 hnd2 hsub2
          refine ⟨?_, by rw [hL]; exact ih2, by rw [hL]; exact ih3, ?_⟩
          · intro x hx
            rw [hL]
            exact ih1 x (hs.2.2.1 x hx)
          · intro hlen
            rw [hL]
            exact ih4 (by omega)

/-- The marked matrix of `minimized_dfa` is duplicate-free, lies within the
state pairs, is a fixed point of the sweep (the loop's fuel provably
suffices), and contains every pair that disagrees on finality. -/
theorem DFA.minimization_marked_spec (d : DFA) (hb : d.begin_state_num = 0)
    (he : d.end_state_num = d.num_states - 1) (hn : 1 ≤ d.num_states) :
    d.minimization_marked.Nodup ∧
    (∀ x ∈ d.minimization_marked, x ∈ DFA.statePairs 0 d.end_state_num) ∧
    d.mark_sweep d.minimization_marked = (d.minimization_marked, false) ∧
    (∀ p ∈ DFA.statePairs 0 d.end_state_num,
      d.final_states.contains p.1 ≠ d.final_states.contains p.2 →
      p ∈ d.minimization_marked) := by
  obtain ⟨hind, hisub, himem⟩ := d.mark_init_spec hb
  obtain ⟨hl1, hl2, hl3, hl4⟩ :=
    d.mark_loop_spec hb (d.num_states * d.num_states + 1) d.mark_init hind hisub
  have hMdef : d.minimization_marked
      = d.mark_loop (d.num_states * d.num_states + 1) d.mark_init := rfl
  have hplen : (DFA.statePairs 0 d.end_state_num).length
      ≤ d.num_states * d.num_states := by
    have := statePairs_length_le 0 d.end_state_num
    have he1 : d.end_state_num + 1 = d.num_states := by omega
    simpa [he1] using this
  refine ⟨by rw [hMdef]; exact hl2, by rw [hMdef]; exact hl3,
    by rw [hMdef]; exact hl4 (by omega), ?_⟩
  intro p hp hdiff
  rw [hMdef]
  exact hl1 p (himem p hp hdiff)

/-- Unmarkedness is reflexive. -/
theorem pairUnmarked_refl (M : List (Nat × Nat)) (i : Nat) :
    pairUnmarked M i i = true := by
  unfold pairUnmarked
  simp

/-- Unmarkedness is symmetric. -/
theorem pairUnmarked_symm (M : List (Nat × Nat)) (i j : Nat) :
    pairUnmarked M i j = pairUnmarked M j i := by
  unfold pairUnmarked
  rw [min_comm, max_comm]
  by_cases h : i = j
  · subst h; rfl
  · have h1 : (i == j) = false := by simp [h]
    have h2 : (j == i) = false := by simp [Ne.symm h]
    rw [h1, h2]

/-- Unmarkedness unfolded to a proposition. -/
theorem pairUnmarked_iff {M : List (Nat × Nat)} {i j : Nat} :
    pairUnmarked M i j = true ↔ (i = j ∨ ¬ (min i j, max i j) ∈ M) := by
  unfold pairUnmarked
  simp

/-- A run step along a present transition. -/
theorem DFA.runFrom_cons_of_lookup (d : DFA) {u tu : Nat} {c : Char}
    (hu : d.transition_function.lookup u c = some tu) (w : List Char) :
    d.runFrom u (c :: w) = d.runFrom tu w := by
  rw [DFA.runFrom]
  have h1 : d.transition_function.contains_state u = true :=
    DTransitionFunction.contains_state_of_lookup hu
  have h2 : d.transition_function.is_valid_transition u (Symbol.ch c) = true := by
    simp [DTransitionFunction.is_valid_transition, hu]
  rw [if_neg (by simp [h1]), if_neg (by simp [h2]), hu]
  rfl

/-- A table whose rows are labelled inside a character set has no transition
on characters outside it. -/
theorem DTransitionFunction.lookup_none_of_label {f : DTransitionFunction}
    {chars : List Char} (hlab : ∀ r ∈ f.rows, r.2.1 ∈ chars) {c : Char}
    (hcc : ¬ c ∈ chars) (s : Nat) : f.lookup s c = none :=
  DTransitionFunction.lookup_eq_none_iff.2 (fun t hmem => hcc (hlab (s, c, t) hmem))

/-- A table whose rows are labelled inside the empty character set is empty. -/
theorem DTransitionFunction.rows_nil_of_label_nil {f : DTransitionFunction}
    (hlab : ∀ r ∈ f.rows, r.2.1 ∈ ([] : List Char)) : f.rows = [] := by
  cases hrw : f.rows with
  | nil => rfl
  | cons r rs =>
      exfalso
      have := hlab r (by rw [hrw]; exact List.mem_cons_self r rs)
      simp at this

/-- Completeness of the marking: states left unmarked at the fixed point are
run-equivalent on every word, on a clean total machine. -/
theorem DFA.unmarked_runFrom_eq (d : DFA) (hc : d.clean) (ht : d.totalAll) :
    ∀ (w : List Char) (i j : Nat), i < d.num_states → j < d.num_states →
      pairUnmarked d.minimization_marked i j = true →
      d.runFrom i w = d.runFrom j w := by
  obtain ⟨hb, hst, hn, he, hrows, hkeys, hfin⟩ := hc
  obtain ⟨hMnd, hMsub, hMfix, hMdiff⟩ := d.minimization_marked_spec hb he hn
  intro w
  induction w with
  | nil =>
      intro i j hi hj hum
      simp only [DFA.runFrom]
      by_cases hij : i = j
      · subst hij; rfl
      · have hpair : (min i j, max i j) ∈ DFA.statePairs 0 d.end_state_num := by
          rw [mem_statePairs]
          omega
        have hpM : ¬ (min i j, max i j) ∈ d.minimization_marked := by
          rcases pairUnmarked_iff.1 hum with h | h
          · exact absurd h hij
          · exact h
        have hfeq : d.final_states.contains i = d.final_states.contains j := by
          by_contra hne
          apply hpM
          apply hMdiff (min i j, max i j) hpair
          rcases Nat.le_total i j with hle | hle
          · have h1 : min i j = i := by omega
            have h2 : max i j = j := by omega
            rw [h1, h2]
            exact hne
          · have h1 : min i j = j := by omega
            have h2 : max i j = i := by omega
            rw [h1, h2]
            exact fun h => hne h.symm
        rw [hfeq]
  | cons c w ih =>
      intro i j hi hj hum
      by_cases hcc : c ∈ d.symbol_table.chars
      · obtain ⟨ti, hti⟩ := Option.isSome_iff_exists.1 (ht i hi c hcc)
        obtain ⟨tj, htj⟩ := Option.isSome_iff_exists.1 (ht j hj c hcc)
        rw [d.runFrom_cons_of_lookup hti w, d.runFrom_cons_of_lookup htj w]
        have hti' : ti < d.num_states :=
          (hrows _ (DTransitionFunction.lookup_eq_some_mem hti)).2.1
        have htj' : tj < d.num_states :=
          (hrows _ (DTransitionFunction.lookup_eq_some_mem htj)).2.1
        by_cases hij : i = j
        · subst hij
          rw [hti] at htj
          have : ti = tj := by simpa using htj
          rw [this]
        · have hpair : (min i j, max i j) ∈ DFA.statePairs 0 d.end_state_num := by
            rw [mem_statePairs]
            omega
          have hpM : ¬ (min i j, max i j) ∈ d.minimization_marked := by
            rcases pairUnmarked_iff.1 hum with h | h
            · exact absurd h hij
            · exact h
          have hsucc := d.mark_sweep_fix_elim hb hMfix (min i j, max i j) hpair hpM c hcc
          have hsp : d.succPair (min i j, max i j) c = (min ti tj, max ti tj) := by
            unfold DFA.succPair
            rcases Nat.le_total i j with hle | hle
            · have h1 : min i j = i := by omega
              have h2 : max i j = j := by omega
              rw [h1, h2, hti, htj]
              rfl
            · have h1 : min i j = j := by omega
              have h2 : max i j = i := by omega
              rw [h1, h2, hti, htj]
              simp [min_comm, max_comm]
          rw [hsp] at hsucc
          exact ih ti tj hti' htj' (pairUnmarked_iff.2 (Or.inr hsucc))
      · have hnone_i : d.transition_function.lookup i c = none :=
          DTransitionFunction.lookup_none_of_label (fun r hr => (hrows r hr).2.2) hcc i
        have hnone_j : d.transition_function.lookup j c = none :=
          DTransitionFunction.lookup_none_of_label (fun r hr => (hrows r hr).2.2) hcc j
        by_cases hnil : d.symbol_table.chars = []
        · have hrw : d.transition_function.rows = [] :=
            DTransitionFunction.rows_nil_of_label_nil
              (by rw [← hnil]; exact fun r hr => (hrows r hr).2.2)
          have hcsi : d.transition_function.contains_state i = false := by
            unfold DTransitionFunction.contains_state
            rw [hrw]
            rfl
          have hcsj : d.transition_function.contains_state j = false := by
            unfold DTransitionFunction.contains_state
            rw [hrw]
            rfl
          simp [DFA.runFrom, hcsi, hcsj]
        · obtain ⟨c0, hc0⟩ := List.exists_mem_of_ne_nil d.symbol_table.chars hnil
          obtain ⟨ti, hti⟩ := Option.isSome_iff_exists.1 (ht i hi c0 hc0)
          obtain ⟨tj, htj⟩ := Option.isSome_iff_exists.1 (ht j hj c0 hc0)
          have hcsi := DTransitionFunction.contains_state_of_lookup hti
          have hcsj := DTransitionFunction.contains_state_of_lookup htj
          have hvi : d.transition_function.is_valid_transition i (Symbol.ch c) = false := by
            simp [DTransitionFunction.is_valid_transition, hnone_i]
          have hvj : d.transition_function.is_valid_transition j (Symbol.ch c) = false := by
            simp [DTransitionFunction.is_valid_transition, hnone_j]
          simp [DFA.runFrom, hcsi, hcsj, hvi, hvj]

/-- Soundness of the marking: every marked pair has a distinguishing word,
on a clean total machine. -/
theorem DFA.marked_dist (d : DFA) (hc : d.clean) (ht : d.totalAll) :
    ∀ q ∈ d.minimization_marked, ∃ w, d.runFrom q.1 w ≠ d.runFrom q.2 w := by
  obtain ⟨hb, hst, hn, he, hrows, hkeys, hfin⟩ := hc
  have hinit : ∀ q ∈ d.mark_init, ∃ w, d.runFrom q.1 w ≠ d.runFrom q.2 w := by
    rw [d.mark_init_eq hb]
    refine foldl_invariant
      (fun m : List (Nat × Nat) => ∀ q ∈ m, ∃ w, d.runFrom q.1 w ≠ d.runFrom q.2 w)
      d.initStep _ [] (by simp) ?_
    intro m p _ hm q hq
    unfold DFA.initStep at hq
    by_cases hcond : ((d.final_states.contains p.1 && !(d.final_states.contains p.2))
        || (!(d.final_states.contains p.1) && d.final_states.contains p.2)) = true
    · rw [if_pos hcond] at hq
      rcases DFA.pinsert_subset hq with rfl | hq'
      · refine ⟨[], ?_⟩
        simp only [DFA.runFrom]
        intro heq
        have hfe : d.final_states.contains q.1 = d.final_states.contains q.2 := by
          simpa using heq
        cases h1 : d.final_states.contains q.1 <;>
          cases h2 : d.final_states.contains q.2 <;> simp_all
      · exact hm q hq'
    · rw [if_neg hcond] at hq
      exact hm q hq
  have hsweep : ∀ m0, (∀ q ∈ m0, ∃ w, d.runFrom q.1 w ≠ d.runFrom q.2 w) →
      ∀ q ∈ (d.mark_sweep m0).1, ∃ w, d.runFrom q.1 w ≠ d.runFrom q.2 w := by
    intro m0 hm0
    rw [d.mark_sweep_eq hb m0]
    have key : (fun acc : List (Nat × Nat) × Bool =>
        ∀ q ∈ acc.1, ∃ w, d.runFrom q.1 w ≠ d.runFrom q.2 w)
        ((DFA.statePairs 0 d.end_state_num).foldl d.sweepOuter (m0, false)) := by
      refine foldl_invariant (fun acc : List (Nat × Nat) × Bool =>
          ∀ q ∈ acc.1, ∃ w, d.runFrom q.1 w ≠ d.runFrom q.2 w)
        d.sweepOuter _ (m0, false) hm0 ?_
      intro b p hp hPb
      unfold DFA.sweepOuter
      by_cases hcb : b.1.contains p = true
      · rw [if_pos hcb]; exact hPb
      · rw [if_neg hcb]
        refine foldl_invariant (fun acc : List (Nat × Nat) × Bool =>
            ∀ q ∈ acc.1, ∃ w, d.runFrom q.1 w ≠ d.runFrom q.2 w)
          (d.sweepInner p) _ b hPb ?_
        intro b2 c hcmem hPb2
        unfold DFA.sweepInner
        by_cases hcond : (b2.1.contains (d.succPair p c) && !(b2.1.contains p)) = true
        · rw [if_pos hcond]
          intro q hq
          rcases List.mem_cons.1 hq with rfl | hq'
          · -- the newly marked pair is distinguished through its successors
            have hsm : d.succPair q c ∈ b2.1 := by
              rw [Bool.and_eq_true] at hcond
              exact pair_contains_iff.1 hcond.1
            obtain ⟨w, hw⟩ := hPb2 (d.succPair q c) hsm
            have hq1 : q.1 < d.num_states := by
              have := (mem_statePairs 0 d.end_state_num q.1 q.2).1 ?memq
              · omega
              case memq => simpa using hp
            have hq2 : q.2 < d.num_states := by
              have := (mem_statePairs 0 d.end_state_num q.1 q.2).1 (by simpa using hp)
              omega
            obtain ⟨t1, ht1⟩ := Option.isSome_iff_exists.1 (ht q.1 hq1 c hcmem)
            obtain ⟨t2, ht2⟩ := Option.isSome_iff_exists.1 (ht q.2 hq2 c hcmem)
            have hspq : d.succPair q c = (min t1 t2, max t1 t2) := by
              unfold DFA.succPair
              rw [ht1, ht2]
              rfl
            refine ⟨c :: w, ?_⟩
            rw [d.runFrom_cons_of_lookup ht1 w, d.runFrom_cons_of_lookup ht2 w]
            rw [hspq] at hw
            rcases Nat.le_total t1 t2 with hle | hle
            · have h1 : min t1 t2 = t1 := by omega
              have h2 : max t1 t2 = t2 := by omega
              rw [h1, h2] at hw
              exact hw
            · have h1 : min t1 t2 = t2 := by omega
              have h2 : max t1 t2 = t1 := by omega
              rw [h1, h2] at hw
              exact fun h => hw h.symm
          · exact hPb2 q hq'
        · rw [if_neg hcond]; exact hPb2
    exact key
  have hloop : ∀ fuel m, (∀ q ∈ m, ∃ w, d.runFrom q.1 w ≠ d.runFrom q.2 w) →
      ∀ q ∈ d.mark_loop fuel m, ∃ w, d.runFrom q.1 w ≠ d.runFrom q.2 w := by
    intro fuel
    induction fuel with
    | zero => intro m hm q hq; exact hm q hq
    | succ fuel ih =>
        intro m hm
        cases hr : (d.mark_sweep m).2 with
        | false =>
            have hL : d.mark_loop (fuel + 1) m = m := by simp [DFA.mark_loop, hr]
            rw [hL]
            exact hm
        | true =>
            have hL : d.mark_loop (fuel + 1) m = d.mark_loop fuel (d.mark_sweep m).1 := by
              simp [DFA.mark_loop, hr]
            rw [hL]
            exact ih (d.mark_sweep m).1 (hsweep m hm)
  exact hloop (d.num_states * d.num_states + 1) d.mark_init hinit

/-- Splitting a list at its first match. -/
theorem find?_split {α : Type} (p : α → Bool) :
    ∀ (l : List α) (y : α), l.find? p = some y →
      ∃ l1 l2, l = l1 ++ y :: l2 ∧ p y = true ∧ ∀ z ∈ l1, p z = false := by
  intro l
  induction l with
  | nil => intro y h; simp at h
  | cons a rest ih =>
      intro y h
      cases hpa : p a with
      | true =>
          rw [List.find?_cons_of_pos _ hpa] at h
          have hay : a = y := by simpa using h
          subst hay
          exact ⟨[], rest, rfl, hpa, by simp⟩
      | false =>
          rw [List.find?_cons_of_neg _ (by rw [hpa]; simp)] at h
          obtain ⟨l1, l2, heq, hy, hall⟩ := ih y h
          refine ⟨a :: l1, l2, by rw [heq]; rfl, hy, ?_⟩
          intro z hz
          rcases List.mem_cons.1 hz with rfl | hz'
          · exact hpa
          · exact hall z hz'

/-- The first match in `range n` is the least match. -/
theorem range_find?_min {p : Nat → Bool} {n y : Nat}
    (h : (List.range n).find? p = some y) :
    p y = true ∧ y < n ∧ ∀ z < y, p z = false := by
  obtain ⟨l1, l2, heq, hy, hall⟩ := find?_split p (List.range n) y h
  have hymem : y ∈ List.range n := by rw [heq]; simp
  have hyn : y < n := List.mem_range.1 hymem
  have hylen : y = l1.length := by
    have h1 : (List.range n)[l1.length]? = some y := by
      rw [heq, List.getElem?_append_right (le_refl l1.length)]
      simp
    have hlt : l1.length < n := by
      by_contra hge
      rw [List.getElem?_eq_none (by simpa [Nat.le] using Nat.le_of_not_lt hge)] at h1
      · simp at h1
    rw [List.getElem?_range hlt] at h1
    simpa using h1.symm
  have hl1 : l1 = List.range y := by
    have h2 : (List.range n).take l1.length = l1 := by
      rw [heq]
      exact List.take_left l1 (y :: l2)
    rw [List.take_range] at h2
    rw [← h2, hylen]
    have : min l1.length n = l1.length := by omega
    rw [this]
  refine ⟨hy, hyn, ?_⟩
  intro z hz
  exact hall z (by rw [hl1]; exact List.mem_range.2 hz)

/-- Pointwise-equal predicates search identically. -/
theorem find?_congr_list {α : Type} (p q : α → Bool) :
    ∀ l : List α, (∀ x ∈ l, p x = q x) → l.find? p = l.find? q := by
  intro l
  induction l with
  | nil => intro _; rfl
  | cons a rest ih =>
      intro h
      have ha := h a (List.mem_cons_self a rest)
      cases hq : q a with
      | true =>
          rw [List.find?_cons_of_pos _ (by rw [ha, hq]),
            List.find?_cons_of_pos _ hq]
      | false =>
          rw [List.find?_cons_of_neg _ (by rw [ha, hq]; simp),
            List.find?_cons_of_neg _ (by rw [hq]; simp)]
          exact ih (fun x hx => h x (List.mem_cons_of_mem a hx))

/-- The class minimum is unmarked with its argument. -/
theorem classMin_unmarked (M : List (Nat × Nat)) (n x : Nat) :
    pairUnmarked M (classMin M n x) x = true := by
  unfold classMin
  cases hf : (List.range n).find? (fun y => pairUnmarked M y x) with
  | none => simpa using pairUnmarked_refl M x
  | some y =>
      have := List.find?_some hf
      simpa using this

/-- The class minimum never exceeds an in-range argument. -/
theorem classMin_le (M : List (Nat × Nat)) {n x : Nat} (hx : x < n) :
    classMin M n x ≤ x := by
  unfold classMin
  cases hf : (List.range n).find? (fun y => pairUnmarked M y x) with
  | none =>
      exfalso
      have := List.find?_eq_none.1 hf x (List.mem_range.2 hx)
      simp [pairUnmarked_refl] at this
  | some y =>
      simp only [Option.getD_some]
      obtain ⟨-, -, hmin⟩ := range_find?_min hf
      by_contra hlt
      have := hmin x (by omega)
      simp [pairUnmarked_refl] at this

/-- On a clean total machine unmarkedness at the fixed point coincides with
run-equivalence, for in-range states. -/
theorem DFA.unmarked_iff_run_eq (d : DFA) (hc : d.clean) (ht : d.totalAll)
    {i j : Nat} (hi : i < d.num_states) (hj : j < d.num_states) :
    pairUnmarked d.minimization_marked i j = true ↔
      ∀ w, d.runFrom i w = d.runFrom j w := by
  constructor
  · intro hum w
    exact d.unmarked_runFrom_eq hc ht w i j hi hj hum
  · intro hrw
    by_cases hij : i = j
    · subst hij; exact pairUnmarked_refl _ _
    · refine pairUnmarked_iff.2 (Or.inr ?_)
      intro hmem
      obtain ⟨w, hw⟩ := d.marked_dist hc ht (min i j, max i j) hmem
      rcases Nat.le_total i j with hle | hle
      · have h1 : min i j = i := by omega
        have h2 : max i j = j := by omega
        rw [h1, h2] at hw
        exact hw (hrw w)
      · have h1 : min i j = j := by omega
        have h2 : max i j = i := by omega
        rw [h1, h2] at hw
        exact hw (hrw w).symm

/-- Run-equivalent states share their class minimum. -/
theorem DFA.classMin_congr (d : DFA) (hc : d.clean) (ht : d.totalAll)
    {i j : Nat} (hi : i < d.num_states) (hj : j < d.num_states)
    (hij : ∀ w, d.runFrom i w = d.runFrom j w) :
    classMin d.minimization_marked d.num_states i
      = classMin d.minimization_marked d.num_states j := by
  have hcong : (List.range d.num_states).find?
        (fun y => pairUnmarked d.minimization_marked y i)
      = (List.range d.num_states).find?
        (fun y => pairUnmarked d.minimization_marked y j) := by
    refine find?_congr_list _ _ _ ?_
    intro y hy
    have hyn : y < d.num_states := List.mem_range.1 hy
    refine Bool.coe_iff_coe.mp ?_
    rw [d.unmarked_iff_run_eq hc ht hyn hi, d.unmarked_iff_run_eq hc ht hyn hj]
    constructor
    · intro h w; exact (h w).trans (hij w)
    · intro h w; exact (h w).trans (hij w).symm
  unfold classMin
  rw [hcong]
  cases hf : (List.range d.num_states).find?
      (fun y => pairUnmarked d.minimization_marked y j) with
  | none =>
      exfalso
      have := List.find?_eq_none.1 hf j (List.mem_range.2 hj)
      simp [pairUnmarked_refl] at this
  | some y => rfl

/-- The class minimum is idempotent. -/
theorem DFA.classMin_idem (d : DFA) (hc : d.clean) (ht : d.totalAll)
    {x : Nat} (hx : x < d.num_states) :
    classMin d.minimization_marked d.num_states
        (classMin d.minimization_marked d.num_states x)
      = classMin d.minimization_marked d.num_states x := by
  have hm : classMin d.minimization_marked d.num_states x < d.num_states :=
    lt_of_le_of_lt (classMin_le d.minimization_marked hx) hx
  exact d.classMin_congr hc ht hm hx
    ((d.unmarked_iff_run_eq hc ht hm hx).1 (classMin_unmarked _ _ _))

/-- Finding a self-parent returns it unchanged. -/
theorem DSU.find_aux_root {p : Nat → Nat} {x : Nat} (h : p x = x) (fuel : Nat) :
    DSU.find_aux (fuel + 1) p x = (x, p) := by
  rw [DSU.find_aux, if_pos h]

/-- Finding along a two-step chain compresses only the argument. -/
theorem DSU.find_aux_chain2 {p : Nat → Nat} {x m : Nat} (h1 : p x = m)
    (hm : m < x) (h3 : p m = m) :
    DSU.find_aux (x + 1) p x = (m, fun y => if y = x then m else p y) := by
  obtain ⟨k, rfl⟩ : ∃ k, x = k + 1 := ⟨x - 1, by omega⟩
  rw [DSU.find_aux, if_neg (by rw [h1]; omega), h1, DSU.find_aux_root h3 k]

/-- `find_representative` at a root. -/
theorem DSU.find_rep_root {d : DSU} {x : Nat} (h : d.parent x = x) :
    d.find_representative x = (x, d) := by
  unfold DSU.find_representative
  rw [DSU.find_aux_root h x]

/-- `find_representative` along a two-step chain. -/
theorem DSU.find_rep_chain2 {d : DSU} {x m : Nat} (h1 : d.parent x = m)
    (hm : m < x) (h3 : d.parent m = m) :
    d.find_representative x
      = (m, ⟨d.n, fun y => if y = x then m else d.parent y⟩) := by
  unfold DSU.find_representative
  rw [DSU.find_aux_chain2 h1 hm h3]

/-- Union of two distinct roots: the larger one is re-parented to the
smaller. -/
theorem DSU.union_roots_lt {d : DSU} {u v : Nat} (hu : d.parent u = u)
    (hv : d.parent v = v) (huv : u < v) :
    d.union u v = ⟨d.n, fun y => if y = v then u else d.parent y⟩ := by
  unfold DSU.union
  rw [DSU.find_rep_root hu]
  simp only
  rw [DSU.find_rep_root hv]
  simp only
  rw [if_neg (by omega), if_pos huv]

/-- Union of two elements already hanging under the same root is a no-op up
to rewriting their parents to the values they already have. -/
theorem DSU.union_same_root {d : DSU} {u v m : Nat}
    (hu : d.parent u = m) (hum : m < u) (hv : d.parent v = m) (hvm : m < v)
    (hm : d.parent m = m) (huv : u ≠ v) :
    d.union u v
      = ⟨d.n, fun y => if y = v then m else if y = u then m else d.parent y⟩ := by
  unfold DSU.union
  rw [DSU.find_rep_chain2 hu hum hm]
  simp only
  have hp1v : (⟨d.n, fun y => if y = u then m else d.parent y⟩ : DSU).parent v = m := by
    show (if v = u then m else d.parent v) = m
    rw [if_neg (fun h => huv h.symm), hv]
  have hp1m : (⟨d.n, fun y => if y = u then m else d.parent y⟩ : DSU).parent m = m := by
    show (if m = u then m else d.parent m) = m
    rw [if_neg (by omega), hm]
  rw [DSU.find_rep_chain2 hp1v hvm hp1m]
  simp

/-- One pair step of the union loop preserves the position-indexed parent
description.  `mp` is the class-minimum map of an equivalence: it is
monotone, idempotent, relates unmarked states, and is constant on unmarked
pairs. -/
theorem dsuStep_inv (M : List (Nat × Nat)) (n : Nat) (mp : Nat → Nat)
    (hunm : ∀ x, x < n → pairUnmarked M (mp x) x = true)
    (hcongr : ∀ i j, i < n → j < n → pairUnmarked M i j = true → mp i = mp j)
    (hle : ∀ x, x < n → mp x ≤ x)
    (hidem : ∀ x, x < n → mp (mp x) = mp x)
    {i j : Nat} (hij : i < j) (hjn : j < n) {dsu : DSU}
    (hinv : dsuInv mp n i j dsu) :
    dsuInv mp n i (j + 1) (dsuStep M dsu (i, j)) := by
  obtain ⟨hn, hpar⟩ := hinv
  have hin : i < n := lt_trans hij hjn
  show dsuInv mp n i (j + 1)
    (if M.contains (i, j) = true then dsu else dsu.union i j)
  by_cases hmk : M.contains (i, j) = true
  · rw [if_pos hmk]
    have hmpj_ne : mp j ≠ i := by
      intro heq
      have hu := hunm j hjn
      rw [heq] at hu
      rcases pairUnmarked_iff.1 hu with h | h
      · omega
      · have h1 : min i j = i := by omega
        have h2 : max i j = j := by omega
        rw [h1, h2] at h
        exact h (pair_contains_iff.1 hmk)
    refine ⟨hn, fun x => ?_⟩
    rw [hpar x]
    by_cases hxj : x = j
    · subst hxj
      refine if_congr ?_ rfl rfl
      omega
    · refine if_congr ?_ rfl rfl
      omega
  · rw [if_neg hmk]
    have hEij : pairUnmarked M i j = true := by
      refine pairUnmarked_iff.2 (Or.inr ?_)
      have h1 : min i j = i := by omega
      have h2 : max i j = j := by omega
      rw [h1, h2]
      intro hmem
      exact hmk (pair_contains_iff.2 hmem)
    have hmpij : mp i = mp j := hcongr i j hin hjn hEij
    have hmle : mp i ≤ i := hle i hin
    have hmm : mp (mp i) = mp i := hidem i hin
    have hpm : dsu.parent (mp i) = mp i := by
      rw [hpar (mp i), if_neg]
      intro hcond
      rw [hmm] at hcond
      exact absurd hcond.2.1 (lt_irrefl _)
    have hpi : dsu.parent i = if mp i < i then mp i else i := by
      by_cases hmi : mp i < i
      · rw [hpar i, if_pos ⟨hin, hmi, Or.inl hmi⟩, if_pos hmi]
      · rw [hpar i, if_neg (fun hcond => hmi hcond.2.1), if_neg hmi]
    have hparj := hpar j
    rw [← hmpij] at hparj
    have hpj : dsu.parent j = if mp i < i then mp i else j := by
      by_cases hmi : mp i < i
      · rw [hparj, if_pos ⟨hjn, by omega, Or.inl hmi⟩, if_pos hmi]
      · rw [hparj, if_neg ?_, if_neg hmi]
        intro hcond
        rcases hcond.2.2 with h | h
        · exact hmi h
        · omega
    by_cases hmi : mp i < i
    · -- i and j already hang under the common class minimum: a no-op union
      have hpi' : dsu.parent i = mp i := by rw [hpi, if_pos hmi]
      have hpj' : dsu.parent j = mp i := by rw [hpj, if_pos hmi]
      have huni := DSU.union_same_root hpi' hmi hpj' (by omega) hpm (by omega)
      rw [huni]
      refine ⟨hn, fun x => ?_⟩
      show (if x = j then mp i else if x = i then mp i else dsu.parent x)
        = if x < n ∧ mp x < x ∧ (mp x < i ∨ (mp x = i ∧ x < j + 1)) then mp x else x
      by_cases hxj : x = j
      · subst hxj
        rw [if_pos rfl, ← hmpij, if_pos ⟨hjn, by omega, Or.inl hmi⟩]
      · rw [if_neg hxj]
        by_cases hxi : x = i
        · subst hxi
          rw [if_pos rfl, if_pos ⟨hin, hmi, Or.inl hmi⟩]
        · rw [if_neg hxi, hpar x]
          refine if_congr ?_ rfl rfl
          omega
    · -- i is its own class minimum: union of two roots attaches j under i
      have hpi' : dsu.parent i = i := by rw [hpi, if_neg hmi]
      have hpj' : dsu.parent j = j := by rw [hpj, if_neg hmi]
      have huni := DSU.union_roots_lt hpi' hpj' hij
      rw [huni]
      refine ⟨hn, fun x => ?_⟩
      show (if x = j then i else dsu.parent x)
        = if x < n ∧ mp x < x ∧ (mp x < i ∨ (mp x = i ∧ x < j + 1)) then mp x else x
      by_cases hxj : x = j
      · subst hxj
        rw [if_pos rfl, ← hmpij]
        have hmi' : mp i = i := by omega
        rw [hmi', if_pos ⟨hjn, hij, Or.inr ⟨rfl, by omega⟩⟩]
      · rw [if_neg hxj, hpar x]
        refine if_congr ?_ rfl rfl
        omega

/-- The union loop's inner (second-coordinate) pass. -/
theorem dsu_fold_inner (M : List (Nat × Nat)) (n : Nat) (mp : Nat → Nat)
    (hunm : ∀ x, x < n → pairUnmarked M (mp x) x = true)
    (hcongr : ∀ i j, i < n → j < n → pairUnmarked M i j = true → mp i = mp j)
    (hle : ∀ x, x < n → mp x ≤ x)
    (hidem : ∀ x, x < n → mp (mp x) = mp x)
    (i : Nat) :
    ∀ (len j0 : Nat) (dsu : DSU), i < j0 → j0 + len ≤ n →
      dsuInv mp n i j0 dsu →
      dsuInv mp n i (j0 + len)
        ((List.range' j0 len).foldl (fun acc j => dsuStep M acc (i, j)) dsu) := by
  intro len
  induction len with
  | zero => intro j0 dsu _ _ hinv; simpa using hinv
  | succ len ih =>
      intro j0 dsu hij0 hbound hinv
      rw [List.range'_succ, List.foldl_cons]
      have hstep := dsuStep_inv M n mp hunm hcongr hle hidem hij0 (by omega) hinv
      have hrec := ih (j0 + 1) (dsuStep M dsu (i, j0)) (by omega) (by omega) hstep
      have harith : j0 + (len + 1) = (j0 + 1) + len := by omega
      rw [harith]
      exact hrec

/-- Moving the invariant from the end of one first-coordinate pass to the
start of the next. -/
theorem dsu_inv_shift (mp : Nat → Nat) (n i : Nat) {dsu : DSU}
    (h : dsuInv mp n i n dsu) : dsuInv mp n (i + 1) (i + 2) dsu := by
  refine ⟨h.1, fun x => ?_⟩
  rw [h.2 x]
  refine if_congr ?_ rfl rfl
  omega

/-- The union loop's outer (first-coordinate) pass. -/
theorem dsu_fold_outer (M : List (Nat × Nat)) (n e : Nat) (mp : Nat → Nat)
    (hunm : ∀ x, x < n → pairUnmarked M (mp x) x = true)
    (hcongr : ∀ i j, i < n → j < n → pairUnmarked M i j = true → mp i = mp j)
    (hle : ∀ x, x < n → mp x ≤ x)
    (hidem : ∀ x, x < n → mp (mp x) = mp x)
    (hen : e + 1 = n) :
    ∀ (len i0 : Nat) (dsu : DSU), i0 + len ≤ e + 1 →
      dsuInv mp n i0 (i0 + 1) dsu →
      dsuInv mp n (i0 + len) (i0 + len + 1)
        ((List.range' i0 len).foldl
          (fun acc i =>
            ((List.range' (i + 1) (e - i)).map (fun j => (i, j))).foldl
              (dsuStep M) acc)
          dsu) := by
  intro len
  induction len with
  | zero => intro i0 dsu _ hinv; simpa using hinv
  | succ len ih =>
      intro i0 dsu hbound hinv
      rw [List.range'_succ, List.foldl_cons]
      have hmap : ((List.range' (i0 + 1) (e - i0)).map (fun j => (i0, j))).foldl
          (dsuStep M) dsu
          = (List.range' (i0 + 1) (e - i0)).foldl
              (fun acc j => dsuStep M acc (i0, j)) dsu :=
        List.foldl_map _ _ _ _
      rw [hmap]
      have hinner := dsu_fold_inner M n mp hunm hcongr hle hidem i0 (e - i0)
        (i0 + 1) dsu (by omega) (by omega) hinv
      have harith : (i0 + 1) + (e - i0) = n := by omega
      rw [harith] at hinner
      have hshift := dsu_inv_shift mp n i0 hinner
      have hrec := ih (i0 + 1) _ (by omega) hshift
      have harith2 : i0 + (len + 1) = (i0 + 1) + len := by omega
      rw [harith2]
      exact hrec

/-- The stored parent vector of the minimization DSU: in-range states point
at their class minimum, out-of-range elements are untouched. -/
theorem DFA.minimization_dsu_parent (d : DFA) (hc : d.clean) (ht : d.totalAll) :
    d.minimization_dsu.n = d.num_states ∧
    (∀ x, d.num_states ≤ x → d.minimization_dsu.parent x = x) ∧
    (∀ x, x < d.num_states →
      d.minimization_dsu.parent x
        = classMin d.minimization_marked d.num_states x) := by
  have hc' := hc
  obtain ⟨hb, hst, hn, he, hrows, hkeys, hfin⟩ := hc'
  have hle : ∀ x, x < d.num_states →
      classMin d.minimization_marked d.num_states x ≤ x :=
    fun x hx => classMin_le d.minimization_marked hx
  have hidem : ∀ x, x < d.num_states →
      classMin d.minimization_marked d.num_states
        (classMin d.minimization_marked d.num_states x)
      = classMin d.minimization_marked d.num_states x :=
    fun x hx => d.classMin_idem hc ht hx
  have hunm : ∀ x, x < d.num_states →
      pairUnmarked d.minimization_marked
        (classMin d.minimization_marked d.num_states x) x = true :=
    fun x _ => classMin_unmarked _ _ _
  have hcongr : ∀ i j, i < d.num_states → j < d.num_states →
      pairUnmarked d.minimization_marked i j = true →
      classMin d.minimization_marked d.num_states i
        = classMin d.minimization_marked d.num_states j :=
    fun i j hi hj hij =>
      d.classMin_congr hc ht hi hj ((d.unmarked_iff_run_eq hc ht hi hj).1 hij)
  have hinit : dsuInv (classMin d.minimization_marked d.num_states)
      d.num_states 0 1 (DSU.new d.num_states) := by
    refine ⟨rfl, fun x => ?_⟩
    rw [if_neg ?_]
    · rfl
    · intro hcond
      omega
  have hmain := dsu_fold_outer d.minimization_marked d.num_states
    d.end_state_num (classMin d.minimization_marked d.num_states)
    hunm hcongr hle hidem (by omega) (d.end_state_num + 1) 0
    (DSU.new d.num_states) (by omega) hinit
  have hfold : d.minimization_dsu
      = (List.range' 0 (d.end_state_num + 1)).foldl
          (fun acc i =>
            ((List.range' (i + 1) (d.end_state_num - i)).map (fun j => (i, j))).foldl
              (dsuStep d.minimization_marked) acc)
          (DSU.new d.num_states) := by
    rw [d.minimization_dsu_eq hb]
    unfold DFA.statePairs
    rw [foldl_flatMap]
    rfl
  obtain ⟨hN, hP⟩ := hmain
  rw [hfold]
  refine ⟨hN, ?_, ?_⟩
  · intro x hx
    rw [hP x, if_neg (by omega)]
  · intro x hx
    have hlex := hle x hx
    rw [hP x]
    by_cases hmx : classMin d.minimization_marked d.num_states x < x
    · rw [if_pos ⟨hx, hmx, Or.inl (by omega)⟩]
    · rw [if_neg (fun hcond => hmx hcond.2.1)]
      omega

/-- Unmarked in-range states agree on finality. -/
theorem DFA.unmarked_finals_eq (d : DFA) (hc : d.clean) (ht : d.totalAll)
    {p q : Nat} (hp : p < d.num_states) (hq : q < d.num_states)
    (hum : pairUnmarked d.minimization_marked p q = true) :
    d.final_states.contains p = d.final_states.contains q := by
  have h := d.unmarked_runFrom_eq hc ht [] p q hp hq hum
  simp only [DFA.runFrom] at h
  simpa using h

/-- The keys kept by the quotient's representative filter form a sublist of
the original keys. -/
theorem filterMap_keep_keys_sublist (rep : Nat → Nat) :
    ∀ rows : List (Nat × Char × Nat),
      ((rows.filterMap (fun r =>
          if rep r.1 = r.1 then some (r.1, r.2.1, rep r.2.2) else none)).map
        (fun r => (r.1, r.2.1))).Sublist (rows.map (fun r => (r.1, r.2.1))) := by
  intro rows
  induction rows with
  | nil => simp
  | cons r rest ih =>
      rw [List.filterMap_cons]
      by_cases h : rep r.1 = r.1
      · rw [if_pos h]
        simp only [List.map_cons]
        exact List.Sublist.cons₂ _ ih
      · rw [if_neg h]
        simp only [List.map_cons]
        exact List.Sublist.cons _ ih

/-- The fold that keeps only representative rows (retargeted through the
representative map) produces exactly the filtered row list. -/
theorem foldl_keep_rows (rep : Nat → Nat) (rows : List (Nat × Char × Nat))
    (hnd : (rows.map (fun r => (r.1, r.2.1))).Nodup) :
    (rows.foldl (fun f r =>
        if rep r.1 == r.1 then f.addI r.1 (Symbol.ch r.2.1) (rep r.2.2) else f)
      DTransitionFunction.new).rows
    = rows.filterMap (fun r =>
        if rep r.1 = r.1 then some (r.1, r.2.1, rep r.2.2) else none) := by
  have hfn : (fun (f : DTransitionFunction) (r : Nat × Char × Nat) =>
      if rep r.1 == r.1 then f.addI r.1 (Symbol.ch r.2.1) (rep r.2.2) else f)
      = (fun (f : DTransitionFunction) (a : Nat × Char × Nat) =>
        match (if rep a.1 = a.1 then some (a.1, a.2.1, rep a.2.2) else none) with
        | some r => f.addI r.1 (Symbol.ch r.2.1) r.2.2
        | none => f) := by
    funext f r
    by_cases h : rep r.1 = r.1
    · simp [h]
    · simp [h]
  rw [hfn]
  have hsub := filterMap_keep_keys_sublist rep rows
  have := DTransitionFunction.foldl_addI_rows
    (fun (a : Nat × Char × Nat) =>
      if rep a.1 = a.1 then some (a.1, a.2.1, rep a.2.2) else none)
    rows DTransitionFunction.new
    (by
      simp only [DTransitionFunction.new, DTransitionFunction.keys]
      simpa using hnd.sublist hsub)
  simpa [DTransitionFunction.new] using this

/-- Quotient simulation: a machine whose rows are the representative rows of
a clean total machine (retargeted through the class-minimum map) and whose
final states are the mapped final states runs exactly like the original,
from corresponding states. -/
theorem DFA.quotient_sim (d : DFA) (hc : d.clean) (ht : d.totalAll)
    (Q : DFA) (rep : Nat → Nat)
    (hrep : ∀ s, s < d.num_states →
      rep s = classMin d.minimization_marked d.num_states s)
    (hQtf : Q.transition_function.rows = d.transition_function.rows.filterMap
      (fun r => if rep r.1 = r.1 then some (r.1, r.2.1, rep r.2.2) else none))
    (hQfin : Q.final_states = d.final_states.map rep) :
    ∀ w u, u < d.num_states → Q.runFrom (rep u) w = d.runFrom u w := by
  have hc' := hc
  obtain ⟨hb, hst, hn, he, hrows, hkeys, hfin⟩ := hc'
  obtain ⟨hMnd, hMsub, hMfix, hMdiff⟩ := d.minimization_marked_spec hb he hn
  have hQkeys : Q.transition_function.keys.Nodup := by
    have hsub := filterMap_keep_keys_sublist rep d.transition_function.rows
    have hkeys' : (d.transition_function.rows.map (fun r => (r.1, r.2.1))).Nodup := hkeys
    unfold DTransitionFunction.keys
    rw [hQtf]
    exact hkeys'.sublist hsub
  have hrepn : ∀ u, u < d.num_states → rep u < d.num_states := by
    intro u hu
    rw [hrep u hu]
    exact lt_of_le_of_lt (classMin_le _ hu) hu
  have hfix : ∀ u, u < d.num_states → rep (rep u) = rep u := by
    intro u hu
    rw [hrep u hu, hrep _ (lt_of_le_of_lt (classMin_le _ hu) hu)]
    exact d.classMin_idem hc ht hu
  have hcontrep : ∀ t u, t < d.num_states → u < d.num_states → rep t = rep u →
      d.final_states.contains t = d.final_states.contains u := by
    intro t u htn hun hr
    have h1 : d.final_states.contains t
        = d.final_states.contains (classMin d.minimization_marked d.num_states t) :=
      (d.unmarked_finals_eq hc ht (lt_of_le_of_lt (classMin_le _ htn) htn) htn
        (classMin_unmarked _ _ _)).symm
    have h2 : d.final_states.contains (classMin d.minimization_marked d.num_states u)
        = d.final_states.contains u :=
      d.unmarked_finals_eq hc ht (lt_of_le_of_lt (classMin_le _ hun) hun) hun
        (classMin_unmarked _ _ _)
    rw [h1, ← h2]
    rw [hrep t htn, hrep u hun] at hr
    rw [hr]
  have hlabQ : ∀ r ∈ Q.transition_function.rows, r.2.1 ∈ d.symbol_table.chars := by
    intro r hr
    rw [hQtf] at hr
    rcases List.mem_filterMap.1 hr with ⟨r0, hr0, hg⟩
    by_cases h : rep r0.1 = r0.1
    · rw [if_pos h] at hg
      have hg' : (r0.1, r0.2.1, rep r0.2.2) = r := by simpa using hg
      have hch : r.2.1 = r0.2.1 := by rw [← hg']
      rw [hch]
      exact (hrows r0 hr0).2.2
    · rw [if_neg h] at hg
      simp at hg
  intro w
  induction w with
  | nil =>
      intro u hu
      simp only [DFA.runFrom]
      rw [hQfin]
      have hcont : (d.final_states.map rep).contains (rep u)
          = d.final_states.contains u := by
        cases hdf : d.final_states.contains u with
        | true =>
            have hmem : u ∈ d.final_states := by simpa using hdf
            have : rep u ∈ d.final_states.map rep := List.mem_map.2 ⟨u, hmem, rfl⟩
            simpa using this
        | false =>
            cases hq : (d.final_states.map rep).contains (rep u) with
            | false => rfl
            | true =>
                exfalso
                have hmem : rep u ∈ d.final_states.map rep := by simpa using hq
                rcases List.mem_map.1 hmem with ⟨t, htf, hteq⟩
                have htn : t < d.num_states := hfin t htf
                have hctu := hcontrep t u htn hu hteq
                have hct : d.final_states.contains t = true := by simpa using htf
                rw [hctu, hdf] at hct
                simp at hct
      rw [hcont]
  | cons c w ih =>
      intro u hu
      have hrun : rep u < d.num_states := hrepn u hu
      by_cases hcc : c ∈ d.symbol_table.chars
      · obtain ⟨t', ht'⟩ := Option.isSome_iff_exists.1 (ht (rep u) hrun c hcc)
        obtain ⟨t, htl⟩ := Option.isSome_iff_exists.1 (ht u hu c hcc)
        have hmemQ : (rep u, c, rep t') ∈ Q.transition_function.rows := by
          rw [hQtf]
          refine List.mem_filterMap.2
            ⟨(rep u, c, t'), DTransitionFunction.lookup_eq_some_mem ht', ?_⟩
          rw [if_pos (hfix u hu)]
        have hQlk : Q.transition_function.lookup (rep u) c = some (rep t') :=
          (DTransitionFunction.lookup_eq_some_iff hQkeys).2 hmemQ
        rw [Q.runFrom_cons_of_lookup hQlk w, d.runFrom_cons_of_lookup htl w]
        have htn : t < d.num_states :=
          (hrows _ (DTransitionFunction.lookup_eq_some_mem htl)).2.1
        have ht'n : t' < d.num_states :=
          (hrows _ (DTransitionFunction.lookup_eq_some_mem ht')).2.1
        have hrt : rep t' = rep t := by
          by_cases huu : rep u = u
          · rw [huu] at ht'
            rw [ht'] at htl
            have : t' = t := by simpa using htl
            rw [this]
          · have hmu : classMin d.minimization_marked d.num_states u < u := by
              have h1 := classMin_le d.minimization_marked hu
              have h2 : rep u = classMin d.minimization_marked d.num_states u :=
                hrep u hu
              rcases lt_or_eq_of_le h1 with h | h
              · exact h
              · exact absurd (by rw [h2, h]) huu
            have hp : (classMin d.minimization_marked d.num_states u, u)
                ∈ DFA.statePairs 0 d.end_state_num := by
              rw [mem_statePairs]
              omega
            have hpM : ¬ (classMin d.minimization_marked d.num_states u, u)
                ∈ d.minimization_marked := by
              have hum := classMin_unmarked d.minimization_marked d.num_states u
              rcases pairUnmarked_iff.1 hum with h | h
              · omega
              · have h1 : min (classMin d.minimization_marked d.num_states u) u
                    = classMin d.minimization_marked d.num_states u := by omega
                have h2 : max (classMin d.minimization_marked d.num_states u) u
                    = u := by omega
                rw [h1, h2] at h
                exact h
            have hsucc := d.mark_sweep_fix_elim hb hMfix _ hp hpM c hcc
            have hsp : d.succPair (classMin d.minimization_marked d.num_states u, u) c
                = (min t' t, max t' t) := by
              unfold DFA.succPair
              have hriu : d.transition_function.lookup
                  (classMin d.minimization_marked d.num_states u) c = some t' := by
                rw [← hrep u hu]
                exact ht'
              rw [hriu, htl]
              rfl
            rw [hsp] at hsucc
            have hum : pairUnmarked d.minimization_marked t' t = true :=
              pairUnmarked_iff.2 (Or.inr hsucc)
            have hcm : classMin d.minimization_marked d.num_states t'
                = classMin d.minimization_marked d.num_states t :=
              d.classMin_congr hc ht ht'n htn
                ((d.unmarked_iff_run_eq hc ht ht'n htn).1 hum)
            rw [hrep t' ht'n, hrep t htn]
            exact hcm
        rw [hrt]
        exact ih t htn
      · have hnd : d.transition_function.lookup u c = none :=
          DTransitionFunction.lookup_none_of_label (fun r hr => (hrows r hr).2.2) hcc u
        have hnQ : Q.transition_function.lookup (rep u) c = none :=
          DTransitionFunction.lookup_none_of_label hlabQ hcc (rep u)
        by_cases hnil : d.symbol_table.chars = []
        · have hrw : d.transition_function.rows = [] :=
            DTransitionFunction.rows_nil_of_label_nil
              (by rw [← hnil]; exact fun r hr => (hrows r hr).2.2)
          have hrwQ : Q.transition_function.rows = [] := by
            rw [hQtf, hrw]
            rfl
          have hcsu : d.transition_function.contains_state u = false := by
            unfold DTransitionFunction.contains_state
            rw [hrw]
            rfl
          have hcsq : Q.transition_function.contains_state (rep u) = false := by
            unfold DTransitionFunction.contains_state
            rw [hrwQ]
            rfl
          simp [DFA.runFrom, hcsu, hcsq]
        · obtain ⟨c0, hc0⟩ := List.exists_mem_of_ne_nil d.symbol_table.chars hnil
          obtain ⟨t0, ht0⟩ := Option.isSome_iff_exists.1 (ht u hu c0 hc0)
          obtain ⟨t0', ht0'⟩ := Option.isSome_iff_exists.1 (ht (rep u) hrun c0 hc0)
          have hcsu := DTransitionFunction.contains_state_of_lookup ht0
          have hmemQ : (rep u, c0, rep t0') ∈ Q.transition_function.rows := by
            rw [hQtf]
            refine List.mem_filterMap.2
              ⟨(rep u, c0, t0'), DTransitionFunction.lookup_eq_some_mem ht0', ?_⟩
            rw [if_pos (hfix u hu)]
          have hcsq := DTransitionFunction.contains_state_of_lookup
            ((DTransitionFunction.lookup_eq_some_iff hQkeys).2 hmemQ)
          have hvu : d.transition_function.is_valid_transition u (Symbol.ch c) = false := by
            simp [DTransitionFunction.is_valid_transition, hnd]
          have hvq : Q.transition_function.is_valid_transition (rep u) (Symbol.ch c)
              = false := by
            simp [DTransitionFunction.is_valid_transition, hnQ]
          simp [DFA.runFrom, hcsu, hcsq, hvu, hvq]

set_option maxHeartbeats 1000000 in
/-- `minimized_dfa` preserves `run` on every word, for machines whose start
state is `0`, whose rows are labelled with table characters under
duplicate-free keys, and whose transition function is total over the
reachable part — exactly the normal form `cleanup` establishes and the shape
`intersection` builds. -/
theorem DFA.minimized_dfa_run (d0 : DFA)
    (H1 : d0.start_state = 0)
    (H2 : ∀ r ∈ d0.transition_function.rows, r.2.1 ∈ d0.symbol_table.chars)
    (H3 : d0.transition_function.keys.Nodup)
    (H4 : d0.total_on_reachable = true) :
    ∀ w, d0.minimized_dfa.run w = d0.run w := by
  obtain ⟨hclean, hsym, hruneq, htot⟩ := d0.cleanup_spec H1 H2 H3
  have ht : d0.cleanup.totalAll := htot H4
  have hc' := hclean
  obtain ⟨hb, hst, hn, he, hrows, hkeys, hfin⟩ := hc'
  obtain ⟨hdsun, hout, hin⟩ := d0.cleanup.minimization_dsu_parent hclean ht
  have hrep : ∀ s, s < d0.cleanup.num_states →
      (alook (d0.cleanup.minimization_dsu.state_representative_map 0) s).getD s
      = classMin d0.cleanup.minimization_marked d0.cleanup.num_states s := by
    intro s hs
    have hsn : s < d0.cleanup.minimization_dsu.n := by rw [hdsun]; exact hs
    have hal := DSU.alook_state_representative_map d0.cleanup.minimization_dsu 0 s hsn
    simp only [Nat.add_zero] at hal
    rw [hal]
    simp only [Option.getD_some]
    exact hin s hs
  have hQrows : d0.minimized_dfa.transition_function.rows
      = d0.cleanup.transition_function.rows.filterMap
          (fun r =>
            if (alook (d0.cleanup.minimization_dsu.state_representative_map 0)
                  r.1).getD r.1 = r.1 then
              some (r.1, r.2.1,
                (alook (d0.cleanup.minimization_dsu.state_representative_map 0)
                  r.2.2).getD r.2.2)
            else none) :=
    foldl_keep_rows
      (fun s => (alook (d0.cleanup.minimization_dsu.state_representative_map 0)
        s).getD s)
      d0.cleanup.transition_function.rows hkeys
  have hQfin : d0.minimized_dfa.final_states
      = d0.cleanup.final_states.map
          (fun s => (alook (d0.cleanup.minimization_dsu.state_representative_map 0)
            s).getD s) := rfl
  have hsim := d0.cleanup.quotient_sim hclean ht d0.minimized_dfa
    (fun s => (alook (d0.cleanup.minimization_dsu.state_representative_map 0)
      s).getD s)
    hrep hQrows hQfin
  intro w
  have h1 : d0.minimized_dfa.run w = d0.cleanup.run w := by
    have h0 := hsim w 0 (by omega)
    exact h0
  rw [h1, hruneq w]

/-- On a well-formed machine, reachable states stay in the state range. -/
theorem DFA.reach_bound (d : DFA) (hw : d.wf) {s : Nat} (h : d.Reach s) :
    d.begin_state_num ≤ s ∧ s ≤ d.end_state_num := by
  induction h with
  | start => exact ⟨hw.1, hw.2.1⟩
  | step hr hcc hlk ih =>
      have hmem := DTransitionFunction.lookup_eq_some_mem hlk
      have hb := hw.2.2 _ hmem
      exact ⟨hb.2.2.1, hb.2.2.2.1⟩

/-- Membership in the product's state-pair grid. -/
theorem mem_gridPairs (a b : DFA) (pa pb : Nat) :
    (pa, pb) ∈ DFA.gridPairs a b ↔
      a.begin_state_num ≤ pa ∧ pa ≤ a.end_state_num ∧
      b.begin_state_num ≤ pb ∧ pb ≤ b.end_state_num := by
  unfold DFA.gridPairs
  rw [List.mem_flatMap]
  constructor
  · rintro ⟨x, hx, hmem⟩
    rw [List.mem_range'_1] at hx
    rcases List.mem_map.1 hmem with ⟨y, hy, hxy⟩
    rw [List.mem_range'_1] at hy
    have h1 : x = pa := congrArg Prod.fst hxy
    have h2 : y = pb := congrArg Prod.snd hxy
    subst h1; subst h2
    omega
  · rintro ⟨h1, h2, h3, h4⟩
    refine ⟨pa, List.mem_range'_1.2 ⟨h1, by omega⟩,
      List.mem_map.2 ⟨pb, List.mem_range'_1.2 ⟨h3, by omega⟩, rfl⟩⟩

/-- A flat map of keyed duplicate-free blocks over a duplicate-free spine is
duplicate-free. -/
theorem nodup_flatMap_keyed {α β : Type} (l : List α) (f : α → List β)
    (key : β → α) (hl : l.Nodup) (hf : ∀ x ∈ l, (f x).Nodup)
    (hkey : ∀ x ∈ l, ∀ y ∈ f x, key y = x) :
    (l.flatMap f).Nodup := by
  induction l with
  | nil => simp
  | cons x rest ih =>
      rw [List.flatMap_cons, List.nodup_append]
      obtain ⟨hx, hrest⟩ := List.nodup_cons.1 hl
      refine ⟨hf x (List.mem_cons_self x rest),
        ih hrest (fun z hz => hf z (List.mem_cons_of_mem x hz))
          (fun z hz y hy => hkey z (List.mem_cons_of_mem x hz) y hy), ?_⟩
      intro y hy1 hy2
      rcases List.mem_flatMap.1 hy2 with ⟨z, hz, hyz⟩
      have h1 := hkey x (List.mem_cons_self x rest) y hy1
      have h2 := hkey z (List.mem_cons_of_mem x hz) y hyz
      rw [h1] at h2
      rw [← h2] at hz
      exact hx hz

/-- The grid is duplicate-free. -/
theorem gridPairs_nodup (a b : DFA) : (DFA.gridPairs a b).Nodup := by
  unfold DFA.gridPairs
  refine nodup_flatMap_keyed _ _ Prod.fst (List.nodup_range' _ _) ?_ ?_
  · intro x _
    refine List.Nodup.map ?_ (List.nodup_range' _ _)
    intro p q hpq
    exact congrArg Prod.snd hpq
  · intro x _ y hy
    rcases List.mem_map.1 hy with ⟨q, _, hq⟩
    rw [← hq]

/-- Lookup of a cons in the pair numbering. -/
theorem palook_cons (e : (Nat × Nat) × Nat) (m : List ((Nat × Nat) × Nat))
    (q : Nat × Nat) :
    palook (e :: m) q = if e.1 = q then some e.2 else palook m q := by
  by_cases h : e.1 = q
  · simp [palook, List.find?_cons, h]
  · have hb : (e.1 == q) = false := by simpa using h
    simp [palook, List.find?_cons, hb, h]

/-- Keys present in the numbered list get a number at least the base. -/
theorem pairNumberFrom_mem : ∀ (l : List (Nat × Nat)) (k : Nat) (q : Nat × Nat),
    q ∈ l → ∃ v, palook (DFA.pairNumberFrom l k) q = some v ∧ k ≤ v := by
  intro l
  induction l with
  | nil => intro k q hq; simp at hq
  | cons p rest ih =>
      intro k q hq
      rw [DFA.pairNumberFrom, palook_cons]
      by_cases hpq : p = q
      · rw [if_pos hpq]
        exact ⟨k, rfl, le_refl k⟩
      · rw [if_neg hpq]
        have hq' : q ∈ rest := by
          rcases List.mem_cons.1 hq with h | h
          · exact absurd h.symm hpq
          · exact h
        obtain ⟨v, hv, hkv⟩ := ih (k + 1) q hq'
        exact ⟨v, hv, by omega⟩

/-- A successful numbered lookup means membership, with a number at least
the base. -/
theorem pairNumberFrom_some : ∀ (l : List (Nat × Nat)) (k : Nat)
    (q : Nat × Nat) (v : Nat),
    palook (DFA.pairNumberFrom l k) q = some v → q ∈ l ∧ k ≤ v := by
  intro l
  induction l with
  | nil => intro k q v h; simp [DFA.pairNumberFrom, palook] at h
  | cons p rest ih =>
      intro k q v h
      rw [DFA.pairNumberFrom, palook_cons] at h
      by_cases hpq : p = q
      · rw [if_pos hpq] at h
        have : k = v := by simpa using h
        exact ⟨by rw [← hpq]; exact List.mem_cons_self p rest, by omega⟩
      · rw [if_neg hpq] at h
        obtain ⟨hq, hkv⟩ := ih (k + 1) q v h
        exact ⟨List.mem_cons_of_mem p hq, by omega⟩

/-- Distinct keys of a duplicate-free list get distinct numbers. -/
theorem pairNumberFrom_inj : ∀ (l : List (Nat × Nat)) (k : Nat), l.Nodup →
    ∀ (q1 q2 : Nat × Nat) (v : Nat),
      palook (DFA.pairNumberFrom l k) q1 = some v →
      palook (DFA.pairNumberFrom l k) q2 = some v → q1 = q2 := by
  intro l
  induction l with
  | nil => intro k _ q1 q2 v h1 _; simp [DFA.pairNumberFrom, palook] at h1
  | cons p rest ih =>
      intro k hnd q1 q2 v h1 h2
      obtain ⟨hp, hrest⟩ := List.nodup_cons.1 hnd
      rw [DFA.pairNumberFrom, palook_cons] at h1 h2
      by_cases hpq1 : p = q1
      · rw [if_pos hpq1] at h1
        have hv : k = v := by simpa using h1
        by_cases hpq2 : p = q2
        · rw [← hpq1, ← hpq2]
        · rw [if_neg hpq2] at h2
          obtain ⟨-, hk2⟩ := pairNumberFrom_some rest (k + 1) q2 v h2
          omega
      · rw [if_neg hpq1] at h1
        by_cases hpq2 : p = q2
        · rw [if_pos hpq2] at h2
          have hv : k = v := by simpa using h2
          obtain ⟨-, hk1⟩ := pairNumberFrom_some rest (k + 1) q1 v h1
          omega
        · rw [if_neg hpq2] at h2
          exact ih (k + 1) hrest q1 q2 v h1 h2

/-- The start pair is numbered `0`. -/
theorem plook_start (a b : DFA) :
    DFA.plook (DFA.pair_numbering a b) (a.start_state, b.start_state) = 0 := by
  unfold DFA.plook DFA.pair_numbering
  simp

/-- Value of the numbering on non-start grid pairs. -/
theorem plook_of_ne_start (a b : DFA) {q : Nat × Nat}
    (hq : q ∈ DFA.gridPairs a b) (hne : q ≠ (a.start_state, b.start_state)) :
    ∃ v, palook (DFA.pairNumberFrom
        ((DFA.gridPairs a b).filter
          (fun pr => pr ≠ (a.start_state, b.start_state))) 1) q = some v ∧
      1 ≤ v ∧ DFA.plook (DFA.pair_numbering a b) q = v := by
  have hqf : q ∈ (DFA.gridPairs a b).filter
      (fun pr => pr ≠ (a.start_state, b.start_state)) := by
    rw [List.mem_filter]
    exact ⟨hq, by simpa using hne⟩
  obtain ⟨v, hv, h1v⟩ := pairNumberFrom_mem _ 1 q hqf
  refine ⟨v, hv, h1v, ?_⟩
  have hcons : DFA.pair_numbering a b
      = ((a.start_state, b.start_state), 0) ::
          DFA.pairNumberFrom
            ((DFA.gridPairs a b).filter
              (fun pr => pr ≠ (a.start_state, b.start_state))) 1 := rfl
  have hplook : DFA.plook (DFA.pair_numbering a b) q
      = (palook (DFA.pair_numbering a b) q).getD 0 := rfl
  rw [hplook, hcons, palook_cons, if_neg (fun h => hne h.symm), hv]
  rfl

/-- The numbering is injective on the grid. -/
theorem plook_inj (a b : DFA) {q1 q2 : Nat × Nat}
    (h1 : q1 ∈ DFA.gridPairs a b) (h2 : q2 ∈ DFA.gridPairs a b)
    (heq : DFA.plook (DFA.pair_numbering a b) q1
      = DFA.plook (DFA.pair_numbering a b) q2) : q1 = q2 := by
  by_cases hs1 : q1 = (a.start_state, b.start_state)
  · by_cases hs2 : q2 = (a.start_state, b.start_state)
    · rw [hs1, hs2]
    · exfalso
      obtain ⟨v, -, h1v, hpv⟩ := plook_of_ne_start a b h2 hs2
      rw [hs1, plook_start] at heq
      omega
  · by_cases hs2 : q2 = (a.start_state, b.start_state)
    · exfalso
      obtain ⟨v, -, h1v, hpv⟩ := plook_of_ne_start a b h1 hs1
      rw [hs2, plook_start] at heq
      omega
    · obtain ⟨v1, hv1, -, hp1⟩ := plook_of_ne_start a b h1 hs1
      obtain ⟨v2, hv2, -, hp2⟩ := plook_of_ne_start a b h2 hs2
      rw [hp1, hp2] at heq
      subst heq
      exact pairNumberFrom_inj _ 1
        ((gridPairs_nodup a b).filter _) q1 q2 v1 hv1 hv2

/-- A table-equality check certifies membership both ways. -/
theorem SymbolTable.tables_equal_mem {t1 t2 : SymbolTable}
    (h : SymbolTable.tables_equal t1 t2 = true) {c : Char} :
    c ∈ t1.chars ↔ c ∈ t2.chars := by
  unfold SymbolTable.tables_equal at h
  rw [Bool.and_eq_true, List.all_eq_true, List.all_eq_true] at h
  constructor
  · intro hc; simpa using h.1 c hc
  · intro hc; simpa using h.2 c hc

/-- A missing transition never accepts. -/
theorem DFA.runFrom_cons_ne_ok (d : DFA) (u : Nat) (c : Char) (w : List Char)
    (h : d.transition_function.lookup u c = none) (bv : Bool) :
    d.runFrom u (c :: w) ≠ RunResult.ok bv := by
  rw [DFA.runFrom]
  by_cases h1 : d.transition_function.contains_state u = true
  · rw [if_neg (by simp [h1])]
    have h2 : d.transition_function.is_valid_transition u (Symbol.ch c) = false := by
      simp [DTransitionFunction.is_valid_transition, h]
    rw [if_pos (by simp [h2])]
    simp
  · rw [if_pos (by simpa using h1)]
    simp

/-- Members of a map of a filter-map are produced by unique preimages when
the key extraction is injective across successful productions. -/
theorem nodup_map_filterMap {α β γ : Type} (g : α → Option β) (key : β → γ) :
    ∀ l : List α, l.Nodup →
      (∀ x, x ∈ l → ∀ y, y ∈ l → ∀ b1 b2, g x = some b1 → g y = some b2 →
        key b1 = key b2 → x = y) →
      ((l.filterMap g).map key).Nodup := by
  intro l
  induction l with
  | nil => intro _ _; simp
  | cons x rest ih =>
      intro hnd hinj
      obtain ⟨hx, hrest⟩ := List.nodup_cons.1 hnd
      rw [List.filterMap_cons]
      cases hg : g x with
      | none =>
          exact ih hrest (fun z hz y hy b1 b2 h1 h2 hk =>
            hinj z (List.mem_cons_of_mem x hz) y (List.mem_cons_of_mem x hy)
              b1 b2 h1 h2 hk)
      | some bx =>
          rw [List.map_cons, List.nodup_cons]
          refine ⟨?_, ih hrest (fun z hz y hy b1 b2 h1 h2 hk =>
            hinj z (List.mem_cons_of_mem x hz) y (List.mem_cons_of_mem x hy)
              b1 b2 h1 h2 hk)⟩
          intro hmem
          rcases List.mem_map.1 hmem with ⟨bY, hbY, hkey⟩
          rcases List.mem_filterMap.1 hbY with ⟨y, hy, hgy⟩
          have : x = y := hinj x (List.mem_cons_self x rest)
            y (List.mem_cons_of_mem x hy) bx bY hg hgy hkey.symm
          rw [this] at hx
          exact hx hy

/-- The single-list form of the product's transition-function fold. -/
theorem prodTF_eq (a b : DFA) :
    DFA.prodTF a b
      = ((DFA.gridPairs a b).flatMap
          (fun pr => a.symbol_table.chars.map (fun c => (pr, c)))).foldl
          (fun f pc =>
            match a.transition_function.lookup pc.1.1 pc.2,
              b.transition_function.lookup pc.1.2 pc.2 with
            | some ta, some tb =>
                f.addI (DFA.plook (DFA.pair_numbering a b) pc.1) (Symbol.ch pc.2)
                  (DFA.plook (DFA.pair_numbering a b) (ta, tb))
            | _, _ => f)
          DTransitionFunction.new := by
  unfold DFA.prodTF
  rw [foldl_flatMap]
  congr 1
  funext acc pr
  rw [List.foldl_map]

/-- The members of the pair-character list feeding the product fold. -/
theorem prod_glist_nodup (a b : DFA) (hnd : a.symbol_table.chars.Nodup) :
    ((DFA.gridPairs a b).flatMap
      (fun pr => a.symbol_table.chars.map (fun c => (pr, c)))).Nodup := by
  refine nodup_flatMap_keyed _ _ Prod.fst (gridPairs_nodup a b) ?_ ?_
  · intro pr _
    refine List.Nodup.map ?_ hnd
    intro c1 c2 h
    exact congrArg Prod.snd h
  · intro pr _ y hy
    rcases List.mem_map.1 hy with ⟨c, _, hc⟩
    rw [← hc]

/-- The keys the product fold produces are pairwise distinct. -/
theorem prod_keys_nodup_aux (a b : DFA) (hnd : a.symbol_table.chars.Nodup) :
    (((((DFA.gridPairs a b).flatMap
        (fun pr => a.symbol_table.chars.map (fun c => (pr, c)))).filterMap
          (fun pc =>
            match a.transition_function.lookup pc.1.1 pc.2,
              b.transition_function.lookup pc.1.2 pc.2 with
            | some ta, some tb =>
                some (DFA.plook (DFA.pair_numbering a b) pc.1, pc.2,
                  DFA.plook (DFA.pair_numbering a b) (ta, tb))
            | _, _ => none))).map (fun r => (r.1, r.2.1))).Nodup := by
  refine nodup_map_filterMap _ _ _ (prod_glist_nodup a b hnd) ?_
  intro x hx y hy b1 b2 h1 h2 hk
  rcases List.mem_flatMap.1 hx with ⟨prx, hprx, hmx⟩
  rcases List.mem_map.1 hmx with ⟨cx, hcx, hex⟩
  rcases List.mem_flatMap.1 hy with ⟨pry, hpry, hmy⟩
  rcases List.mem_map.1 hmy with ⟨cy, hcy, hey⟩
  subst hex
  subst hey
  cases ha1 : a.transition_function.lookup prx.1 cx with
  | none => rw [ha1] at h1; cases hb1 : b.transition_function.lookup prx.2 cx <;>
      rw [hb1] at h1 <;> simp at h1
  | some ta1 =>
      cases hb1 : b.transition_function.lookup prx.2 cx with
      | none => rw [ha1, hb1] at h1; simp at h1
      | some tb1 =>
          rw [ha1, hb1] at h1
          cases ha2 : a.transition_function.lookup pry.1 cy with
          | none => rw [ha2] at h2; cases hb2 : b.transition_function.lookup pry.2 cy <;>
              rw [hb2] at h2 <;> simp at h2
          | some ta2 =>
              cases hb2 : b.transition_function.lookup pry.2 cy with
              | none => rw [ha2, hb2] at h2; simp at h2
              | some tb2 =>
                  rw [ha2, hb2] at h2
                  have hb1' : b1 = (DFA.plook (DFA.pair_numbering a b) prx, cx,
                      DFA.plook (DFA.pair_numbering a b) (ta1, tb1)) := by
                    simpa using h1.symm
                  have hb2' : b2 = (DFA.plook (DFA.pair_numbering a b) pry, cy,
                      DFA.plook (DFA.pair_numbering a b) (ta2, tb2)) := by
                    simpa using h2.symm
                  rw [hb1', hb2'] at hk
                  have hkp : DFA.plook (DFA.pair_numbering a b) prx
                      = DFA.plook (DFA.pair_numbering a b) pry :=
                    congrArg Prod.fst hk
                  have hkc : cx = cy := by
                    have := congrArg Prod.snd hk
                    simpa using this
                  have hpr : prx = pry := plook_inj a b hprx hpry hkp
                  rw [hpr, hkc]

/-- Row list of the product's transition function. -/
theorem prodTF_rows (a b : DFA) (hnd : a.symbol_table.chars.Nodup) :
    (DFA.prodTF a b).rows
      = ((DFA.gridPairs a b).flatMap
          (fun pr => a.symbol_table.chars.map (fun c => (pr, c)))).filterMap
          (fun pc =>
            match a.transition_function.lookup pc.1.1 pc.2,
              b.transition_function.lookup pc.1.2 pc.2 with
            | some ta, some tb =>
                some (DFA.plook (DFA.pair_numbering a b) pc.1, pc.2,
                  DFA.plook (DFA.pair_numbering a b) (ta, tb))
            | _, _ => none) := by
  rw [prodTF_eq]
  have hfn : (fun (f : DTransitionFunction) (pc : (Nat × Nat) × Char) =>
      match a.transition_function.lookup pc.1.1 pc.2,
        b.transition_function.lookup pc.1.2 pc.2 with
      | some ta, some tb =>
          f.addI (DFA.plook (DFA.pair_numbering a b) pc.1) (Symbol.ch pc.2)
            (DFA.plook (DFA.pair_numbering a b) (ta, tb))
      | _, _ => f)
      = (fun (f : DTransitionFunction) (pc : (Nat × Nat) × Char) =>
        match (match a.transition_function.lookup pc.1.1 pc.2,
            b.transition_function.lookup pc.1.2 pc.2 with
          | some ta, some tb =>
              some (DFA.plook (DFA.pair_numbering a b) pc.1, pc.2,
                DFA.plook (DFA.pair_numbering a b) (ta, tb))
          | _, _ => none) with
        | some r => f.addI r.1 (Symbol.ch r.2.1) r.2.2
        | none => f) := by
    funext f pc
    cases a.transition_function.lookup pc.1.1 pc.2 <;>
      cases b.transition_function.lookup pc.1.2 pc.2 <;> rfl
  rw [hfn]
  have := DTransitionFunction.foldl_addI_rows
    (fun (pc : (Nat × Nat) × Char) =>
      match a.transition_function.lookup pc.1.1 pc.2,
        b.transition_function.lookup pc.1.2 pc.2 with
      | some ta, some tb =>
          some (DFA.plook (DFA.pair_numbering a b) pc.1, pc.2,
            DFA.plook (DFA.pair_numbering a b) (ta, tb))
      | _, _ => none)
    ((DFA.gridPairs a b).flatMap
      (fun pr => a.symbol_table.chars.map (fun c => (pr, c))))
    DTransitionFunction.new
    (by
      simp only [DTransitionFunction.new, DTransitionFunction.keys]
      simpa using prod_keys_nodup_aux a b hnd)
  simpa [DTransitionFunction.new] using this

/-- The product's transition keys are duplicate-free. -/
theorem prodTF_keys_nodup (a b : DFA) (hnd : a.symbol_table.chars.Nodup) :
    (DFA.prodTF a b).keys.Nodup := by
  unfold DTransitionFunction.keys
  rw [prodTF_rows a b hnd]
  exact prod_keys_nodup_aux a b hnd

/-- Product transition on a grid pair and a character both machines step on. -/
theorem prod_lookup_some (a b : DFA) (hnd : a.symbol_table.chars.Nodup)
    {pr : Nat × Nat} (hpr : pr ∈ DFA.gridPairs a b) {c : Char}
    (hcc : c ∈ a.symbol_table.chars) {ta tb : Nat}
    (hta : a.transition_function.lookup pr.1 c = some ta)
    (htb : b.transition_function.lookup pr.2 c = some tb) :
    (DFA.prodTF a b).lookup (DFA.plook (DFA.pair_numbering a b) pr) c
      = some (DFA.plook (DFA.pair_numbering a b) (ta, tb)) := by
  rw [DTransitionFunction.lookup_eq_some_iff (prodTF_keys_nodup a b hnd)]
  rw [prodTF_rows a b hnd]
  refine List.mem_filterMap.2 ⟨(pr, c), ?_, ?_⟩
  · exact List.mem_flatMap.2 ⟨pr, hpr, List.mem_map.2 ⟨c, hcc, rfl⟩⟩
  · show (match a.transition_function.lookup pr.1 c,
        b.transition_function.lookup pr.2 c with
      | some ta, some tb =>
          some (DFA.plook (DFA.pair_numbering a b) pr, c,
            DFA.plook (DFA.pair_numbering a b) (ta, tb))
      | _, _ => none)
      = some (DFA.plook (DFA.pair_numbering a b) pr, c,
          DFA.plook (DFA.pair_numbering a b) (ta, tb))
    rw [hta, htb]

/-- Inversion of a successful product transition at a numbered grid pair. -/
theorem prod_lookup_inv (a b : DFA) (hnd : a.symbol_table.chars.Nodup)
    {pr : Nat × Nat} (hpr : pr ∈ DFA.gridPairs a b) {c : Char} {v : Nat}
    (h : (DFA.prodTF a b).lookup (DFA.plook (DFA.pair_numbering a b) pr) c
      = some v) :
    c ∈ a.symbol_table.chars ∧
    ∃ ta tb, a.transition_function.lookup pr.1 c = some ta ∧
      b.transition_function.lookup pr.2 c = some tb ∧
      v = DFA.plook (DFA.pair_numbering a b) (ta, tb) := by
  have hmem := DTransitionFunction.lookup_eq_some_mem h
  rw [prodTF_rows a b hnd] at hmem
  rcases List.mem_filterMap.1 hmem with ⟨pc, hpc, hg⟩
  rcases List.mem_flatMap.1 hpc with ⟨pr', hpr', hmap⟩
  rcases List.mem_map.1 hmap with ⟨c', hc', hpcc⟩
  subst hpcc
  cases h1 : a.transition_function.lookup pr'.1 c' with
  | none =>
      rw [h1] at hg
      cases h2 : b.transition_function.lookup pr'.2 c' <;> rw [h2] at hg <;>
        simp at hg
  | some ta' =>
      cases h2 : b.transition_function.lookup pr'.2 c' with
      | none => rw [h1, h2] at hg; simp at hg
      | some tb' =>
          rw [h1, h2] at hg
          have hrow : (DFA.plook (DFA.pair_numbering a b) pr', c',
              DFA.plook (DFA.pair_numbering a b) (ta', tb'))
              = (DFA.plook (DFA.pair_numbering a b) pr, c, v) := by
            simpa using hg
          have hkp : DFA.plook (DFA.pair_numbering a b) pr'
              = DFA.plook (DFA.pair_numbering a b) pr :=
            congrArg Prod.fst hrow
          have hkc : c' = c := by
            have := congrArg (fun r => r.2.1) hrow
            simpa using this
          have hkv : DFA.plook (DFA.pair_numbering a b) (ta', tb') = v := by
            have := congrArg (fun r => r.2.2) hrow
            simpa using this
          have hpr2 : pr' = pr := plook_inj a b hpr' hpr hkp
          subst hpr2
          subst hkc
          exact ⟨hc', ta', tb', h1, h2, hkv.symm⟩

/-- Product finals at a numbered grid pair. -/
theorem prod_finals_iff (a b : DFA) {pr : Nat × Nat}
    (hpr : pr ∈ DFA.gridPairs a b) :
    ((DFA.prodFinals a b).contains
        (DFA.plook (DFA.pair_numbering a b) pr) = true)
      ↔ (pr.1 ∈ a.final_states ∧ pr.2 ∈ b.final_states) := by
  unfold DFA.prodFinals
  constructor
  · intro h
    have hmem : DFA.plook (DFA.pair_numbering a b) pr
        ∈ ((DFA.gridPairs a b).filter
            (fun q => a.final_states.contains q.1 && b.final_states.contains q.2)).map
          (DFA.plook (DFA.pair_numbering a b)) := by
      simpa using h
    rcases List.mem_map.1 hmem with ⟨q, hq, hqe⟩
    rcases List.mem_filter.1 hq with ⟨hqg, hqf⟩
    have hqpr : q = pr := plook_inj a b hqg hpr hqe
    subst hqpr
    rw [Bool.and_eq_true] at hqf
    exact ⟨by simpa using hqf.1, by simpa using hqf.2⟩
  · rintro ⟨h1, h2⟩
    have hq : pr ∈ (DFA.gridPairs a b).filter
        (fun q => a.final_states.contains q.1 && b.final_states.contains q.2) :=
      List.mem_filter.2 ⟨hpr, by simp [h1, h2]⟩
    have hm : DFA.plook (DFA.pair_numbering a b) pr
        ∈ ((DFA.gridPairs a b).filter
            (fun q => a.final_states.contains q.1 && b.final_states.contains q.2)).map
          (DFA.plook (DFA.pair_numbering a b)) :=
      List.mem_map.2 ⟨pr, hq, rfl⟩
    simpa using hm

/-- Acceptance of the raw product from the numbered pair of two reachable
states is joint acceptance of the two machines. -/
theorem DFA.prod_run_iff (a b : DFA) (hwa : a.wf) (hwb : b.wf)
    (hnd : a.symbol_table.chars.Nodup)
    (hta : a.total_on_reachable = true) (htb : b.total_on_reachable = true)
    (htbl : SymbolTable.tables_equal a.symbol_table b.symbol_table = true) :
    ∀ (w : List Char) (pa pb : Nat), a.Reach pa → b.Reach pb →
      ((DFA.prodDFA a b).runFrom
          (DFA.plook (DFA.pair_numbering a b) (pa, pb)) w = RunResult.ok true
        ↔ (a.runFrom pa w = RunResult.ok true ∧
           b.runFrom pb w = RunResult.ok true)) := by
  intro w
  induction w with
  | nil =>
      intro pa pb hra hrb
      have hgrid : (pa, pb) ∈ DFA.gridPairs a b := by
        rw [mem_gridPairs]
        obtain ⟨h1, h2⟩ := a.reach_bound hwa hra
        obtain ⟨h3, h4⟩ := b.reach_bound hwb hrb
        exact ⟨h1, h2, h3, h4⟩
      simp only [DFA.runFrom]
      constructor
      · intro h
        have hcb : (DFA.prodFinals a b).contains
            (DFA.plook (DFA.pair_numbering a b) (pa, pb)) = true := by
          simpa using h
        obtain ⟨h1, h2⟩ := (prod_finals_iff a b hgrid).1 hcb
        constructor
        · simp [h1]
        · simp [h2]
      · rintro ⟨h1, h2⟩
        have hf1 : pa ∈ a.final_states := by simpa using h1
        have hf2 : pb ∈ b.final_states := by simpa using h2
        have hc := (prod_finals_iff a b hgrid).2 ⟨hf1, hf2⟩
        have hc' : (DFA.prodDFA a b).final_states.contains
            (DFA.plook (DFA.pair_numbering a b) (pa, pb)) = true := hc
        have hmem : DFA.plook (DFA.pair_numbering a b) (pa, pb)
            ∈ (DFA.prodDFA a b).final_states := by simpa using hc'
        simp [hmem]
  | cons c w ih =>
      intro pa pb hra hrb
      have hgrid : (pa, pb) ∈ DFA.gridPairs a b := by
        rw [mem_gridPairs]
        obtain ⟨h1, h2⟩ := a.reach_bound hwa hra
        obtain ⟨h3, h4⟩ := b.reach_bound hwb hrb
        exact ⟨h1, h2, h3, h4⟩
      by_cases hcc : c ∈ a.symbol_table.chars
      · have hccb : c ∈ b.symbol_table.chars :=
          (SymbolTable.tables_equal_mem htbl).1 hcc
        obtain ⟨ta, hta'⟩ := Option.isSome_iff_exists.1
          (a.total_on_reachable_spec hta pa hra c hcc)
        obtain ⟨tb, htb'⟩ := Option.isSome_iff_exists.1
          (b.total_on_reachable_spec htb pb hrb c hccb)
        have hplk : (DFA.prodDFA a b).transition_function.lookup
            (DFA.plook (DFA.pair_numbering a b) (pa, pb)) c
            = some (DFA.plook (DFA.pair_numbering a b) (ta, tb)) :=
          prod_lookup_some a b hnd hgrid hcc hta' htb'
        rw [(DFA.prodDFA a b).runFrom_cons_of_lookup hplk w,
          a.runFrom_cons_of_lookup hta' w, b.runFrom_cons_of_lookup htb' w]
        exact ih ta tb (DFA.Reach.step hra hcc hta') (DFA.Reach.step hrb hccb htb')
      · have hna : a.transition_function.lookup pa c = none := by
          rw [DTransitionFunction.lookup_eq_none_iff]
          intro t hmem
          exact hcc ((hwa.2.2 _ hmem).2.2.2.2)
        have hnp : (DFA.prodDFA a b).transition_function.lookup
            (DFA.plook (DFA.pair_numbering a b) (pa, pb)) c = none := by
          cases hlk : (DFA.prodDFA a b).transition_function.lookup
              (DFA.plook (DFA.pair_numbering a b) (pa, pb)) c with
          | none => rfl
          | some v =>
              exfalso
              exact hcc (prod_lookup_inv a b hnd hgrid hlk).1
        constructor
        · intro h
          exact absurd h ((DFA.prodDFA a b).runFrom_cons_ne_ok _ c w hnp true)
        · rintro ⟨h1, -⟩
          exact absurd h1 (a.runFrom_cons_ne_ok pa c w hna true)

/-- Reachable product states are numbered pairs of reachable states. -/
theorem DFA.prod_reach (a b : DFA) (hnd : a.symbol_table.chars.Nodup)
    (hwa : a.wf) (hwb : b.wf)
    (htbl : SymbolTable.tables_equal a.symbol_table b.symbol_table = true) :
    ∀ s, (DFA.prodDFA a b).Reach s →
      ∃ pa pb, a.Reach pa ∧ b.Reach pb ∧
        s = DFA.plook (DFA.pair_numbering a b) (pa, pb) := by
  intro s h
  induction h with
  | start =>
      exact ⟨a.start_state, b.start_state, DFA.Reach.start, DFA.Reach.start,
        (plook_start a b).symm⟩
  | step hr hcc hlk ih =>
      obtain ⟨pa, pb, hra, hrb, rfl⟩ := ih
      have hgrid : (pa, pb) ∈ DFA.gridPairs a b := by
        rw [mem_gridPairs]
        obtain ⟨h1, h2⟩ := a.reach_bound hwa hra
        obtain ⟨h3, h4⟩ := b.reach_bound hwb hrb
        exact ⟨h1, h2, h3, h4⟩
      obtain ⟨hc', ta, tb, hta, htb, rfl⟩ := prod_lookup_inv a b hnd hgrid hlk
      have hccb : _ ∈ b.symbol_table.chars :=
        (SymbolTable.tables_equal_mem htbl).1 hc'
      exact ⟨ta, tb, DFA.Reach.step hra hc' hta, DFA.Reach.step hrb hccb htb, rfl⟩

/-- The raw product is total over its reachable part. -/
theorem DFA.prod_total (a b : DFA) (hnd : a.symbol_table.chars.Nodup)
    (hwa : a.wf) (hwb : b.wf)
    (hta : a.total_on_reachable = true) (htb : b.total_on_reachable = true)
    (htbl : SymbolTable.tables_equal a.symbol_table b.symbol_table = true) :
    (DFA.prodDFA a b).total_on_reachable = true := by
  unfold DFA.total_on_reachable
  rw [List.all_eq_true]
  intro s hs
  rw [List.all_eq_true]
  intro c hc
  have hreach : (DFA.prodDFA a b).Reach s :=
    ((DFA.prodDFA a b).mem_reachable_states_iff s).1 hs
  obtain ⟨pa, pb, hra, hrb, rfl⟩ := DFA.prod_reach a b hnd hwa hwb htbl s hreach
  have hcc : c ∈ a.symbol_table.chars := hc
  have hccb : c ∈ b.symbol_table.chars := (SymbolTable.tables_equal_mem htbl).1 hcc
  obtain ⟨ta, hta'⟩ := Option.isSome_iff_exists.1
    (a.total_on_reachable_spec hta pa hra c hcc)
  obtain ⟨tb, htb'⟩ := Option.isSome_iff_exists.1
    (b.total_on_reachable_spec htb pb hrb c hccb)
  have hgrid : (pa, pb) ∈ DFA.gridPairs a b := by
    rw [mem_gridPairs]
    obtain ⟨h1, h2⟩ := a.reach_bound hwa hra
    obtain ⟨h3, h4⟩ := b.reach_bound hwb hrb
    exact ⟨h1, h2, h3, h4⟩
  have hplk : (DFA.prodDFA a b).transition_function.lookup
      (DFA.plook (DFA.pair_numbering a b) (pa, pb)) c
      = some (DFA.plook (DFA.pair_numbering a b) (ta, tb)) :=
    prod_lookup_some a b hnd hgrid hcc hta' htb'
  rw [hplk]
  rfl

/-- The product's rows are labelled with its table characters. -/
theorem DFA.prod_rows_labels (a b : DFA) (hnd : a.symbol_table.chars.Nodup) :
    ∀ r ∈ (DFA.prodDFA a b).transition_function.rows,
      r.2.1 ∈ (DFA.prodDFA a b).symbol_table.chars := by
  intro r hr
  have hr' : r ∈ (DFA.prodTF a b).rows := hr
  rw [prodTF_rows a b hnd] at hr'
  rcases List.mem_filterMap.1 hr' with ⟨pc, hpc, hg⟩
  rcases List.mem_flatMap.1 hpc with ⟨pr, hpr, hmap⟩
  rcases List.mem_map.1 hmap with ⟨c, hcm, hpcc⟩
  subst hpcc
  cases h1 : a.transition_function.lookup pr.1 c with
  | none =>
      rw [h1] at hg
      cases h2 : b.transition_function.lookup pr.2 c <;> rw [h2] at hg <;>
        simp at hg
  | some ta =>
      cases h2 : b.transition_function.lookup pr.2 c with
      | none => rw [h1, h2] at hg; simp at hg
      | some tb =>
          rw [h1, h2] at hg
          have hrr : (DFA.plook (DFA.pair_numbering a b) pr, c,
              DFA.plook (DFA.pair_numbering a b) (ta, tb)) = r := by
            simpa using hg
          have : r.2.1 = c := by rw [← hrr]
          rw [this]
          exact hcm

/-! ## Claims -/

/-- C2 (evaluation at the failing input): `extended_dfa` is total on
non-epsilon symbols over the states reachable from its start state and
replies `Ok(false)` on `"a"`, but `minimized_dfa` returns a DFA whose `run`
fails with `InvalidState` on `"a"` — because `cleanup` BFSes from the
hard-coded state `0` (line 313 of `dfa.rs`) instead of from `start_state`,
discarding the machine's reachable part. -/
theorem c2_minimized_dfa_not_sound_on_extended_dfa :
    extended_dfa.total_on_reachable = true ∧
    extended_dfa.run ['a'] = RunResult.ok false ∧
    extended_dfa.minimized_dfa.run ['a'] = RunResult.err DFAError.invalidState := by
  decide

/-- C3 (evaluation at the failing input): on `dfa_three` (all three states
equivalent) the minimization DSU has a single root, yet `minimized_dfa`
returns a DFA with `num_states = 3` and state set `{0, 1, 2}` — one state
per *DSU element*, not per root, because line 276 of `dfa.rs` takes
`state_representative_map.len()` (the element count) as the new state
count. -/
theorem c3_minimized_dfa_keeps_one_state_per_element :
    dfa_three.total_on_reachable = true ∧
    dfa_three.cleanup.minimization_dsu.len = 1 ∧
    dfa_three.minimized_dfa.num_states = 3 ∧
    dfa_three.minimized_dfa.states = [0, 1, 2] := by
  decide

/-- C4 (evaluation at the failing input): minimizing `dfa_three` twice gives
`num_states = 1`, while minimizing once gives `num_states = 3`, so
`minimize(minimize(D))` and `minimize(D)` differ in state count. -/
theorem c4_minimize_not_idempotent_on_state_count :
    dfa_three.total_on_reachable = true ∧
    dfa_three.minimized_dfa.num_states = 3 ∧
    dfa_three.minimized_dfa.minimized_dfa.num_states = 1 := by
  decide

/-- C5 (evaluation at the failing input): `extended_dfa`'s reachable set
from its start state is `{1, 2}`, but `cleanup` — which BFSes from the
hard-coded state `0` — keeps a single state, and the cleaned DFA errors on
`"a"` where the original answered `Ok(false)`. -/
theorem c5_cleanup_searches_from_zero_not_start :
    extended_dfa.reachable_states = [1, 2] ∧
    extended_dfa.cleanup.num_states = 1 ∧
    extended_dfa.run ['a'] = RunResult.ok false ∧
    extended_dfa.cleanup.run ['a'] = RunResult.err DFAError.invalidState := by
  decide

/-- C6 (evaluation at the failing input): `extended_dfa` rejects `"a"` with
`Ok(false)`, so its complement must accept `"a"`; instead
`complement` (which minimizes, hence cleans up from state `0`) returns a DFA
whose `run` fails with `InvalidState` on `"a"`. -/
theorem c6_complement_error_on_extended_dfa :
    extended_dfa.total_on_reachable = true ∧
    extended_dfa.run ['a'] = RunResult.ok false ∧
    extended_dfa.complement.run ['a'] = RunResult.err DFAError.invalidState := by
  decide

/-- C8 (evaluation at the failing input): on the non-conforming input
`"symbol(a"` the scanner reads `bytes[i + 8]` after checking only
`i + 7 < n` (line 68 of `parsing.rs`) and aborts with an out-of-bounds
index instead of returning `ParseError`. -/
theorem c8_scanner_oob_panic :
    create_nfa_from_reg_ex "symbol(a".toList = ParseOutcome.panic := by
  decide

/-- C9 (counterexample): after `new(3); union(1,2); union(0,2)` the map
entry for element `2` is its stored parent `1`, while `find(2) = 0`; the
value `1` is not the canonical root of `2`'s class. -/
theorem c9_map_value_not_find_root :
    alook (dsu_chain.state_representative_map 0) 2 = some 1 ∧
    (dsu_chain.find_representative 2).1 = 0 ∧ (1 : Nat) ≠ 0 := by
  decide

/-- C9 (amended): for every DSU built by `new(n)` followed by `union`/`find`
operations, `state_representative_map(offset)` maps each element `i` to its
*stored parent* plus the offset — a class member `≤ i`, but (as the
counterexample shows) not in general the `find` root. -/
theorem c9_map_returns_stored_parent (d : DSU) (hd : DSU.Built d)
    (offset i : Nat) (hi : i < d.n) :
    alook (d.state_representative_map offset) (i + offset)
        = some (d.parent i + offset) ∧
    d.parent i ≤ i :=
  ⟨d.alook_state_representative_map offset i hi, DSU.built_parent_le hd i⟩

/-- C9 (witness for the amended claim, at `dsu_chain`, `offset = 0`,
`i = 2`). -/
theorem c9_map_returns_stored_parent_witness :
    alook (dsu_chain.state_representative_map 0) (2 + 0)
        = some (dsu_chain.parent 2 + 0) ∧
    dsu_chain.parent 2 ≤ 2 :=
  c9_map_returns_stored_parent dsu_chain
    (DSU.Built.union 0 2 (DSU.Built.union 1 2 (DSU.Built.new 3))) 0 2 (by decide)

/-- C10: `convert_to_dfa` initializes `num_states` as `2_u32.pow(n)` for the
NFA's state count `n`; for every NFA with at least 32 states the checked
power exceeds `u32::MAX` and fails, even though the field is subsequently
overwritten with the visited-subset count (line 509 of `dfa.rs`). -/
theorem c10_init_num_states_overflows (nfa : NFA) (h : 32 ≤ nfa.num_states) :
    DFA.convert_to_dfa_init_num_states nfa.num_states = none ∧
    (DFA.subset_construction nfa).num_states
      = (DFA.subset_construction_steps nfa).visited.length := by
  refine ⟨?_, rfl⟩
  unfold DFA.convert_to_dfa_init_num_states
  have h1 : (4294967295 : Nat) < 2 ^ 32 := by norm_num
  have h2 : (2 : Nat) ^ 32 ≤ 2 ^ nfa.num_states :=
    Nat.pow_le_pow_right (by norm_num) h
  rw [if_neg]
  omega

/-- C10 (witness at the 32-state `wide_nfa`). -/
theorem c10_init_num_states_overflows_witness :
    DFA.convert_to_dfa_init_num_states wide_nfa.num_states = none ∧
    (DFA.subset_construction wide_nfa).num_states
      = (DFA.subset_construction_steps wide_nfa).visited.length :=
  c10_init_num_states_overflows wide_nfa (by decide)

/-- C7: for every two well-formed DFAs (start state and transitions inside
the contiguous state range, transitions labelled with table characters —
the invariants every Rust `DFA` value maintains — with the `HashSet`
representation invariant that the character list is duplicate-free), each
total on non-epsilon symbols over its reachable part: when the symbol
tables differ, `intersection` is the fatal precondition failure (modelled
as `none`), and when they are equal it returns a DFA that accepts a string
exactly when both machines accept it. -/
theorem c7_intersection_accepts_iff_both (a b : DFA)
    (hwa : a.wf) (hwb : b.wf)
    (hnd : a.symbol_table.chars.Nodup)
    (hta : a.total_on_reachable = true) (htb : b.total_on_reachable = true) :
    (SymbolTable.tables_equal a.symbol_table b.symbol_table = false →
      a.intersection b = none) ∧
    (SymbolTable.tables_equal a.symbol_table b.symbol_table = true →
      ∀ w, (DFA.intersection_run a b w = RunResult.ok true ↔
        (a.run w = RunResult.ok true ∧ b.run w = RunResult.ok true))) := by
  constructor
  · intro hne
    unfold DFA.intersection
    rw [if_pos (by simp [hne])]
  · intro heq w
    have hint : a.intersection b = some (DFA.prodDFA a b).minimized_dfa := by
      unfold DFA.intersection
      rw [if_neg (by simp [heq])]
    have hir : DFA.intersection_run a b w
        = (DFA.prodDFA a b).minimized_dfa.run w := by
      unfold DFA.intersection_run
      rw [hint]
    rw [hir]
    have hmrun := (DFA.prodDFA a b).minimized_dfa_run rfl
      (DFA.prod_rows_labels a b hnd)
      (prodTF_keys_nodup a b hnd)
      (DFA.prod_total a b hnd hwa hwb hta htb heq) w
    rw [hmrun]
    have hrun0 : (DFA.prodDFA a b).run w
        = (DFA.prodDFA a b).runFrom
            (DFA.plook (DFA.pair_numbering a b) (a.start_state, b.start_state)) w := by
      rw [DFA.run, plook_start]
      rfl
    rw [hrun0]
    have hiff := DFA.prod_run_iff a b hwa hwb hnd hta htb heq w
      a.start_state b.start_state DFA.Reach.start DFA.Reach.start
    rw [DFA.run, DFA.run]
    exact hiff

/-- Witness for C7 at two concrete machines over `{a}`: the single-word
matcher for "a" intersected with the empty-word matcher, on the input
"a". -/
theorem c7_intersection_accepts_iff_both_witness :
    DFA.intersection_run (DFA.from_string ['a'] table_a)
        (DFA.from_string [] table_a) ['a'] = RunResult.ok true
      ↔ ((DFA.from_string ['a'] table_a).run ['a'] = RunResult.ok true ∧
         (DFA.from_string [] table_a).run ['a'] = RunResult.ok true) :=
  (c7_intersection_accepts_iff_both (DFA.from_string ['a'] table_a)
      (DFA.from_string [] table_a)
      (by unfold DFA.wf; decide) (by unfold DFA.wf; decide)
      (by decide) (by decide) (by decide)).2
    (by decide) ['a']

end GrepTool
